import Mathlib

/-!
Verification of the ADT repository: a left-leaning red-black tree
(`src/rbtree.h` and `src/rbtree/rbtree.h`, two variants with identical
algorithms) and an open-addressing hash map (`src/densemap/hashmap.h`).

The embedding models C++ null-pointer dereference (undefined behaviour)
by `Option`: a function returns `none` exactly when the C++ code would
dereference a null pointer or fail to terminate.  Recursions that are
not structural in the source (because the tree is rebalanced before the
recursive call) take an explicit fuel argument; public entry points pass
`size t + 1`, which bounds the recursion depth of the source algorithms.
-/

namespace rbtree

/-- Node colors, `enum { BLACK = false, RED = true }` in the source. -/
inductive Color where
  | red
  | black
  deriving DecidableEq, Repr

/-- `!color` from `colorFlip`. -/
def Color.flip : Color → Color
  | .red => .black
  | .black => .red

/-- The node structure of `rbtree<Key, Value>::Node`: key, value, left and
right subtrees and the color of the parent link; `nil` is the null pointer. -/
inductive Tree (α β : Type) where
  | nil : Tree α β
  | node (key : α) (value : β) (left right : Tree α β) (color : Color) : Tree α β
  deriving Repr

namespace Tree

variable {α β : Type}

/-- `isRed(p)`: false for the null pointer, otherwise the node's color test. -/
def isRed : Tree α β → Bool
  | .node _ _ _ _ .red => true
  | _ => false

/-- `p->left`, meaningful only when `p` is a node (all call sites below
use it on nodes only). -/
def leftChild : Tree α β → Tree α β
  | .nil => .nil
  | .node _ _ l _ _ => l

/-- `p->right`, meaningful only when `p` is a node. -/
def rightChild : Tree α β → Tree α β
  | .nil => .nil
  | .node _ _ _ r _ => r

/-- `p == nullptr`. -/
def isNil : Tree α β → Bool
  | .nil => true
  | _ => false

/-- Number of nodes; used as the fuel bound for the public operations. -/
def size : Tree α β → ℕ
  | .nil => 0
  | .node _ _ l r _ => size l + size r + 1

/-- `colorFlip(p)`: flips the color of `p`, `p->left` and `p->right`;
dereferences all three pointers, hence `none` unless all are nodes. -/
def colorFlip : Tree α β → Option (Tree α β)
  | .node k v (.node lk lv ll lr lc) (.node rk rv rl rr rc) c =>
      some (.node k v (.node lk lv ll lr lc.flip) (.node rk rv rl rr rc.flip) c.flip)
  | _ => none

/-- `rotateLeft(p)`: `x = p->right; p->right = x->left; x->left = p;
x->color = x->left->color; x->left->color = RED; return x`.  Requires
`p` and `p->right` to be nodes. -/
def rotateLeft : Tree α β → Option (Tree α β)
  | .node k v l (.node xk xv xl xr _) c =>
      some (.node xk xv (.node k v l xl .red) xr c)
  | _ => none

/-- `rotateRight(p)`: symmetric to `rotateLeft`. -/
def rotateRight : Tree α β → Option (Tree α β)
  | .node k v (.node xk xv xl xr _) r c =>
      some (.node xk xv xl (.node k v xr r .red) c)
  | _ => none

/-- `moveRedLeft(p)`: `colorFlip(p); if (isRed(p->right->left)) {
p->right = rotateRight(p->right); p = rotateLeft(p); colorFlip(p); }`. -/
def moveRedLeft (p : Tree α β) : Option (Tree α β) := do
  let p ← colorFlip p
  match p with
  | .node k v l (.node rk rv rl rr rc) c =>
      if isRed rl then do
        let r' ← rotateRight (.node rk rv rl rr rc)
        let p' ← rotateLeft (.node k v l r' c)
        colorFlip p'
      else
        pure (.node k v l (.node rk rv rl rr rc) c)
  | _ => none

/-- `moveRedRight(p)`: `colorFlip(p); if (isRed(p->left->left)) {
p = rotateRight(p); colorFlip(p); }`. -/
def moveRedRight (p : Tree α β) : Option (Tree α β) := do
  let p ← colorFlip p
  match p with
  | .node k v (.node lk lv ll lr lc) r c =>
      if isRed ll then do
        let p' ← rotateRight (.node k v (.node lk lv ll lr lc) r c)
        colorFlip p'
      else
        pure (.node k v (.node lk lv ll lr lc) r c)
  | _ => none

/-- `fixUp(p)`: rotate left if the right link is red, rotate right if the
left and left-left links are both red, color-flip if both children are red.
Dereferences `p`, hence `none` on the null pointer. -/
def fixUp : Tree α β → Option (Tree α β)
  | .nil => none
  | .node k v l r c => do
    let p ← if isRed r then rotateLeft (.node k v l r c) else pure (.node k v l r c)
    let p ←
      if isRed (leftChild p) && isRed (leftChild (leftChild p)) then rotateRight p
      else pure p
    if isRed (leftChild p) && isRed (rightChild p) then colorFlip p else pure p

/-- Recursive `deleteMin(p)`.  The source dereferences `p->left` at once,
hence `none` on the null pointer; when `p->left == nullptr` the node is
released and the null pointer returned. -/
def deleteMin : ℕ → Tree α β → Option (Tree α β)
  | 0, _ => none
  | _ + 1, .nil => none
  | _ + 1, .node _ _ .nil _ _ => some .nil
  | fuel + 1, .node k v (.node lk lv ll lr lc) r c => do
    let p ←
      if !isRed (Tree.node lk lv ll lr lc) && !isRed ll then
        moveRedLeft (.node k v (.node lk lv ll lr lc) r c)
      else
        pure (.node k v (.node lk lv ll lr lc) r c)
    match p with
    | .nil => none
    | .node k' v' l' r' c' => do
      let l'' ← deleteMin fuel l'
      fixUp (.node k' v' l'' r' c')

/-- Recursive `deleteMax(p)`. -/
def deleteMax : ℕ → Tree α β → Option (Tree α β)
  | 0, _ => none
  | _ + 1, .nil => none
  | fuel + 1, .node k v l r c => do
    let p ← if isRed l then rotateRight (.node k v l r c) else pure (.node k v l r c)
    match p with
    | .nil => none
    | .node _ _ _ .nil _ => pure .nil
    | .node k' v' l' (.node rk rv rl rr rc) c' => do
      let p ←
        if !isRed (Tree.node rk rv rl rr rc) && !isRed rl then
          moveRedRight (.node k' v' l' (.node rk rv rl rr rc) c')
        else
          pure (.node k' v' l' (.node rk rv rl rr rc) c')
      match p with
      | .nil => none
      | .node k2 v2 l2 r2 c2 => do
        let r3 ← deleteMax fuel r2
        fixUp (.node k2 v2 l2 r3 c2)

/-- `getInOrderSuccessorNode(p)` combined with reading its key and value:
`p = p->right; while (p->left != nullptr) p = p->left;`.  `none` when the
walk dereferences a null pointer (i.e. `p->right == nullptr`). -/
def leftmostKV : Tree α β → Option (α × β)
  | .nil => none
  | .node k v .nil _ _ => some (k, v)
  | .node _ _ (.node lk lv ll lr lc) _ _ => leftmostKV (.node lk lv ll lr lc)

def inOrderSuccessor : Tree α β → Option (α × β)
  | .nil => none
  | .node _ _ _ r _ => leftmostKV r

variable [LinearOrder α]

/-- Recursive `remove(p, key)`.  Mirrors the source exactly, including the
null dereference of `p->left->left` (resp. `p->right->left`) when the key
is absent and the search falls off the tree. -/
def remove : ℕ → Tree α β → α → Option (Tree α β)
  | 0, _, _ => none
  | _ + 1, .nil, _ => none
  | fuel + 1, .node key val l r c, k =>
    if k < key then
      match l with
      | .nil => none
      | .node lk lv ll lr lc => do
        let p ←
          if !isRed (Tree.node lk lv ll lr lc) && !isRed ll then
            moveRedLeft (.node key val (.node lk lv ll lr lc) r c)
          else
            pure (.node key val (.node lk lv ll lr lc) r c)
        match p with
        | .nil => none
        | .node k' v' l' r' c' => do
          let l'' ← remove fuel l' k
          fixUp (.node k' v' l'' r' c')
    else do
      let p ← if isRed l then rotateRight (.node key val l r c) else pure (.node key val l r c)
      match p with
      | .nil => none
      | .node k1 v1 l1 r1 c1 =>
        if k = k1 && isNil r1 then pure .nil
        else
          match r1 with
          | .nil => none
          | .node rk rv rl rr rc => do
            let p ←
              if !isRed (Tree.node rk rv rl rr rc) && !isRed rl then
                moveRedRight (.node k1 v1 l1 (.node rk rv rl rr rc) c1)
              else
                pure (.node k1 v1 l1 (.node rk rv rl rr rc) c1)
            match p with
            | .nil => none
            | .node k2 v2 l2 r2 c2 =>
              if k = k2 then do
                let sc ← inOrderSuccessor (.node k2 v2 l2 r2 c2)
                let r3 ← deleteMin fuel r2
                fixUp (.node sc.1 sc.2 l2 r3 c2)
              else do
                let r3 ← remove fuel r2 k
                fixUp (.node k2 v2 l2 r3 c2)

/-- Recursive `insert(p, key, value)`: top-down color flip of 4-nodes,
binary-search descent with in-place overwrite on key match, then the two
rebalancing rotations (written with explicit `Option.bind` so that each
statement of the source is one bind). -/
def insert : ℕ → Tree α β → α → β → Option (Tree α β)
  | 0, _, _, _ => none
  | _ + 1, .nil, k, v => some (.node k v .nil .nil .red)
  | fuel + 1, .node key val l r c, k, v =>
    (if isRed l && isRed r then colorFlip (.node key val l r c)
     else pure (.node key val l r c)).bind fun p =>
      match p with
      | .nil => none
      | .node key' val' l' r' c' =>
        (if k = key' then pure (.node key' v l' r' c')
         else if k < key' then
           (insert fuel l' k v).bind fun l'' => pure (.node key' val' l'' r' c')
         else
           (insert fuel r' k v).bind fun r'' => pure (.node key' val' l' r'' c')).bind fun p =>
          (if isRed (rightChild p) then rotateLeft p else pure p).bind fun p =>
            if isRed (leftChild p) && isRed (leftChild (leftChild p)) then rotateRight p
            else pure p

/-- Iterative private `get(p, key)`: binary-search descent; `none` models
the `throw key_not_found()` when the search reaches a null pointer. -/
def get : Tree α β → α → Option β
  | .nil, _ => none
  | .node key val l r _, k =>
    if k < key then get l k
    else if k > key then get r k
    else some val

/-- Public `put(key, value)`: `root = insert(root, key, value);
root->color = BLACK;`. -/
def put (t : Tree α β) (k : α) (v : β) : Option (Tree α β) :=
  (insert (size t + 1) t k v).bind fun t' =>
    match t' with
    | .nil => none
    | .node k' v' l r _ => some (.node k' v' l r .black)

/-- Public `remove(key)`: returns unchanged on an empty tree, otherwise
calls the recursive `remove` and re-blackens a non-null root. -/
def removePublic (t : Tree α β) (k : α) : Option (Tree α β) :=
  match t with
  | .nil => some .nil
  | .node key val l r c => do
    let t' ← remove (size (Tree.node key val l r c) + 1) (.node key val l r c) k
    match t' with
    | .nil => pure .nil
    | .node k' v' l' r' _ => pure (.node k' v' l' r' .black)

/-- Public `deleteMin()`: `root = deleteMin(root); root->color = BLACK;` —
the final assignment dereferences the root unconditionally. -/
def deleteMinPublic (t : Tree α β) : Option (Tree α β) := do
  let t' ← deleteMin (size t + 1) t
  match t' with
  | .nil => none
  | .node k v l r _ => some (.node k v l r .black)

/-- Public `deleteMax()`: same pattern as `deleteMinPublic`. -/
def deleteMaxPublic (t : Tree α β) : Option (Tree α β) := do
  let t' ← deleteMax (size t + 1) t
  match t' with
  | .nil => none
  | .node k v l r _ => some (.node k v l r .black)

/-- Public `contains(key)`: `return get(key) != nullptr;` — the lookup is
the throwing `get`, so a raised `key_not_found` propagates (`none`), and a
found value is compared against `nullptr` (`isNullValue`). -/
def containsImpl (isNullValue : β → Bool) (t : Tree α β) (k : α) : Option Bool :=
  match get t k with
  | none => none
  | some v => some (!isNullValue v)

/-- In-order `traverse(f)`: the functor is invoked on `root->value` between
the two recursive calls; this returns the list of visited values in visit
order. -/
def traverse : Tree α β → List β
  | .nil => []
  | .node _ v l r _ => traverse l ++ v :: traverse r

/-- In-order list of (key, value) pairs, for stating ordering claims. -/
def inorder : Tree α β → List (α × β)
  | .nil => []
  | .node k v l r _ => inorder l ++ (k, v) :: inorder r

end Tree

open Tree

/-- A sequence of public ordered-map operations (claim C1 quantifies over
`put` and `remove` sequences). -/
inductive Op (α β : Type) where
  | put (k : α) (v : β)
  | remove (k : α)
  deriving Repr

/-- Run a sequence of public operations from a given tree; `none` as soon
as one operation hits undefined behaviour. -/
def applyOp [LinearOrder α] (t : Tree α β) : Op α β → Option (Tree α β)
  | .put k v => t.put k v
  | .remove k => t.removePublic k

def runOps [LinearOrder α] (ops : List (Op α β)) : Option (Tree α β) :=
  ops.foldlM applyOp .nil

/-- Black height check: `some n` when every root-to-null path passes the
same number `n` of black nodes, `none` otherwise. -/
def bh? : Tree α β → Option ℕ
  | .nil => some 0
  | .node _ _ l r c => do
    let a ← bh? l
    let b ← bh? r
    if a = b then some (a + (match c with | .black => 1 | .red => 0)) else none

/-- The claimed invariant: no red link is a right link. -/
def noRedRight : Tree α β → Bool
  | .nil => true
  | .node _ _ l r _ => !(isRed r) && noRedRight l && noRedRight r

/-- Color discipline of the 2-3-4 left-leaning representation: a red right
child occurs only alongside a red left child (a 4-node), and a red node
has no red child. -/
def okColors : Tree α β → Bool
  | .nil => true
  | .node _ _ l r c =>
      okColors l && okColors r &&
      (!(isRed r) || isRed l) &&
      (match c with | .red => !(isRed l) && !(isRed r) | .black => true)

/-! ### Association-list model for the put/get/traverse claims -/

variable {α β : Type}

/-- Keys of an association list. -/
def keys (l : List (α × β)) : List α := l.map Prod.fst

/-- Association-list lookup by key. -/
def findKV [DecidableEq α] : List (α × β) → α → Option β
  | [], _ => none
  | (k', v') :: rest, k => if k = k' then some v' else findKV rest k

/-- Sorted insertion-or-replacement into an association list: the abstract
effect of one `put`. -/
def listIns [LinearOrder α] (k : α) (v : β) : List (α × β) → List (α × β)
  | [] => [(k, v)]
  | (k', v') :: rest =>
    if k < k' then (k, v) :: (k', v') :: rest
    else if k = k' then (k, v) :: rest
    else (k', v') :: listIns k v rest

/-- The map contents after a sequence of `put (k, v)` calls. -/
def modelList [LinearOrder α] (l : List (α × β)) : List (α × β) :=
  l.foldl (fun m kv => listIns kv.1 kv.2 m) []

/-- The value of the most recent put of key `k` in the call sequence `l`
(the claim's own notion of "the last-put value"). -/
def lastPut [DecidableEq α] (l : List (α × β)) (k : α) : Option β :=
  (l.reverse.find? (fun p => p.1 = k)).map Prod.snd

/-- Run a sequence of `put` calls from the empty tree. -/
def runPuts [LinearOrder α] (l : List (α × β)) : Option (Tree α β) :=
  l.foldlM (fun t kv => t.put kv.1 kv.2) .nil

end rbtree

/-!
## The open-addressing hash map (`src/densemap/hashmap.h`)

Buckets hold a key field that is a real key, the reserved `EMPTY`
sentinel or the reserved `TOMBSTONE` sentinel; `HashMapInfo` guarantees
both sentinels differ from every real key and from each other, so the
embedding separates them by constructor.  The value field exists only
for real keys.  `LookupBucketFor`'s probing loop does not terminate when
the table has no equal key and no `EMPTY` bucket on the probe cycle; the
loop carries fuel (more than the square of the bucket count, far beyond
the bucket count bound that power-of-two coverage gives), and `none`
models non-termination.  Arithmetic on the 32-bit `unsigned` counters is
taken modulo `2^32` (`u32`, `usub`).
-/

namespace densemap

/-- A bucket: the key field holds `EMPTY`, `TOMBSTONE`, or a real key;
the value is constructed only alongside a real key. -/
inductive Slot (κ ν : Type) where
  | empty
  | tombstone
  | full (key : κ) (value : ν)
  deriving DecidableEq, Repr

/-- Truncation to a 32-bit `unsigned`. -/
def u32 (a : ℕ) : ℕ := a % 2 ^ 32

/-- 32-bit unsigned subtraction `a - b` (wrapping). -/
def usub (a b : ℕ) : ℕ := (a + (2 ^ 32 - b % 2 ^ 32)) % 2 ^ 32

/-- `NextPowerOf2(A)` from `math_utils.h`: smear the highest set bit
rightward, then add one (computed on `uint64_t`). -/
def NextPowerOf2 (A : ℕ) : ℕ :=
  let a1 := A ||| (A >>> 1)
  let a2 := a1 ||| (a1 >>> 2)
  let a3 := a2 ||| (a2 >>> 4)
  let a4 := a3 ||| (a3 >>> 8)
  let a5 := a4 ||| (a4 >>> 16)
  let a6 := a5 ||| (a5 >>> 32)
  a6 + 1

/-- `countLeadingZeros` on a 32-bit value: the `__builtin_clz` semantics
(bisection loop of `math_utils.h`), i.e. 32 minus the bit length; 32 for
zero. -/
def countLeadingZeros32 (v : ℕ) : ℕ := 32 - Nat.size v

/-- `Log2_32_Ceil(Value) = 32 - countLeadingZeros(Value - 1)` with 32-bit
wrap-around of `Value - 1`. -/
def Log2_32_Ceil (v : ℕ) : ℕ := 32 - countLeadingZeros32 (usub v 1)

variable {κ ν : Type} [DecidableEq κ]

/-- The bucket slot at a position (`EMPTY` out of range; positions are
always masked in range). -/
def slotAt (buckets : List (Slot κ ν)) (i : ℕ) : Slot κ ν := buckets.getD i .empty

/-- Spec-side probe sequence: position of the `i`-th probe for `key`. -/
def probePos (hash : κ → ℕ) (cap : ℕ) (k : κ) (i : ℕ) : ℕ :=
  (hash k % cap + i * (i + 1) / 2) % cap

/-- Does the `i`-th probed bucket hold a key equal to the lookup key? -/
def holdsKey (buckets : List (Slot κ ν)) (k : κ) (pos : ℕ) : Bool :=
  match slotAt buckets pos with
  | .full k' _ => k = k'
  | _ => false

/-- Is the probed bucket `EMPTY` (the miss terminator)? -/
def isEmptyAt (buckets : List (Slot κ ν)) (pos : ℕ) : Bool :=
  match slotAt buckets pos with
  | .empty => true
  | _ => false

/-- Is the probed bucket a `TOMBSTONE`? -/
def isTombAt (buckets : List (Slot κ ν)) (pos : ℕ) : Bool :=
  match slotAt buckets pos with
  | .tombstone => true
  | _ => false

/-- The probing loop body of `LookupBucketFor`: `BucketNo` is the current
bucket, `ProbeAmt` the next increment, `foundTombstone` the first
tombstone bucket seen.  Each iteration checks key equality, then `EMPTY`,
then records a tombstone, and otherwise continues with
`BucketNo += ProbeAmt++; BucketNo &= (num_buckets_ - 1)`. -/
def lookupLoop (buckets : List (Slot κ ν)) (val : κ) :
    ℕ → ℕ → ℕ → Option ℕ → Option (Bool × ℕ)
  | 0, _, _, _ => none
  | fuel + 1, bucketNo, probeAmt, foundTombstone =>
    match buckets.getD bucketNo .empty with
    | .full k _ =>
      if val = k then some (true, bucketNo)
      else
        lookupLoop buckets val fuel ((bucketNo + probeAmt) &&& (buckets.length - 1))
          (probeAmt + 1) foundTombstone
    | .empty => some (false, foundTombstone.getD bucketNo)
    | .tombstone =>
      lookupLoop buckets val fuel ((bucketNo + probeAmt) &&& (buckets.length - 1))
        (probeAmt + 1) (some (foundTombstone.getD bucketNo))

/-- `LookupBucketFor(Val, FoundBucket)`: `(found?, FoundBucket)` where the
bucket index is `none` exactly when the C++ leaves `FoundBucket` null
(zero capacity); the outer `Option` is the loop's termination. -/
def LookupBucketFor (hash : κ → ℕ) (buckets : List (Slot κ ν)) (val : κ) :
    Option (Bool × Option ℕ) :=
  if buckets.length = 0 then some (false, none)
  else
    (lookupLoop buckets val (buckets.length * buckets.length + 1)
        (hash val &&& (buckets.length - 1)) 1 none).map
      (fun r => (r.1, some r.2))

/-- `moveFromOldBuckets` at the bucket-array level: fold the live entries
of the old array into a fresh array, locating each destination bucket by
`LookupBucketFor` and counting the reinserted entries. -/
def reinsertList (hash : κ → ℕ) (old : List (Slot κ ν))
    (fresh : List (Slot κ ν)) : Option (List (Slot κ ν) × ℕ) :=
  old.foldlM
    (fun acc slot =>
      match slot with
      | .full k v =>
        (LookupBucketFor hash acc.1 k).bind fun r =>
          match r.2 with
          | none => none
          | some i => some (acc.1.set i (.full k v), acc.2 + 1)
      | _ => some acc)
    (fresh, 0)

/-- The per-entry step of `moveFromOldBuckets` (the fold body of
`reinsertList`). -/
def reinsertStep (hash : κ → ℕ) (acc : List (Slot κ ν) × ℕ) (slot : Slot κ ν) :
    Option (List (Slot κ ν) × ℕ) :=
  match slot with
  | .full k v =>
    (LookupBucketFor hash acc.1 k).bind fun r =>
      match r.2 with
      | none => none
      | some i => some (acc.1.set i (.full k v), acc.2 + 1)
  | _ => some acc

/-- The heap-backed `HashMap`: bucket array and the two 32-bit counters
(`num_buckets_` always equals the array length). -/
structure HashMap (κ ν : Type) where
  Buckets : List (Slot κ ν)
  num_entries_ : ℕ
  num_to_mbstones_ : ℕ
  deriving Repr, DecidableEq

namespace HashMap

/-- `getMinBucketToReserveForEntries`: 0, or the next power of two above
`num_entries * 4 / 3` (assigned to a 32-bit `unsigned`). -/
def getMinBucketToReserveForEntries (numEntries : ℕ) : ℕ :=
  if numEntries = 0 then 0 else u32 (NextPowerOf2 (u32 (numEntries * 4) / 3 + 1))

/-- The constructor `HashMap(InitialReserve)` via `init`. -/
def init (initNumEntries : ℕ) : HashMap κ ν :=
  { Buckets := List.replicate (getMinBucketToReserveForEntries initNumEntries) .empty,
    num_entries_ := 0, num_to_mbstones_ := 0 }

/-- `HashMap::Grow(AtLeast)`: allocate `max(64, NextPowerOf2(AtLeast-1))`
buckets; if there was no old array just initialize empty, otherwise
re-insert every live entry (`moveFromOldBuckets`). -/
def Grow (hash : κ → ℕ) (m : HashMap κ ν) (atLeast : ℕ) : Option (HashMap κ ν) :=
  let newNumBuckets := max 64 (u32 (NextPowerOf2 (usub atLeast 1)))
  if m.Buckets.length = 0 then
    some { Buckets := List.replicate newNumBuckets .empty,
           num_entries_ := 0, num_to_mbstones_ := 0 }
  else
    (reinsertList hash m.Buckets (List.replicate newNumBuckets .empty)).map
      fun bn => { Buckets := bn.1, num_entries_ := bn.2, num_to_mbstones_ := 0 }

/-- `InsertIntoBucketImpl`: check the growth threshold
(`NewNumEntries*4 >= NumBuckets*3`) and the tombstone-crowding threshold,
growing and re-probing if triggered; then bump the entry count and, when
overwriting a non-`EMPTY` (i.e. tombstone) bucket, drop the tombstone
count.  Returns the state and the target bucket. -/
def InsertIntoBucketImpl (hash : κ → ℕ) (m : HashMap κ ν) (key : κ)
    (theBucket : Option ℕ) : Option (HashMap κ ν × ℕ) :=
  let newNumEntries := m.num_entries_ + 1
  let numBuckets := m.Buckets.length
  (if u32 (newNumEntries * 4) ≥ u32 (numBuckets * 3) then
     (Grow hash m (u32 (numBuckets * 2))).bind fun m2 =>
       (LookupBucketFor hash m2.Buckets key).bind fun r => some (m2, r.2)
   else if usub numBuckets (newNumEntries + m.num_to_mbstones_) ≤ numBuckets / 8 then
     (Grow hash m numBuckets).bind fun m2 =>
       (LookupBucketFor hash m2.Buckets key).bind fun r => some (m2, r.2)
   else some (m, theBucket)).bind fun mb =>
    match mb.2 with
    | none => none
    | some i =>
      let m3 := { mb.1 with num_entries_ := mb.1.num_entries_ + 1 }
      some (if isEmptyAt m3.Buckets i
            then (m3, i)
            else ({ m3 with num_to_mbstones_ := usub m3.num_to_mbstones_ 1 }, i))

/-- `try_emplace(Key, Args...)`: return the existing bucket with `false`
if the key is present; otherwise insert a new entry (key written, value
constructed in place) and return its bucket with `true`. -/
def try_emplace (hash : κ → ℕ) (m : HashMap κ ν) (k : κ) (v : ν) :
    Option (HashMap κ ν × ℕ × Bool) :=
  (LookupBucketFor hash m.Buckets k).bind fun r =>
    if r.1 then
      match r.2 with
      | some i => some (m, i, false)
      | none => none
    else
      (InsertIntoBucketImpl hash m k r.2).bind fun mi =>
        some ({ mi.1 with Buckets := mi.1.Buckets.set mi.2 (.full k v) }, mi.2, true)

/-- `erase(Val)`: not-found is a silent `false`; otherwise destroy the
value, write the tombstone key, decrement entries, increment tombstones. -/
def erase (hash : κ → ℕ) (m : HashMap κ ν) (k : κ) : Option (HashMap κ ν × Bool) :=
  (LookupBucketFor hash m.Buckets k).bind fun r =>
    if r.1 then
      match r.2 with
      | some i =>
        some ({ Buckets := m.Buckets.set i .tombstone,
                num_entries_ := usub m.num_entries_ 1,
                num_to_mbstones_ := m.num_to_mbstones_ + 1 }, true)
      | none => none
    else some (m, false)

/-- `find(Val)`: the lookup result as seen by callers — `some value` on a
hit, `none` on a miss (an end iterator). -/
def find (hash : κ → ℕ) (m : HashMap κ ν) (k : κ) : Option (Option ν) :=
  (LookupBucketFor hash m.Buckets k).map fun r =>
    if r.1 then
      match r.2 with
      | some i =>
        match m.Buckets.getD i .empty with
        | .full _ v => some v
        | _ => none
      | none => none
    else none

/-- `shrink_and_clear()`: destroy everything, then re-init with
`max(64, 1 << (Log2_32_Ceil(old entries) + 1))` buckets (0 when empty) —
passed to `init`, whose parameter is an entry count. -/
def shrink_and_clear (m : HashMap κ ν) : HashMap κ ν :=
  let oldNumEntries := m.num_entries_
  let newNumBuckets :=
    if oldNumEntries ≠ 0 then max 64 (2 ^ (Log2_32_Ceil oldNumEntries + 1)) else 0
  if newNumBuckets = m.Buckets.length then
    { Buckets := List.replicate m.Buckets.length .empty,
      num_entries_ := 0, num_to_mbstones_ := 0 }
  else init newNumBuckets

/-- `clear()`: nothing to do when empty; shrink when the table is large
and sparsely used; otherwise reset every bucket to `EMPTY` in place. -/
def clear (m : HashMap κ ν) : HashMap κ ν :=
  if m.num_entries_ = 0 ∧ m.num_to_mbstones_ = 0 then m
  else if u32 (m.num_entries_ * 4) < m.Buckets.length ∧ m.Buckets.length > 64 then
    shrink_and_clear m
  else
    { Buckets := List.replicate m.Buckets.length .empty,
      num_entries_ := 0, num_to_mbstones_ := 0 }

/-- `reserve(num_entries)`: grow if the required bucket count exceeds the
current one. -/
def reserve (hash : κ → ℕ) (m : HashMap κ ν) (numEntries : ℕ) : Option (HashMap κ ν) :=
  let numBuckets := getMinBucketToReserveForEntries numEntries
  if numBuckets > m.Buckets.length then Grow hash m numBuckets else some m

end HashMap

/-- A sequence of public `HashMap` operations (claim C4). -/
inductive HOp (κ ν : Type) where
  | insert (k : κ) (v : ν)
  | erase (k : κ)
  | clear
  | reserve (n : ℕ)

def applyHOp (hash : κ → ℕ) (m : HashMap κ ν) : HOp κ ν → Option (HashMap κ ν)
  | .insert k v => (HashMap.try_emplace hash m k v).map (·.1)
  | .erase k => (HashMap.erase hash m k).map (·.1)
  | .clear => some (HashMap.clear m)
  | .reserve n => HashMap.reserve hash m n

/-- Run a sequence of `HashMap` operations from construction with an
initial reserve. -/
def runHOps (hash : κ → ℕ) (initialReserve : ℕ) (ops : List (HOp κ ν)) :
    Option (HashMap κ ν) :=
  ops.foldlM (applyHOp hash) (HashMap.init initialReserve)

/-- The `SmallHashMap`: a discriminant (`Small`), the active bucket
storage (the inline array of `InlineBuckets` slots when small, the heap
array otherwise) and the two counters. -/
structure SmallHashMap (κ ν : Type) where
  Small : Bool
  storage : List (Slot κ ν)
  num_entries_ : ℕ
  num_to_mbstones_ : ℕ
  deriving Repr, DecidableEq

namespace SmallHashMap

variable (N : ℕ)

/-- `SmallHashMap(NumInitBuckets)` via `init`: large verbatim allocation
when the request exceeds the inline capacity `N`, inline otherwise. -/
def init (initBuckets : ℕ) : SmallHashMap κ ν :=
  if initBuckets > N then
    { Small := false, storage := List.replicate initBuckets .empty,
      num_entries_ := 0, num_to_mbstones_ := 0 }
  else
    { Small := true, storage := List.replicate N .empty,
      num_entries_ := 0, num_to_mbstones_ := 0 }

/-- `SmallHashMap::Grow(AtLeast)`: round up once past the inline
capacity; a small map either stays put or moves its live inline entries
to a fresh heap array; a large map rehashes into a fresh array (or back
into the inline storage when the request fits). -/
def Grow (hash : κ → ℕ) (m : SmallHashMap κ ν) (atLeast0 : ℕ) :
    Option (SmallHashMap κ ν) :=
  let atLeast := if atLeast0 ≥ N then max 64 (u32 (NextPowerOf2 (usub atLeast0 1)))
                 else atLeast0
  if m.Small then
    if atLeast < N then some m
    else
      (reinsertList hash m.storage (List.replicate atLeast .empty)).map fun bn =>
        { Small := false, storage := bn.1, num_entries_ := bn.2, num_to_mbstones_ := 0 }
  else
    if atLeast ≤ N then
      (reinsertList hash m.storage (List.replicate N .empty)).map fun bn =>
        { Small := true, storage := bn.1, num_entries_ := bn.2, num_to_mbstones_ := 0 }
    else
      (reinsertList hash m.storage (List.replicate atLeast .empty)).map fun bn =>
        { Small := false, storage := bn.1, num_entries_ := bn.2, num_to_mbstones_ := 0 }

/-- `InsertIntoBucketImpl` for the small map (the shared base code with
the derived `Grow`). -/
def InsertIntoBucketImpl (hash : κ → ℕ) (m : SmallHashMap κ ν) (key : κ)
    (theBucket : Option ℕ) : Option (SmallHashMap κ ν × ℕ) :=
  let newNumEntries := m.num_entries_ + 1
  let numBuckets := m.storage.length
  (if u32 (newNumEntries * 4) ≥ u32 (numBuckets * 3) then
     (Grow N hash m (u32 (numBuckets * 2))).bind fun m2 =>
       (LookupBucketFor hash m2.storage key).bind fun r => some (m2, r.2)
   else if usub numBuckets (newNumEntries + m.num_to_mbstones_) ≤ numBuckets / 8 then
     (Grow N hash m numBuckets).bind fun m2 =>
       (LookupBucketFor hash m2.storage key).bind fun r => some (m2, r.2)
   else some (m, theBucket)).bind fun mb =>
    match mb.2 with
    | none => none
    | some i =>
      let m3 := { mb.1 with num_entries_ := mb.1.num_entries_ + 1 }
      some (if isEmptyAt m3.storage i
            then (m3, i)
            else ({ m3 with num_to_mbstones_ := usub m3.num_to_mbstones_ 1 }, i))

/-- `try_emplace` for the small map. -/
def try_emplace (hash : κ → ℕ) (m : SmallHashMap κ ν) (k : κ) (v : ν) :
    Option (SmallHashMap κ ν × ℕ × Bool) :=
  (LookupBucketFor hash m.storage k).bind fun r =>
    if r.1 then
      match r.2 with
      | some i => some (m, i, false)
      | none => none
    else
      (InsertIntoBucketImpl N hash m k r.2).bind fun mi =>
        some ({ mi.1 with storage := mi.1.storage.set mi.2 (.full k v) }, mi.2, true)

/-- `find` for the small map. -/
def find (hash : κ → ℕ) (m : SmallHashMap κ ν) (k : κ) : Option (Option ν) :=
  (LookupBucketFor hash m.storage k).map fun r =>
    if r.1 then
      match r.2 with
      | some i =>
        match m.storage.getD i .empty with
        | .full _ v => some v
        | _ => none
      | none => none
    else none

/-- `erase` for the small map. -/
def erase (hash : κ → ℕ) (m : SmallHashMap κ ν) (k : κ) :
    Option (SmallHashMap κ ν × Bool) :=
  (LookupBucketFor hash m.storage k).bind fun r =>
    if r.1 then
      match r.2 with
      | some i =>
        some ({ m with
                storage := m.storage.set i Slot.tombstone,
                num_entries_ := usub m.num_entries_ 1,
                num_to_mbstones_ := m.num_to_mbstones_ + 1 }, true)
      | none => none
    else some (m, false)

/-- `shrink_and_clear()` for the small map. -/
def shrink_and_clear (m : SmallHashMap κ ν) : SmallHashMap κ ν :=
  let oldSize := m.num_entries_
  let newNumBuckets0 := if oldSize ≠ 0 then 2 ^ (Log2_32_Ceil oldSize + 1) else 0
  let newNumBuckets := if oldSize ≠ 0 ∧ newNumBuckets0 > N ∧ newNumBuckets0 < 64
                       then 64 else newNumBuckets0
  if (m.Small ∧ newNumBuckets ≤ N) ∨ (¬m.Small ∧ newNumBuckets = m.storage.length) then
    { Small := m.Small, storage := List.replicate m.storage.length .empty,
      num_entries_ := 0, num_to_mbstones_ := 0 }
  else init N newNumBuckets

/-- `clear()` for the small map (the shared base code). -/
def clear (m : SmallHashMap κ ν) : SmallHashMap κ ν :=
  if m.num_entries_ = 0 ∧ m.num_to_mbstones_ = 0 then m
  else if u32 (m.num_entries_ * 4) < m.storage.length ∧ m.storage.length > 64 then
    shrink_and_clear N m
  else
    { Small := m.Small, storage := List.replicate m.storage.length .empty,
      num_entries_ := 0, num_to_mbstones_ := 0 }

/-- `reserve` for the small map (the shared base code). -/
def reserve (hash : κ → ℕ) (m : SmallHashMap κ ν) (numEntries : ℕ) :
    Option (SmallHashMap κ ν) :=
  let numBuckets := HashMap.getMinBucketToReserveForEntries numEntries
  if numBuckets > m.storage.length then Grow N hash m numBuckets else some m

end SmallHashMap

/-- A sequence of public `SmallHashMap` operations. -/
inductive SOp (κ ν : Type) where
  | insert (k : κ) (v : ν)
  | erase (k : κ)
  | clear
  | reserve (n : ℕ)

def applySOp (N : ℕ) (hash : κ → ℕ) (m : SmallHashMap κ ν) :
    SOp κ ν → Option (SmallHashMap κ ν)
  | .insert k v => (SmallHashMap.try_emplace N hash m k v).map (·.1)
  | .erase k => (SmallHashMap.erase hash m k).map (·.1)
  | .clear => some (SmallHashMap.clear N m)
  | .reserve n => SmallHashMap.reserve N hash m n

/-- Run a sequence of `SmallHashMap` operations from construction. -/
def runSOps (N : ℕ) (hash : κ → ℕ) (initBuckets : ℕ) (ops : List (SOp κ ν)) :
    Option (SmallHashMap κ ν) :=
  ops.foldlM (applySOp N hash) (SmallHashMap.init N initBuckets)

/-! Spec-side description of the probing contract (claim C5), written
from the claim's words: probing starts at `hash(key) mod capacity` and
follows the triangular-increment chain. -/

/-- A probe index at which the loop stops: equal key or `EMPTY`. -/
def stopsAt (hash : κ → ℕ) (buckets : List (Slot κ ν)) (k : κ) (i : ℕ) : Bool :=
  holdsKey buckets k (probePos hash buckets.length k i) ||
    isEmptyAt buckets (probePos hash buckets.length k i)

/-- The first stopping probe index within the first `capacity` probes. -/
def firstStop (hash : κ → ℕ) (buckets : List (Slot κ ν)) (k : κ) : Option ℕ :=
  (List.range buckets.length).find? (stopsAt hash buckets k)

/-- The position of the first tombstone strictly before probe `i0`. -/
def firstTombBefore (hash : κ → ℕ) (buckets : List (Slot κ ν)) (k : κ)
    (i0 : ℕ) : Option ℕ :=
  ((List.range i0).find? (fun j => isTombAt buckets (probePos hash buckets.length k j))).map
    (fun j => probePos hash buckets.length k j)


/-! Structure-tracking predicates for the hash-map invariants (claim C4):
the live-slot and tombstone counters of a bucket array, its list of stored
keys, and findability of every stored key via `LookupBucketFor`. -/

/-- Is a slot live (`full`)? -/
def isFullSlot : Slot κ ν → Bool
  | .full _ _ => true
  | _ => false

/-- Number of live (`full`) slots of a bucket array. -/
def countFull (l : List (Slot κ ν)) : ℕ := l.countP isFullSlot

/-- The keys stored in a bucket array, in slot order. -/
def keysOf (l : List (Slot κ ν)) : List κ :=
  l.filterMap fun s =>
    match s with
    | .full k _ => some k
    | _ => none

/-- Every stored key is found by `LookupBucketFor` at its own bucket. -/
def Findable (hash : κ → ℕ) (B : List (Slot κ ν)) : Prop :=
  ∀ i k v, B.getD i .empty = Slot.full k v →
    LookupBucketFor hash B k = some (true, some i)

/-- The well-formedness invariant of the heap-backed `HashMap` maintained by
every public operation: power-of-two (or zero) capacity, an entry counter
equal to the number of live slots, the load bound below the resize threshold
whenever the table is allocated, pairwise-distinct stored keys, and
findability of every stored key. -/
def HInv (hash : κ → ℕ) (m : HashMap κ ν) : Prop :=
  (m.Buckets.length = 0 ∨ ∃ j, 1 ≤ j ∧ j ≤ 31 ∧ m.Buckets.length = 2 ^ j) ∧
  m.num_entries_ = countFull m.Buckets ∧
  (0 < m.Buckets.length → m.num_entries_ * 4 < m.Buckets.length * 3) ∧
  (keysOf m.Buckets).Nodup ∧
  Findable hash m.Buckets

/-! ### The probing contract of `LookupBucketFor` (claim C5) -/

theorem tri_succ (i : ℕ) : (i + 1) * (i + 2) / 2 = i * (i + 1) / 2 + (i + 1) := by
  have h : (i + 1) * (i + 2) = i * (i + 1) + 2 * (i + 1) := by ring
  have he : i * (i + 1) % 2 = 0 := Nat.even_iff.mp (Nat.even_mul_succ_self i)
  omega

theorem probePos_succ (hash : κ → ℕ) (c : ℕ) (k : κ) (i : ℕ) :
    probePos hash c k (i + 1) = (probePos hash c k i + (i + 1)) % c := by
  simp only [probePos]
  conv_rhs => rw [Nat.mod_add_mod]
  rw [tri_succ, ← Nat.add_assoc]

theorem probePos_lt (hash : κ → ℕ) {c : ℕ} (k : κ) (i : ℕ) (hc : 0 < c) :
    probePos hash c k i < c := by
  unfold probePos
  exact Nat.mod_lt _ hc

/-- Triangular numbers are pairwise distinct modulo a power of two below it. -/
theorem tri_mod_inj {w i j : ℕ} (hji : j ≤ i) (hi : i < 2 ^ w)
    (h : i * (i + 1) / 2 % 2 ^ w = j * (j + 1) / 2 % 2 ^ w) : i = j := by
  by_contra hne
  have hlt : j < i := lt_of_le_of_ne hji fun e => hne e.symm
  have hmod : j * (j + 1) / 2 ≡ i * (i + 1) / 2 [MOD 2 ^ w] := h.symm
  have hdZ : ((2 ^ w : ℕ) : ℤ) ∣ ((i * (i + 1) / 2 : ℕ) : ℤ) - ((j * (j + 1) / 2 : ℕ) : ℤ) :=
    hmod.dvd
  have h1 : ((i * (i + 1) / 2 : ℕ) : ℤ) * 2 = (i : ℤ) * ((i : ℤ) + 1) := by
    have hh : i * (i + 1) / 2 * 2 = i * (i + 1) :=
      Nat.div_mul_cancel (Nat.even_mul_succ_self i).two_dvd
    exact_mod_cast hh
  have h2 : ((j * (j + 1) / 2 : ℕ) : ℤ) * 2 = (j : ℤ) * ((j : ℤ) + 1) := by
    have hh : j * (j + 1) / 2 * 2 = j * (j + 1) :=
      Nat.div_mul_cancel (Nat.even_mul_succ_self j).two_dvd
    exact_mod_cast hh
  have hfac : ((2 : ℤ) ^ (w + 1)) ∣ ((i : ℤ) - j) * ((i : ℤ) + j + 1) := by
    obtain ⟨c, hc⟩ := hdZ
    refine ⟨c, ?_⟩
    have hexp : ((i : ℤ) - j) * ((i : ℤ) + j + 1) =
        (((i * (i + 1) / 2 : ℕ) : ℤ) - ((j * (j + 1) / 2 : ℕ) : ℤ)) * 2 := by
      linear_combination h2 - h1
    rw [hexp, hc]
    push_cast
    ring
  have hfacN : 2 ^ (w + 1) ∣ (i - j) * (i + j + 1) := by
    have hcast : (((i - j) * (i + j + 1) : ℕ) : ℤ) = ((i : ℤ) - j) * ((i : ℤ) + j + 1) := by
      push_cast [hji]
      ring
    have hz : ((2 ^ (w + 1) : ℕ) : ℤ) ∣ (((i - j) * (i + j + 1) : ℕ) : ℤ) := by
      rw [hcast]
      push_cast
      exact hfac
    exact_mod_cast hz
  have hpow2 : (2 : ℕ) ^ (w + 1) = 2 ^ w + 2 ^ w := by
    rw [pow_succ]
    ring
  rcases Nat.even_or_odd (i - j) with he | ho
  · have hodd : Odd (i + j + 1) :=
      Even.add_one (Nat.even_add.mpr ((Nat.even_sub hji).mp he))
    have hcop : Nat.Coprime (2 ^ (w + 1)) (i + j + 1) :=
      Nat.Coprime.pow_left _ (Nat.coprime_two_left.mpr hodd)
    have hdd : 2 ^ (w + 1) ∣ (i - j) := hcop.dvd_of_dvd_mul_right hfacN
    have hle := Nat.le_of_dvd (by omega) hdd
    omega
  · have hcop : Nat.Coprime (2 ^ (w + 1)) (i - j) :=
      Nat.Coprime.pow_left _ (Nat.coprime_two_left.mpr ho)
    have hdd : 2 ^ (w + 1) ∣ (i + j + 1) := hcop.dvd_of_dvd_mul_left hfacN
    have hle := Nat.le_of_dvd (by omega) hdd
    omega

/-- The triangular probe sequence is injective over the first `2^w` probes. -/
theorem probePos_inj (hash : κ → ℕ) (k : κ) {w i j : ℕ} (hi : i < 2 ^ w) (hj : j < 2 ^ w)
    (h : probePos hash (2 ^ w) k i = probePos hash (2 ^ w) k j) : i = j := by
  have hT : i * (i + 1) / 2 % 2 ^ w = j * (j + 1) / 2 % 2 ^ w := by
    have h' : (hash k % 2 ^ w + i * (i + 1) / 2) % 2 ^ w =
        (hash k % 2 ^ w + j * (j + 1) / 2) % 2 ^ w := h
    exact Nat.ModEq.add_left_cancel' _ h'
  rcases le_total j i with hji | hij
  · exact tri_mod_inj hji hi hT
  · exact (tri_mod_inj hij hj hT.symm).symm

/-- The first `2^w` probes cover every bucket position. -/
theorem probePos_surj (hash : κ → ℕ) (k : κ) {w p : ℕ} (hp : p < 2 ^ w) :
    ∃ i, i < 2 ^ w ∧ probePos hash (2 ^ w) k i = p := by
  have hpos : 0 < 2 ^ w := pow_pos (by norm_num) w
  have hinj : Function.Injective (fun i : Fin (2 ^ w) =>
      (⟨probePos hash (2 ^ w) k i, probePos_lt hash k i hpos⟩ : Fin (2 ^ w))) := by
    intro a b hab
    exact Fin.ext (probePos_inj hash k a.isLt b.isLt (congrArg Fin.val hab))
  obtain ⟨a, ha⟩ := Finite.injective_iff_surjective.mp hinj ⟨p, hp⟩
  exact ⟨a, a.isLt, congrArg Fin.val ha⟩

/-- `find?` over `range n` returns the first index satisfying the predicate. -/
theorem find_range_first {p : ℕ → Bool} {n i : ℕ}
    (h : (List.range n).find? p = some i) :
    i < n ∧ p i = true ∧ ∀ j, j < i → p j = false := by
  induction n with
  | zero => simp at h
  | succ m ih =>
    rw [List.range_succ, List.find?_append] at h
    cases hfm : (List.range m).find? p with
    | some a =>
      rw [hfm] at h
      have h' : some a = some i := h
      cases h'
      obtain ⟨hlt, hp, hb⟩ := ih hfm
      exact ⟨by omega, hp, hb⟩
    | none =>
      rw [hfm] at h
      have h' : List.find? p [m] = some i := h
      have hall := List.find?_eq_none.mp hfm
      cases hpm : p m with
      | true =>
        rw [List.find?_cons_of_pos _ hpm] at h'
        cases h'
        refine ⟨by omega, hpm, ?_⟩
        intro j hj
        have hnj := hall j (List.mem_range.mpr hj)
        cases hpj : p j with
        | false => rfl
        | true => exact absurd hpj hnj
      | false =>
        rw [List.find?_cons_of_neg _ (by simp [hpm]), List.find?_nil] at h'
        cases h'

theorem firstTombBefore_zero (hash : κ → ℕ) (buckets : List (Slot κ ν)) (k : κ) :
    firstTombBefore hash buckets k 0 = none := rfl

theorem firstTombBefore_succ_not (hash : κ → ℕ) (buckets : List (Slot κ ν)) (k : κ) (i : ℕ)
    (hnt : isTombAt buckets (probePos hash buckets.length k i) = false) :
    firstTombBefore hash buckets k (i + 1) = firstTombBefore hash buckets k i := by
  unfold firstTombBefore
  rw [List.range_succ, List.find?_append]
  cases hf : (List.range i).find?
      (fun j => isTombAt buckets (probePos hash buckets.length k j)) with
  | some a => rfl
  | none =>
    rw [List.find?_cons_of_neg _ (by simpa using hnt), List.find?_nil]
    rfl

theorem firstTombBefore_succ_tomb (hash : κ → ℕ) (buckets : List (Slot κ ν)) (k : κ) (i : ℕ)
    (ht : isTombAt buckets (probePos hash buckets.length k i) = true) :
    firstTombBefore hash buckets k (i + 1) =
      some ((firstTombBefore hash buckets k i).getD (probePos hash buckets.length k i)) := by
  unfold firstTombBefore
  rw [List.range_succ, List.find?_append]
  cases hf : (List.range i).find?
      (fun j => isTombAt buckets (probePos hash buckets.length k j)) with
  | some a => rfl
  | none =>
    rw [List.find?_cons_of_pos _ (by simpa using ht)]
    rfl

theorem lookupLoop_step_full (buckets : List (Slot κ ν)) (k : κ) {bn : ℕ} {k' : κ} {v : ν}
    (pa fuel : ℕ) (ft : Option ℕ)
    (h : buckets.getD bn .empty = Slot.full k' v) :
    lookupLoop buckets k (fuel + 1) bn pa ft =
      if k = k' then some (true, bn)
      else lookupLoop buckets k fuel ((bn + pa) &&& (buckets.length - 1)) (pa + 1) ft := by
  simp only [lookupLoop, h]

theorem lookupLoop_step_empty (buckets : List (Slot κ ν)) (k : κ) {bn : ℕ}
    (pa fuel : ℕ) (ft : Option ℕ)
    (h : buckets.getD bn .empty = Slot.empty) :
    lookupLoop buckets k (fuel + 1) bn pa ft = some (false, ft.getD bn) := by
  simp only [lookupLoop, h]

theorem lookupLoop_step_tomb (buckets : List (Slot κ ν)) (k : κ) {bn : ℕ}
    (pa fuel : ℕ) (ft : Option ℕ)
    (h : buckets.getD bn .empty = Slot.tombstone) :
    lookupLoop buckets k (fuel + 1) bn pa ft =
      lookupLoop buckets k fuel ((bn + pa) &&& (buckets.length - 1)) (pa + 1)
        (some (ft.getD bn)) := by
  simp only [lookupLoop, h]

/-- The probing loop, started at probe step `i` with the matching tombstone
accumulator, produces the stop described by the first stopping probe `i0`. -/
theorem lookupLoop_run (hash : κ → ℕ) (buckets : List (Slot κ ν)) (k : κ) {w : ℕ} (i0 : ℕ)
    (hlen : buckets.length = 2 ^ w)
    (hstop : stopsAt hash buckets k i0 = true)
    (hbefore : ∀ j, j < i0 → stopsAt hash buckets k j = false) :
    ∀ d i fuel, i0 - i = d → i ≤ i0 → d < fuel →
    lookupLoop buckets k fuel (probePos hash buckets.length k i) (i + 1)
        (firstTombBefore hash buckets k i) =
      some (if holdsKey buckets k (probePos hash buckets.length k i0) = true
            then (true, probePos hash buckets.length k i0)
            else (false, (firstTombBefore hash buckets k i0).getD
                    (probePos hash buckets.length k i0))) := by
  intro d
  induction d with
  | zero =>
    intro i fuel hd hle hf
    have hii : i = i0 := by omega
    subst hii
    obtain ⟨f, rfl⟩ : ∃ f, fuel = f + 1 := ⟨fuel - 1, by omega⟩
    have hor : holdsKey buckets k (probePos hash buckets.length k i) = true ∨
        isEmptyAt buckets (probePos hash buckets.length k i) = true := by
      have hh := hstop
      simp only [stopsAt, Bool.or_eq_true] at hh
      exact hh
    cases hslot : buckets.getD (probePos hash buckets.length k i) .empty with
    | empty =>
      rw [lookupLoop_step_empty buckets k (i + 1) f _ hslot]
      have hhk : holdsKey buckets k (probePos hash buckets.length k i) = false := by
        simp only [holdsKey, slotAt, hslot]
      rw [if_neg (by rw [hhk]; exact Bool.false_ne_true)]
    | tombstone =>
      exfalso
      rcases hor with hh | he
      · simp only [holdsKey, slotAt, hslot] at hh
        exact Bool.false_ne_true hh
      · simp only [isEmptyAt, slotAt, hslot] at he
        exact Bool.false_ne_true he
    | full k' v =>
      have he : isEmptyAt buckets (probePos hash buckets.length k i) = false := by
        simp only [isEmptyAt, slotAt, hslot]
      have hh : holdsKey buckets k (probePos hash buckets.length k i) = true := by
        rcases hor with hh | he'
        · exact hh
        · rw [he] at he'
          cases he'
      have hkk : k = k' := by
        simp only [holdsKey, slotAt, hslot, decide_eq_true_eq] at hh
        exact hh
      rw [lookupLoop_step_full buckets k (i + 1) f _ hslot, if_pos hkk, if_pos hh]
  | succ d ih =>
    intro i fuel hd hle hf
    have hlt : i < i0 := by omega
    obtain ⟨f, rfl⟩ : ∃ f, fuel = f + 1 := ⟨fuel - 1, by omega⟩
    have hns := hbefore i hlt
    have hns' : holdsKey buckets k (probePos hash buckets.length k i) = false ∧
        isEmptyAt buckets (probePos hash buckets.length k i) = false := by
      simpa only [stopsAt, Bool.or_eq_false_iff] using hns
    obtain ⟨hhk, hem⟩ := hns'
    have hnext : (probePos hash buckets.length k i + (i + 1)) &&& (buckets.length - 1) =
        probePos hash buckets.length k (i + 1) := by
      rw [hlen, Nat.and_pow_two_sub_one_eq_mod, probePos_succ]
    cases hslot : buckets.getD (probePos hash buckets.length k i) .empty with
    | empty =>
      exfalso
      have he : isEmptyAt buckets (probePos hash buckets.length k i) = true := by
        simp only [isEmptyAt, slotAt, hslot]
      rw [hem] at he
      cases he
    | tombstone =>
      have htomb : isTombAt buckets (probePos hash buckets.length k i) = true := by
        simp only [isTombAt, slotAt, hslot]
      rw [lookupLoop_step_tomb buckets k (i + 1) f _ hslot, hnext,
        ← firstTombBefore_succ_tomb hash buckets k i htomb]
      exact ih (i + 1) f (by omega) (by omega) (by omega)
    | full k' v =>
      have hkk : ¬ k = k' := by
        simp only [holdsKey, slotAt, hslot, decide_eq_false_iff_not] at hhk
        exact hhk
      have hnt : isTombAt buckets (probePos hash buckets.length k i) = false := by
        simp only [isTombAt, slotAt, hslot]
      rw [lookupLoop_step_full buckets k (i + 1) f _ hslot, if_neg hkk, hnext,
        ← firstTombBefore_succ_not hash buckets k i hnt]
      exact ih (i + 1) f (by omega) (by omega) (by omega)

/-- `LookupBucketFor` computed from the first stopping probe index. -/
theorem LookupBucketFor_eq_of_firstStop (hash : κ → ℕ) (buckets : List (Slot κ ν)) (k : κ)
    {w : ℕ} (i0 : ℕ) (hlen : buckets.length = 2 ^ w)
    (hfs : firstStop hash buckets k = some i0) :
    LookupBucketFor hash buckets k =
      some (if holdsKey buckets k (probePos hash buckets.length k i0) = true
            then (true, some (probePos hash buckets.length k i0))
            else (false, some ((firstTombBefore hash buckets k i0).getD
                    (probePos hash buckets.length k i0)))) := by
  unfold firstStop at hfs
  obtain ⟨hi0, hstop, hbefore⟩ := find_range_first hfs
  have hpos : 0 < buckets.length := by
    rw [hlen]
    exact pow_pos (by norm_num) w
  unfold LookupBucketFor
  rw [if_neg (by omega)]
  have hinit : hash k &&& (buckets.length - 1) = probePos hash buckets.length k 0 := by
    rw [hlen, Nat.and_pow_two_sub_one_eq_mod]
    show hash k % 2 ^ w = (hash k % 2 ^ w + 0 * (0 + 1) / 2) % 2 ^ w
    rw [show 0 * (0 + 1) / 2 = 0 from rfl, Nat.add_zero, Nat.mod_mod_of_dvd _ dvd_rfl]
  have hfuel : i0 - 0 < buckets.length * buckets.length + 1 :=
    lt_of_lt_of_le hi0 (le_trans (Nat.le_mul_of_pos_left _ hpos) (Nat.le_succ _))
  have hl := lookupLoop_run hash buckets k i0 hlen hstop hbefore (i0 - 0) 0
    (buckets.length * buckets.length + 1) rfl (by omega) hfuel
  rw [firstTombBefore_zero, Nat.zero_add] at hl
  rw [hinit, hl]
  split
  · rfl
  · rfl

/-- C5: for a power-of-two table with at least one `EMPTY` bucket, the bucket
lookup probes from `hash(key) mod capacity` along the triangular probe chain,
stops with success at the first probed bucket holding an equal key, stops with
failure at the first probed `EMPTY` bucket, and on failure reports the first
`TOMBSTONE` bucket seen along the chain (the `EMPTY` bucket itself when none
was seen) as the slot for a subsequent insert. -/
theorem densemap_C5_lookup_contract (hash : κ → ℕ) (buckets : List (Slot κ ν)) (k : κ)
    (w : ℕ) (hlen : buckets.length = 2 ^ w)
    (hne : ∃ p, p < buckets.length ∧ isEmptyAt buckets p = true) :
    ∃ i0, firstStop hash buckets k = some i0 ∧
      LookupBucketFor hash buckets k =
        some (if holdsKey buckets k (probePos hash buckets.length k i0) = true
              then (true, some (probePos hash buckets.length k i0))
              else (false, some ((firstTombBefore hash buckets k i0).getD
                      (probePos hash buckets.length k i0)))) := by
  obtain ⟨p, hp, hemp⟩ := hne
  have hp' : p < 2 ^ w := by rwa [hlen] at hp
  obtain ⟨i, hiw, hip⟩ := probePos_surj hash k hp'
  have hstop_ex : stopsAt hash buckets k i = true := by
    simp only [stopsAt, Bool.or_eq_true]
    right
    rw [hlen, hip]
    exact hemp
  have hsome : (firstStop hash buckets k).isSome := by
    unfold firstStop
    refine List.find?_isSome.mpr ⟨i, List.mem_range.mpr (by omega), hstop_ex⟩
  obtain ⟨i0, hfs⟩ := Option.isSome_iff_exists.mp hsome
  exact ⟨i0, hfs, LookupBucketFor_eq_of_firstStop hash buckets k i0 hlen hfs⟩

end densemap

namespace rbtree

/-! ### Lemmas about the association-list model -/

@[simp] theorem keys_nil : keys ([] : List (α × β)) = [] := rfl

@[simp] theorem keys_cons (p : α × β) (l : List (α × β)) :
    keys (p :: l) = p.1 :: keys l := rfl

@[simp] theorem keys_append (A B : List (α × β)) :
    keys (A ++ B) = keys A ++ keys B := List.map_append _ _ _

section ListLemmas
variable [LinearOrder α]

theorem findKV_append (A B : List (α × β)) (k : α) :
    findKV (A ++ B) k =
      (match findKV A k with
       | some v => some v
       | none => findKV B k) := by
  induction A with
  | nil => simp [findKV]
  | cons p rest ih =>
    obtain ⟨k', v'⟩ := p
    by_cases h : k = k' <;> simp [findKV, h, ih]

theorem findKV_eq_none_of_not_mem {A : List (α × β)} {k : α}
    (h : k ∉ keys A) : findKV A k = none := by
  induction A with
  | nil => rfl
  | cons p rest ih =>
    obtain ⟨k', v'⟩ := p
    simp only [keys_cons, List.mem_cons, not_or] at h
    simp [findKV, h.1, ih h.2]

theorem listIns_cons_lt {k k' : α} {v v' : β} {L : List (α × β)} (h : k < k') :
    listIns k v ((k', v') :: L) = (k, v) :: (k', v') :: L := by
  simp [listIns, h]

theorem listIns_cons_eq {k : α} {v v' : β} {L : List (α × β)} :
    listIns k v ((k, v') :: L) = (k, v) :: L := by
  simp [listIns]

theorem listIns_cons_gt {k k' : α} {v v' : β} {L : List (α × β)} (h : k' < k) :
    listIns k v ((k', v') :: L) = (k', v') :: listIns k v L := by
  simp [listIns, not_lt.mpr h.le, (ne_of_gt h)]

theorem mem_keys_listIns {L : List (α × β)} {k a : α} {v : β} :
    a ∈ keys (listIns k v L) ↔ a = k ∨ a ∈ keys L := by
  induction L with
  | nil => simp [listIns]
  | cons p rest ih =>
    obtain ⟨k', v'⟩ := p
    rcases lt_trichotomy k k' with h | h | h
    · rw [listIns_cons_lt h]
      simp only [keys_cons, List.mem_cons]
      try tauto
    · subst h
      rw [listIns_cons_eq]
      simp only [keys_cons, List.mem_cons]
      try tauto
    · rw [listIns_cons_gt h]
      simp only [keys_cons, List.mem_cons, ih]
      try tauto

theorem findKV_listIns_self (L : List (α × β)) (k : α) (v : β) :
    findKV (listIns k v L) k = some v := by
  induction L with
  | nil => simp [listIns, findKV]
  | cons p rest ih =>
    obtain ⟨k', v'⟩ := p
    rcases lt_trichotomy k k' with h | h | h
    · rw [listIns_cons_lt h]
      simp [findKV]
    · subst h
      rw [listIns_cons_eq]
      simp [findKV]
    · rw [listIns_cons_gt h]
      simp [findKV, ne_of_gt h, ih]

theorem findKV_listIns_ne (L : List (α × β)) {k k' : α} (v : β) (h : k' ≠ k) :
    findKV (listIns k v L) k' = findKV L k' := by
  induction L with
  | nil => simp [listIns, findKV, h]
  | cons p rest ih =>
    obtain ⟨k'', v''⟩ := p
    rcases lt_trichotomy k k'' with h1 | h1 | h1
    · rw [listIns_cons_lt h1]
      simp [findKV, h]
    · subst h1
      rw [listIns_cons_eq]
      simp [findKV, h]
    · rw [listIns_cons_gt h1]
      simp [findKV, ih]

theorem sorted_listIns {L : List (α × β)} (k : α) (v : β)
    (h : (keys L).Sorted (· < ·)) : (keys (listIns k v L)).Sorted (· < ·) := by
  induction L with
  | nil => simp [listIns]
  | cons p rest ih =>
    obtain ⟨k', v'⟩ := p
    simp only [keys_cons, List.sorted_cons] at h
    rcases lt_trichotomy k k' with h1 | h1 | h1
    · rw [listIns_cons_lt h1]
      simp only [keys_cons, List.sorted_cons]
      refine ⟨?_, h.1, h.2⟩
      intro b hb
      rcases List.mem_cons.mp hb with rfl | hb
      · exact h1
      · exact h1.trans (h.1 b hb)
    · subst h1
      rw [listIns_cons_eq]
      simp only [keys_cons, List.sorted_cons]
      exact h
    · rw [listIns_cons_gt h1]
      simp only [keys_cons, List.sorted_cons]
      refine ⟨?_, ih h.2⟩
      intro b hb
      rcases mem_keys_listIns.mp hb with rfl | hb
      · exact h1
      · exact h.1 b hb

theorem listIns_append_lt {k key : α} (v w : β) (A B : List (α × β))
    (h : k < key) :
    listIns k v (A ++ (key, w) :: B) = listIns k v A ++ (key, w) :: B := by
  induction A with
  | nil =>
    rw [List.nil_append, listIns_cons_lt h]
    rfl
  | cons p rest ih =>
    obtain ⟨k', v'⟩ := p
    rcases lt_trichotomy k k' with h1 | h1 | h1
    · rw [List.cons_append, listIns_cons_lt h1, listIns_cons_lt h1, List.cons_append,
        List.cons_append]
    · subst h1
      rw [List.cons_append, listIns_cons_eq, listIns_cons_eq, List.cons_append]
    · rw [List.cons_append, listIns_cons_gt h1, listIns_cons_gt h1, List.cons_append, ih]

theorem listIns_append_eq {k : α} (v w : β) (A B : List (α × β))
    (hA : ∀ a ∈ keys A, a < k) :
    listIns k v (A ++ (k, w) :: B) = A ++ (k, v) :: B := by
  induction A with
  | nil => simp [listIns_cons_eq]
  | cons p rest ih =>
    obtain ⟨k', v'⟩ := p
    have hk' : k' < k := hA k' (by simp)
    rw [List.cons_append, listIns_cons_gt hk', List.cons_append,
      ih (fun a ha => hA a (by simp [ha]))]

theorem listIns_append_gt {k key : α} (v w : β) (A B : List (α × β))
    (hA : ∀ a ∈ keys A, a < k) (h : key < k) :
    listIns k v (A ++ (key, w) :: B) = A ++ (key, w) :: listIns k v B := by
  induction A with
  | nil =>
    rw [List.nil_append, listIns_cons_gt h, List.nil_append]
  | cons p rest ih =>
    obtain ⟨k', v'⟩ := p
    have hk' : k' < k := hA k' (by simp)
    rw [List.cons_append, listIns_cons_gt hk', List.cons_append,
      ih (fun a ha => hA a (by simp [ha]))]

theorem modelList_append_single (l : List (α × β)) (p : α × β) :
    modelList (l ++ [p]) = listIns p.1 p.2 (modelList l) := by
  simp [modelList, List.foldl_append]

theorem findKV_modelList (l : List (α × β)) (k : α) :
    findKV (modelList l) k = lastPut l k := by
  induction l using List.reverseRecOn with
  | nil => rfl
  | append_singleton l p ih =>
    rw [modelList_append_single]
    by_cases h : p.1 = k
    · subst h
      simp [lastPut, findKV_listIns_self]
    · rw [findKV_listIns_ne _ _ (fun hk => h hk.symm)]
      simp only [lastPut, List.reverse_append, List.reverse_singleton,
        List.singleton_append]
      rw [List.find?_cons_of_neg _ (by simpa using h)]
      exact ih

theorem sorted_modelList (l : List (α × β)) :
    (keys (modelList l)).Sorted (· < ·) := by
  induction l using List.reverseRecOn with
  | nil => simp [modelList]
  | append_singleton l p ih =>
    rw [modelList_append_single]
    exact sorted_listIns _ _ ih

theorem mem_keys_modelList (l : List (α × β)) (k : α) :
    k ∈ keys (modelList l) ↔ lastPut l k ≠ none := by
  induction l using List.reverseRecOn with
  | nil => simp [modelList, lastPut]
  | append_singleton l p ih =>
    rw [modelList_append_single, mem_keys_listIns]
    by_cases h : p.1 = k
    · subst h
      simp [lastPut]
    · simp only [lastPut, List.reverse_append, List.reverse_singleton,
        List.singleton_append]
      rw [List.find?_cons_of_neg _ (by simpa using h)]
      simp only [lastPut] at ih
      have hne : ¬k = p.1 := fun hk => h hk.symm
      simp only [hne, false_or]
      exact ih

end ListLemmas

/-! ### Tree-level lemmas for the put/get/traverse claims -/

namespace Tree

variable {α β : Type}

@[simp] theorem inorder_nil : (inorder (.nil : Tree α β)) = [] := rfl

@[simp] theorem inorder_node (k : α) (v : β) (l r : Tree α β) (c : Color) :
    inorder (.node k v l r c) = inorder l ++ (k, v) :: inorder r := rfl

theorem isRed_iff {t : Tree α β} :
    isRed t = true ↔ ∃ k v l r, t = .node k v l r .red := by
  cases t with
  | nil => simp [isRed]
  | node k v l r c =>
    cases c <;> simp [isRed]

theorem rotateLeft_some {p q : Tree α β} (h : rotateLeft p = some q) :
    inorder q = inorder p := by
  cases p with
  | nil => simp [rotateLeft] at h
  | node k v l r c =>
    cases r with
    | nil => simp [rotateLeft] at h
    | node xk xv xl xr xc =>
      simp only [rotateLeft, Option.some.injEq] at h
      subst h
      simp

theorem rotateRight_some {p q : Tree α β} (h : rotateRight p = some q) :
    inorder q = inorder p := by
  cases p with
  | nil => simp [rotateRight] at h
  | node k v l r c =>
    cases l with
    | nil => simp [rotateRight] at h
    | node xk xv xl xr xc =>
      simp only [rotateRight, Option.some.injEq] at h
      subst h
      simp

theorem colorFlip_some {p q : Tree α β} (h : colorFlip p = some q) :
    inorder q = inorder p := by
  cases p with
  | nil => simp [colorFlip] at h
  | node k v l r c =>
    cases l with
    | nil => simp [colorFlip] at h
    | node lk lv ll lr lc =>
      cases r with
      | nil => simp [colorFlip] at h
      | node rk rv rl rr rc =>
        simp only [colorFlip, Option.some.injEq] at h
        subst h
        simp

theorem rotateLeft_if_some {cond : Bool} {p q : Tree α β}
    (h : (if cond then rotateLeft p else pure p) = some q) : inorder q = inorder p := by
  split at h
  · exact rotateLeft_some h
  · cases h
    rfl

theorem rotateRight_if_some {cond : Bool} {p q : Tree α β}
    (h : (if cond then rotateRight p else pure p) = some q) : inorder q = inorder p := by
  split at h
  · exact rotateRight_some h
  · cases h
    rfl

theorem colorFlip_if_some {cond : Bool} {p q : Tree α β}
    (h : (if cond then colorFlip p else pure p) = some q) : inorder q = inorder p := by
  split at h
  · exact colorFlip_some h
  · cases h
    rfl

/-- Sizes are untouched by the top-down color flip. -/
theorem size_colorFlip {p q : Tree α β} (h : colorFlip p = some q) : size q = size p := by
  cases p with
  | nil => simp [colorFlip] at h
  | node k v l r c =>
    cases l with
    | nil => simp [colorFlip] at h
    | node lk lv ll lr lc =>
      cases r with
      | nil => simp [colorFlip] at h
      | node rk rv rl rr rc =>
        simp only [colorFlip, Option.some.injEq] at h
        subst h
        simp [size]

/-- The first step of `insert` on a node: the conditional 4-node split.
It always succeeds and preserves key, value and the subtrees' contents. -/
theorem insert_flip_step {key : α} {val : β} {l r : Tree α β} {c : Color} {q : Tree α β}
    (h : (if isRed l && isRed r then colorFlip (.node key val l r c)
          else pure (.node key val l r c)) = some q) :
    ∃ l₂ r₂ c₂, q = .node key val l₂ r₂ c₂ ∧ inorder l₂ = inorder l ∧
      inorder r₂ = inorder r ∧ size l₂ = size l ∧ size r₂ = size r := by
  split at h
  case isTrue hred =>
    obtain ⟨hl, hr⟩ := Bool.and_eq_true_iff.mp hred
    obtain ⟨lk, lv, ll, lr, rfl⟩ := isRed_iff.mp hl
    obtain ⟨rk, rv, rl, rr, rfl⟩ := isRed_iff.mp hr
    simp only [colorFlip, Option.some.injEq] at h
    subst h
    exact ⟨_, _, _, rfl, by simp, by simp, by simp [size], by simp [size]⟩
  case isFalse =>
    cases h
    exact ⟨l, r, c, rfl, rfl, rfl, rfl, rfl⟩

variable [LinearOrder α]

/-- Splitting the sortedness of a node's in-order key list. -/
theorem sorted_node_parts {key : α} {val : β} {l r : Tree α β} {c : Color}
    (h : (keys (inorder (.node key val l r c))).Sorted (· < ·)) :
    (keys (inorder l)).Sorted (· < ·) ∧ (keys (inorder r)).Sorted (· < ·) ∧
      (∀ a ∈ keys (inorder l), a < key) ∧ (∀ b ∈ keys (inorder r), key < b) := by
  simp only [inorder_node, keys_append, keys_cons] at h
  obtain ⟨hA, hkB, hcross⟩ := List.pairwise_append.mp h
  obtain ⟨hhead, htail⟩ := List.pairwise_cons.mp hkB
  exact ⟨hA, htail, fun a ha => hcross a ha key (by simp), hhead⟩

theorem rotateLeft_isSome_of_isRed {p : Tree α β} (h : isRed (rightChild p) = true) :
    ∃ q, rotateLeft p = some q := by
  cases p with
  | nil => simp [rightChild, isRed] at h
  | node k v l r c =>
    obtain ⟨xk, xv, xl, xr, hx⟩ := isRed_iff.mp h
    simp only [rightChild] at hx
    subst hx
    exact ⟨_, rfl⟩

theorem rotateRight_isSome_of_isRed {p : Tree α β} (h : isRed (leftChild p) = true) :
    ∃ q, rotateRight p = some q := by
  cases p with
  | nil => simp [leftChild, isRed] at h
  | node k v l r c =>
    obtain ⟨xk, xv, xl, xr, hx⟩ := isRed_iff.mp h
    simp only [leftChild] at hx
    subst hx
    exact ⟨_, rfl⟩

/-- The rebalancing tail of `insert` always succeeds. -/
theorem insert_rebalance_isSome (p : Tree α β) :
    (((if isRed (rightChild p) then rotateLeft p else pure p).bind fun p2 =>
      if isRed (leftChild p2) && isRed (leftChild (leftChild p2)) then rotateRight p2
      else pure p2)).isSome = true := by
  obtain ⟨p1, hp1⟩ : ∃ p1, (if isRed (rightChild p) then rotateLeft p else pure p) = some p1 := by
    split
    case isTrue h => exact rotateLeft_isSome_of_isRed h
    case isFalse => exact ⟨p, rfl⟩
  rw [hp1, Option.some_bind]
  split
  case isTrue h =>
    obtain ⟨q, hq⟩ := rotateRight_isSome_of_isRed (Bool.and_eq_true_iff.mp h).1
    simp [hq]
  case isFalse => simp

/-- The first step of `insert` always succeeds. -/
theorem insert_flip_isSome (key : α) (val : β) (l r : Tree α β) (c : Color) :
    ∃ q, (if isRed l && isRed r then colorFlip (.node key val l r c)
          else pure (.node key val l r c)) = some q := by
  split
  case isTrue hred =>
    obtain ⟨hl, hr⟩ := Bool.and_eq_true_iff.mp hred
    obtain ⟨lk, lv, ll, lr, rfl⟩ := isRed_iff.mp hl
    obtain ⟨rk, rv, rl, rr, rfl⟩ := isRed_iff.mp hr
    exact ⟨_, rfl⟩
  case isFalse => exact ⟨_, rfl⟩

/-- `insert` succeeds whenever the fuel exceeds the subtree size. -/
theorem insert_isSome :
    ∀ (fuel : ℕ) (t : Tree α β) (k : α) (v : β), size t < fuel →
      (insert fuel t k v).isSome = true := by
  intro fuel
  induction fuel with
  | zero => intro t k v h; omega
  | succ n ih =>
    intro t k v h
    cases t with
    | nil => simp [insert]
    | node key val l r c =>
      rw [insert]
      obtain ⟨q, hq⟩ := insert_flip_isSome key val l r c
      rw [hq, Option.some_bind]
      obtain ⟨l₂, r₂, c₂, rfl, _, _, hsl, hsr⟩ := insert_flip_step hq
      simp only [size] at h
      by_cases hk : k = key
      · simp only [if_pos hk, Option.pure_def, Option.some_bind]
        exact insert_rebalance_isSome _
      · by_cases hlt : k < key
        · simp only [if_neg hk, if_pos hlt]
          obtain ⟨l'', hl''⟩ := Option.isSome_iff_exists.mp (ih l₂ k v (by omega))
          rw [hl'']
          simp only [Option.pure_def, Option.some_bind]
          exact insert_rebalance_isSome _
        · simp only [if_neg hk, if_neg hlt]
          obtain ⟨r'', hr''⟩ := Option.isSome_iff_exists.mp (ih r₂ k v (by omega))
          rw [hr'']
          simp only [Option.pure_def, Option.some_bind]
          exact insert_rebalance_isSome _

/-- The rebalancing tail of `insert` preserves the in-order contents. -/
theorem insert_rebalance_inorder {p q : Tree α β}
    (h : ((if isRed (rightChild p) then rotateLeft p else pure p).bind fun p2 =>
      if isRed (leftChild p2) && isRed (leftChild (leftChild p2)) then rotateRight p2
      else pure p2) = some q) :
    inorder q = inorder p := by
  rw [Option.bind_eq_some] at h
  obtain ⟨p1, hp1, h2⟩ := h
  rw [rotateRight_if_some h2, rotateLeft_if_some hp1]

/-- Main contents lemma: a successful `insert` performs the association-list
insertion `listIns` on the in-order contents of a sorted tree. -/
theorem insert_inorder :
    ∀ (fuel : ℕ) (t : Tree α β) (k : α) (v : β) (t' : Tree α β),
      insert fuel t k v = some t' →
      (keys (inorder t)).Sorted (· < ·) →
      inorder t' = listIns k v (inorder t) := by
  intro fuel
  induction fuel with
  | zero => intro t k v t' h; simp [insert] at h
  | succ n ih =>
    intro t k v t' h hsorted
    cases t with
    | nil =>
      simp only [insert, Option.some.injEq] at h
      subst h
      simp [listIns]
    | node key val l r c =>
      rw [insert, Option.bind_eq_some] at h
      obtain ⟨q, hq, h⟩ := h
      obtain ⟨l₂, r₂, c₂, rfl, hil, hir, _, _⟩ := insert_flip_step hq
      obtain ⟨hsl, hsr, hbl, hbr⟩ := sorted_node_parts hsorted
      replace h :
          ((if k = key then pure (.node key v l₂ r₂ c₂)
            else if k < key then
              (insert n l₂ k v).bind fun l'' => pure (.node key val l'' r₂ c₂)
            else
              (insert n r₂ k v).bind fun r'' => pure (.node key val l₂ r'' c₂)).bind fun p =>
            (if isRed (rightChild p) then rotateLeft p else pure p).bind fun p2 =>
              if isRed (leftChild p2) && isRed (leftChild (leftChild p2)) then rotateRight p2
              else pure p2) = some t' := h
      by_cases hk : k = key
      · subst hk
        simp only [if_pos rfl, Option.pure_def, Option.some_bind] at h
        rw [insert_rebalance_inorder h]
        simp only [inorder_node, hil, hir]
        rw [listIns_append_eq v val _ _ hbl]
      · by_cases hlt : k < key
        · simp only [if_neg hk, if_pos hlt] at h
          rw [Option.bind_eq_some] at h
          obtain ⟨p2, hp2, h⟩ := h
          rw [Option.bind_eq_some] at hp2
          obtain ⟨l'', hl'', hp2⟩ := hp2
          cases hp2
          rw [insert_rebalance_inorder h]
          simp only [inorder_node]
          rw [ih l₂ k v l'' hl'' (hil ▸ hsl), hil, hir]
          rw [listIns_append_lt v val _ _ hlt]
        · simp only [if_neg hk, if_neg hlt] at h
          rw [Option.bind_eq_some] at h
          obtain ⟨p2, hp2, h⟩ := h
          rw [Option.bind_eq_some] at hp2
          obtain ⟨r'', hr'', hp2⟩ := hp2
          cases hp2
          rw [insert_rebalance_inorder h]
          simp only [inorder_node]
          rw [ih r₂ k v r'' hr'' (hir ▸ hsr), hil, hir]
          have hgt : key < k := lt_of_le_of_ne (not_lt.mp hlt) (Ne.symm hk)
          rw [listIns_append_gt v val _ _ (fun a ha => (hbl a ha).trans hgt) hgt]

/-- The iterative `get` agrees with association-list lookup on the in-order
contents of a sorted tree. -/
theorem get_eq_findKV :
    ∀ (t : Tree α β) (k : α), (keys (inorder t)).Sorted (· < ·) →
      get t k = findKV (inorder t) k := by
  intro t
  induction t with
  | nil => intro k _; rfl
  | node key val l r c ihl ihr =>
    intro k hs
    obtain ⟨hsl, hsr, hbl, hbr⟩ := sorted_node_parts hs
    rw [get, inorder_node, findKV_append]
    by_cases hlt : k < key
    · rw [if_pos hlt, ihl k hsl]
      cases hfa : findKV (inorder l) k with
      | some v => simp
      | none =>
        simp only [findKV, if_neg (ne_of_lt hlt)]
        rw [findKV_eq_none_of_not_mem]
        intro hk
        exact absurd (hbr k hk) (not_lt.mpr hlt.le)
    · by_cases hgt : k > key
      · rw [if_neg hlt, if_pos hgt, ihr k hsr]
        rw [findKV_eq_none_of_not_mem (fun hk => absurd (hbl k hk) hlt)]
        simp only [findKV, if_neg (ne_of_gt hgt)]
      · have hk : k = key := le_antisymm (not_lt.mp hgt) (not_lt.mp hlt)
        subst hk
        rw [if_neg hlt, if_neg hgt]
        rw [findKV_eq_none_of_not_mem (fun hk => absurd (hbl k hk) hlt)]
        simp [findKV]

/-- The source's in-order `traverse` visits exactly the in-order values. -/
theorem traverse_eq_map_snd : ∀ (t : Tree α β), traverse t = (inorder t).map Prod.snd := by
  intro t
  induction t with
  | nil => rfl
  | node k v l r c ihl ihr => simp [traverse, inorder_node, ihl, ihr]

theorem listIns_ne_nil (k : α) (v : β) (L : List (α × β)) : listIns k v L ≠ [] := by
  cases L with
  | nil => simp [listIns]
  | cons p rest =>
    obtain ⟨k', v'⟩ := p
    rcases lt_trichotomy k k' with h | h | h
    · rw [listIns_cons_lt h]; simp
    · subst h; rw [listIns_cons_eq]; simp
    · rw [listIns_cons_gt h]; simp

/-- A successful `put` on a sorted tree: it succeeds and performs the
association-list insertion on the contents. -/
theorem put_spec (t : Tree α β) (k : α) (v : β)
    (hs : (keys (inorder t)).Sorted (· < ·)) :
    ∃ u, put t k v = some u ∧ inorder u = listIns k v (inorder t) := by
  obtain ⟨t', ht'⟩ := Option.isSome_iff_exists.mp
    (insert_isSome (size t + 1) t k v (by omega))
  have hio := insert_inorder _ _ _ _ _ ht' hs
  rw [put, ht', Option.some_bind]
  cases t' with
  | nil =>
    exact absurd (hio.symm.trans rfl) (listIns_ne_nil k v (inorder t))
  | node k' v' l r c =>
    refine ⟨_, rfl, ?_⟩
    rw [← hio]
    simp [inorder_node]

theorem runPuts_append_single (l : List (α × β)) (p : α × β) :
    runPuts (l ++ [p]) = (runPuts l).bind fun t => put t p.1 p.2 := by
  rw [runPuts, runPuts, List.foldlM_append]
  cases hl : List.foldlM (fun t kv => put t kv.1 kv.2) (Tree.nil : Tree α β) l with
  | none => rfl
  | some t => simp [List.foldlM]

/-- Every `put`-only run succeeds and builds exactly the model contents. -/
theorem runPuts_spec (l : List (α × β)) :
    ∃ t, runPuts l = some t ∧ inorder t = modelList l := by
  induction l using List.reverseRecOn with
  | nil => exact ⟨.nil, rfl, rfl⟩
  | append_singleton l p ih =>
    obtain ⟨t, ht, hio⟩ := ih
    have hs : (keys (inorder t)).Sorted (· < ·) := by
      rw [hio]; exact sorted_modelList l
    obtain ⟨u, hu, huio⟩ := put_spec t p.1 p.2 hs
    refine ⟨u, ?_, ?_⟩
    · rw [runPuts_append_single, ht, Option.some_bind, hu]
    · rw [huio, hio, modelList_append_single]

/-- Association-list lookup finds any entry of a list with sorted keys. -/
theorem findKV_some_of_mem {L : List (α × β)} {k : α} {v : β}
    (hs : (keys L).Sorted (· < ·)) (hmem : (k, v) ∈ L) :
    findKV L k = some v := by
  induction L with
  | nil => cases hmem
  | cons p rest ih =>
    obtain ⟨k', v'⟩ := p
    simp only [keys_cons, List.sorted_cons] at hs
    rcases List.mem_cons.mp hmem with heq | hmem'
    · obtain ⟨rfl, rfl⟩ := Prod.mk.injEq .. ▸ heq
      simp [findKV]
    · have hk : k ≠ k' := by
        intro h
        subst h
        have : k ∈ keys rest := List.mem_map_of_mem Prod.fst hmem'
        exact lt_irrefl k (hs.1 k this)
      simp only [findKV, if_neg hk]
      exact ih hs.2 hmem'

end Tree

/-! ### Claim theorems for the ordered map -/

/-- The 12-operation sequence on which the tree's rebalancing breaks. -/
def c1FailingOps : List (Op ℕ ℕ) :=
  [.put 0 0, .put 5 5, .put 1 1, .put 8 8, .put 4 4, .put 3 3, .put 7 7,
   .remove 5, .put 2 2, .put 6 6, .remove 3, .remove 0]

/-- **C1** (code bug): the claim says that after any sequence of put/remove
operations the tree satisfies the left-leaning red-black invariants.  The
code violates both parts: already after `put 1; put 2; put 3` the root has a
red right child (the top-down 4-node split of `insert` deliberately builds
nodes with two red children), and after the 12-operation sequence
`c1FailingOps` — in which every operation succeeds — the tree is not even
black-height balanced (`bh?` returns `none`: the path 7,1,nil crosses two
black links while 7,1,4,2 crosses four).  The delete rebalancing helpers
(`moveRedLeft`/`moveRedRight`) assume, per their own comments, the strictly
left-leaning 2-3 form that `insert` does not maintain. -/
theorem rbtree_C1_invariants_violated :
    ((runOps c1FailingOps).map (fun t => (bh? t).isSome) = some false) ∧
    ((runOps [Op.put 1 1, Op.put 2 2, Op.put 3 3]).map noRedRight = some false) := by
  constructor
  · rfl
  · rfl

/-- **C2** (code bug): `contains(key)` is `return get(key) != nullptr;` and
the private `get` throws `key_not_found` on an absent key, so `contains`
on an absent key propagates the exception (modelled by `none`) instead of
returning `false` without raising. -/
theorem rbtree_C2_contains_raises {α β : Type} [LinearOrder α]
    (isNullValue : β → Bool) (t : Tree α β) (k : α)
    (habs : Tree.get t k = none) :
    Tree.containsImpl isNullValue t k = none := by
  simp [Tree.containsImpl, habs]

/-- Witness for C2: `contains` on the empty tree raises for any key — here
key 0 of an `Option ℕ`-valued (pointer-like) map. -/
theorem rbtree_C2_witness :
    Tree.containsImpl Option.isNone (Tree.nil : Tree ℕ (Option ℕ)) 0 = none :=
  rbtree_C2_contains_raises Option.isNone Tree.nil 0 rfl

/-- **C6**: on any search-ordered map state, `get` returns the stored value
of every present key, and when the search reaches an absent child without
an exact match it raises the distinguishable `key_not_found` failure
(modelled by `none`, the only failure outcome of `get`). -/
theorem rbtree_C6_get_keynotfound {α β : Type} [LinearOrder α]
    (t : Tree α β) (hs : (keys (Tree.inorder t)).Sorted (· < ·)) :
    (∀ k v, (k, v) ∈ Tree.inorder t → Tree.get t k = some v) ∧
    (∀ k, k ∉ keys (Tree.inorder t) → Tree.get t k = none) := by
  constructor
  · intro k v hm
    rw [Tree.get_eq_findKV t k hs]
    exact Tree.findKV_some_of_mem hs hm
  · intro k hm
    rw [Tree.get_eq_findKV t k hs]
    exact findKV_eq_none_of_not_mem hm

/-- Witness for C6 at a concrete two-node tree. -/
theorem rbtree_C6_witness :
    Tree.get (Tree.node 2 20 (Tree.node 1 10 .nil .nil .red) .nil .black : Tree ℕ ℕ) 1
        = some 10 ∧
    Tree.get (Tree.node 2 20 (Tree.node 1 10 .nil .nil .red) .nil .black : Tree ℕ ℕ) 5
        = none := by
  have h := rbtree_C6_get_keynotfound
    (Tree.node 2 20 (Tree.node 1 10 .nil .nil .red) .nil .black : Tree ℕ ℕ) (by decide)
  exact ⟨h.1 1 10 (by decide), h.2 5 (by decide)⟩

/-- **C7**: for every sequence of `put` calls on the ordered map, the run
succeeds, `get k` returns the value of the most recent put of each present
key (a put of an existing key overwrites in place), and the in-order
`traverse` visits every present key exactly once in strictly ascending key
order (the functor receives the values, ordered by their keys; present =
the key of some put, with `lastPut` its most recent value). -/
theorem rbtree_C7_put_get_traverse {α β : Type} [LinearOrder α]
    (l : List (α × β)) :
    ∃ t, runPuts l = some t ∧
      (∀ k, Tree.get t k = lastPut l k) ∧
      (keys (Tree.inorder t)).Sorted (· < ·) ∧
      Tree.traverse t = (Tree.inorder t).map Prod.snd ∧
      (∀ k, k ∈ keys (Tree.inorder t) ↔ lastPut l k ≠ none) := by
  obtain ⟨t, ht, hio⟩ := Tree.runPuts_spec l
  have hs : (keys (Tree.inorder t)).Sorted (· < ·) := by
    rw [hio]; exact sorted_modelList l
  refine ⟨t, ht, ?_, hs, Tree.traverse_eq_map_snd t, ?_⟩
  · intro k
    rw [Tree.get_eq_findKV t k hs, hio, findKV_modelList]
  · intro k
    rw [hio]
    exact mem_keys_modelList l k

/-- **C10**: the public `deleteMin`/`deleteMax` assign `root->color = BLACK`
unconditionally after the recursive deletion, so on an empty tree or a tree
with exactly one entry they dereference a null root pointer (modelled by
`none`), i.e. they are unsafe whenever the tree has fewer than two entries;
public `remove` checks the root for null first and returns safely on the
empty tree. -/
theorem rbtree_C10_deleteMinMax_null_deref {α β : Type} [LinearOrder α]
    (t : Tree α β) (h : Tree.size t ≤ 1) (k : α) :
    Tree.deleteMinPublic t = none ∧ Tree.deleteMaxPublic t = none ∧
      Tree.removePublic (Tree.nil : Tree α β) k = some Tree.nil := by
  refine ⟨?_, ?_, rfl⟩ <;>
  · cases t with
    | nil => rfl
    | node key val l r c =>
      have hl : l = Tree.nil := by
        cases l with
        | nil => rfl
        | node _ _ _ _ _ => exact absurd h (by simp only [Tree.size]; omega)
      have hr : r = Tree.nil := by
        cases r with
        | nil => rfl
        | node _ _ _ _ _ => exact absurd h (by simp only [Tree.size]; omega)
      subst hl
      subst hr
      cases c <;> rfl

/-- Witness for C10 on the singleton tree. -/
theorem rbtree_C10_witness :
    Tree.deleteMinPublic (Tree.node 5 5 .nil .nil .black : Tree ℕ ℕ) = none ∧
    Tree.deleteMaxPublic (Tree.node 5 5 .nil .nil .black : Tree ℕ ℕ) = none ∧
    Tree.removePublic (Tree.nil : Tree ℕ ℕ) 3 = some Tree.nil :=
  rbtree_C10_deleteMinMax_null_deref (Tree.node 5 5 .nil .nil .black) (by decide) 3

end rbtree

namespace densemap

/-! ### Arithmetic: 32-bit wrap-around and `NextPowerOf2` -/

theorem u32_eq_of_lt {a : ℕ} (h : a < 2 ^ 32) : u32 a = a := Nat.mod_eq_of_lt h

theorem u32_lt (a : ℕ) : u32 a < 2 ^ 32 := Nat.mod_lt _ (by norm_num)

theorem usub_eq_sub {a b : ℕ} (hb : b ≤ a) (ha : a < 2 ^ 32) : usub a b = a - b := by
  unfold usub
  have hb32 : b < 2 ^ 32 := lt_of_le_of_lt hb ha
  rw [Nat.mod_eq_of_lt hb32]
  have h : a + (2 ^ 32 - b) = (a - b) + 2 ^ 32 := by omega
  rw [h, Nat.add_mod_right, Nat.mod_eq_of_lt (by omega)]

theorem usub_lt (a b : ℕ) : usub a b < 2 ^ 32 := Nat.mod_lt _ (by norm_num)

theorem usub_zero_one : usub 0 1 = 2 ^ 32 - 1 := by norm_num [usub]

theorem testBit_or_shiftRight (x k j : ℕ) :
    (x ||| x >>> k).testBit j = (x.testBit j || x.testBit (j + k)) := by
  rw [Nat.testBit_or, Nat.testBit_shiftRight, Nat.add_comm k j]

theorem smear_step {x A c : ℕ}
    (hx : ∀ j, x.testBit j = true ↔ ∃ i, i < c ∧ A.testBit (j + i) = true) (j : ℕ) :
    (x ||| x >>> c).testBit j = true ↔ ∃ i, i < 2 * c ∧ A.testBit (j + i) = true := by
  rw [testBit_or_shiftRight, Bool.or_eq_true, hx j, hx (j + c)]
  constructor
  · rintro (⟨i, hi, hb⟩ | ⟨i, hi, hb⟩)
    · exact ⟨i, by omega, hb⟩
    · refine ⟨c + i, by omega, ?_⟩
      rwa [show j + (c + i) = j + c + i by omega]
  · rintro ⟨i, hi, hb⟩
    by_cases hic : i < c
    · exact Or.inl ⟨i, hic, hb⟩
    · refine Or.inr ⟨i - c, by omega, ?_⟩
      rwa [show j + c + (i - c) = j + i by omega]

theorem NextPowerOf2_sub_one_testBit (A j : ℕ) :
    (NextPowerOf2 A - 1).testBit j = true ↔ ∃ i, i < 64 ∧ A.testBit (j + i) = true := by
  have h0 : ∀ j, A.testBit j = true ↔ ∃ i, i < 1 ∧ A.testBit (j + i) = true := by
    intro j
    constructor
    · intro h
      exact ⟨0, by omega, by simpa using h⟩
    · rintro ⟨i, hi, hb⟩
      have hz : i = 0 := by omega
      subst hz
      simpa using hb
  have h1 := fun j => smear_step h0 j
  have h2 := fun j => smear_step h1 j
  have h3 := fun j => smear_step h2 j
  have h4 := fun j => smear_step h3 j
  have h5 := fun j => smear_step h4 j
  have h6 := fun j => smear_step h5 j
  have hdef : NextPowerOf2 A - 1 =
      (fun a5 => a5 ||| a5 >>> 32)
      ((fun a4 => a4 ||| a4 >>> 16)
      ((fun a3 => a3 ||| a3 >>> 8)
      ((fun a2 => a2 ||| a2 >>> 4)
      ((fun a1 => a1 ||| a1 >>> 2)
      (A ||| A >>> 1))))) := by
    simp [NextPowerOf2]
  rw [hdef]
  simpa using h6 j

theorem testBit_size_sub_one {A : ℕ} (hA : A ≠ 0) : A.testBit (Nat.size A - 1) = true := by
  have hpos : 0 < Nat.size A := Nat.size_pos.mpr (Nat.pos_of_ne_zero hA)
  have h1 : 2 ^ (Nat.size A - 1) ≤ A := by
    by_contra h
    push_neg at h
    have := Nat.size_le.mpr h
    omega
  have h2 : A < 2 ^ Nat.size A := Nat.lt_size_self A
  have hs : Nat.size A = (Nat.size A - 1) + 1 := by omega
  rw [hs, pow_succ] at h2
  have hdiv : A / 2 ^ (Nat.size A - 1) = 1 :=
    Nat.div_eq_of_lt_le (by simpa using h1) (by omega)
  rw [Nat.testBit_to_div_mod, hdiv]
  norm_num

theorem NextPowerOf2_eq (A : ℕ) (hA : A < 2 ^ 64) : NextPowerOf2 A = 2 ^ Nat.size A := by
  have hsize64 : Nat.size A ≤ 64 := Nat.size_le.mpr hA
  have hsmear : NextPowerOf2 A - 1 = 2 ^ Nat.size A - 1 := by
    apply Nat.eq_of_testBit_eq
    intro j
    rw [Bool.eq_iff_iff, NextPowerOf2_sub_one_testBit, Nat.testBit_two_pow_sub_one]
    rw [decide_eq_true_iff]
    constructor
    · rintro ⟨i, _, hb⟩
      by_contra hj
      push_neg at hj
      have hlt : A < 2 ^ (j + i) :=
        lt_of_lt_of_le (Nat.lt_size_self A) (Nat.pow_le_pow_right (by norm_num) (by omega))
      rw [Nat.testBit_lt_two_pow hlt] at hb
      cases hb
    · intro hj
      have hApos : A ≠ 0 := by
        intro h0
        rw [h0] at hj
        simp [Nat.size_zero] at hj
      refine ⟨Nat.size A - 1 - j, by omega, ?_⟩
      rw [show j + (Nat.size A - 1 - j) = Nat.size A - 1 by omega]
      exact testBit_size_sub_one hApos
  have h1 : 1 ≤ NextPowerOf2 A := by
    simp only [NextPowerOf2]
    omega
  have h2 : 0 < 2 ^ Nat.size A := pow_pos (by norm_num) _
  omega

theorem NextPowerOf2_gt {A : ℕ} (hA : A < 2 ^ 64) : A < NextPowerOf2 A := by
  rw [NextPowerOf2_eq A hA]
  exact Nat.lt_size_self A

theorem NextPowerOf2_le_pow {A k : ℕ} (h : A < 2 ^ k) (hk : k ≤ 64) :
    NextPowerOf2 A ≤ 2 ^ k := by
  rw [NextPowerOf2_eq A (lt_of_lt_of_le h (Nat.pow_le_pow_right (by norm_num) hk))]
  exact Nat.pow_le_pow_right (by norm_num) (Nat.size_le.mpr h)

theorem NextPowerOf2_two_pow_sub_one {k : ℕ} (hk1 : 1 ≤ k) (hk : k ≤ 64) :
    NextPowerOf2 (2 ^ k - 1) = 2 ^ k := by
  have hpk : 0 < (2:ℕ) ^ k := pow_pos (by norm_num) _
  have hlt : (2 : ℕ) ^ k - 1 < 2 ^ 64 := by
    have h64 : (2 : ℕ) ^ k ≤ 2 ^ 64 := Nat.pow_le_pow_right (by norm_num) hk
    omega
  rw [NextPowerOf2_eq _ hlt]
  congr 1
  apply le_antisymm
  · exact Nat.size_le.mpr (by omega)
  · by_contra h
    push_neg at h
    have hsz : Nat.size (2 ^ k - 1) ≤ k - 1 := by omega
    have h2 : (2:ℕ) ^ k - 1 < 2 ^ (k - 1) := Nat.size_le.mp hsz
    have h1 : (2:ℕ) ^ (k - 1) < 2 ^ k := Nat.pow_lt_pow_right (by norm_num) (by omega)
    omega

/-- The bucket count computed by every `Grow`: always a power of two
between `64` and `2^31`. -/
theorem grow_size_pow2 (atLeast : ℕ) :
    ∃ j, 6 ≤ j ∧ j ≤ 31 ∧ max 64 (u32 (NextPowerOf2 (usub atLeast 1))) = 2 ^ j := by
  have h1 : usub atLeast 1 < 2 ^ 32 := usub_lt _ _
  have h64 : usub atLeast 1 < 2 ^ 64 := lt_trans h1 (by norm_num)
  have hsz : Nat.size (usub atLeast 1) ≤ 32 := Nat.size_le.mpr h1
  rw [NextPowerOf2_eq _ h64]
  by_cases hs : Nat.size (usub atLeast 1) ≤ 31
  · rw [u32_eq_of_lt (by
      calc (2:ℕ) ^ Nat.size (usub atLeast 1) ≤ 2 ^ 31 := Nat.pow_le_pow_right (by norm_num) hs
      _ < 2 ^ 32 := by norm_num)]
    refine ⟨max 6 (Nat.size (usub atLeast 1)), by omega, by omega, ?_⟩
    rcases le_total (Nat.size (usub atLeast 1)) 6 with h | h
    · rw [max_eq_left h]
      have hle : (2:ℕ) ^ Nat.size (usub atLeast 1) ≤ 64 := by
        calc (2:ℕ) ^ Nat.size (usub atLeast 1) ≤ 2 ^ 6 := Nat.pow_le_pow_right (by norm_num) h
        _ = 64 := by norm_num
      rw [max_eq_left hle]
      norm_num
    · rw [max_eq_right h]
      have hge : (64:ℕ) ≤ 2 ^ Nat.size (usub atLeast 1) := by
        calc (64:ℕ) = 2 ^ 6 := by norm_num
        _ ≤ 2 ^ Nat.size (usub atLeast 1) := Nat.pow_le_pow_right (by norm_num) h
      rw [max_eq_right hge]
  · have hs32 : Nat.size (usub atLeast 1) = 32 := by omega
    rw [hs32]
    have hz : u32 (2 ^ 32) = 0 := by norm_num [u32]
    rw [hz]
    refine ⟨6, by omega, by omega, by norm_num⟩

/-- `getMinBucketToReserveForEntries` yields 0 or a power of two in
`[2, 2^31]`. -/
theorem getMinBucket_pow2 (n : ℕ) :
    HashMap.getMinBucketToReserveForEntries n = 0 ∨
      ∃ j, 1 ≤ j ∧ j ≤ 31 ∧ HashMap.getMinBucketToReserveForEntries n = 2 ^ j := by
  unfold HashMap.getMinBucketToReserveForEntries
  by_cases hn : n = 0
  · simp [hn]
  · right
    rw [if_neg hn]
    set a := u32 (n * 4) / 3 + 1 with ha
    have ha1 : 1 ≤ a := by omega
    have ha31 : a < 2 ^ 31 := by
      have := u32_lt (n * 4)
      have : u32 (n * 4) / 3 ≤ (2 ^ 32 - 1) / 3 := Nat.div_le_div_right (by omega)
      norm_num at this ⊢
      omega
    have h64 : a < 2 ^ 64 := lt_trans ha31 (by norm_num)
    rw [NextPowerOf2_eq _ h64]
    have hs31 : Nat.size a ≤ 31 := Nat.size_le.mpr ha31
    have hs1 : 1 ≤ Nat.size a := Nat.size_pos.mpr (by omega)
    rw [u32_eq_of_lt (lt_of_le_of_lt (Nat.pow_le_pow_right (by norm_num) hs31) (by norm_num))]
    exact ⟨Nat.size a, hs1, hs31, rfl⟩


/-- Concrete table for the C5 witness: one live key, two tombstones, one
`EMPTY` bucket (capacity 4). -/
def c5Buckets : List (Slot ℕ ℕ) := [.full 1 10, .tombstone, .empty, .tombstone]

theorem densemap_C5_witness :
    c5Buckets.length = 2 ^ 2 ∧
    (∃ p, p < c5Buckets.length ∧ isEmptyAt c5Buckets p = true) ∧
    (∃ i0, firstStop (fun n => n) c5Buckets 5 = some i0 ∧
      LookupBucketFor (fun n => n) c5Buckets 5 =
        some (if holdsKey c5Buckets 5 (probePos (fun n => n) c5Buckets.length 5 i0) = true
              then (true, some (probePos (fun n => n) c5Buckets.length 5 i0))
              else (false, some ((firstTombBefore (fun n => n) c5Buckets 5 i0).getD
                      (probePos (fun n => n) c5Buckets.length 5 i0))))) :=
  ⟨rfl, ⟨2, by decide, by decide⟩,
    densemap_C5_lookup_contract (fun n => n) c5Buckets 5 2 rfl ⟨2, by decide, by decide⟩⟩


/-! ### Soundness facts about `LookupBucketFor` results, and the claims
C8 (`try_emplace`) and C9 (`erase`) -/

variable {κ ν : Type} [DecidableEq κ]

theorem getD_set_self {α : Type} (l : List α) (i : ℕ) (a d : α) (h : i < l.length) :
    (l.set i a).getD i d = a := by
  rw [List.getD_eq_getElem?_getD, List.getElem?_set_self h]
  rfl

/-- A hit reported by the probing loop really is a bucket holding the key. -/
theorem lookupLoop_hit_sound (buckets : List (Slot κ ν)) (k : κ) :
    ∀ fuel bn pa ft i, lookupLoop buckets k fuel bn pa ft = some (true, i) →
      ∃ v', buckets.getD i .empty = Slot.full k v' := by
  intro fuel
  induction fuel with
  | zero =>
    intro bn pa ft i h
    exact Option.noConfusion h
  | succ f ih =>
    intro bn pa ft i h
    replace h : lookupLoop buckets k (f + 1) bn pa ft = some (true, i) := h
    cases hslot : buckets.getD bn .empty with
    | empty =>
      rw [lookupLoop_step_empty buckets k pa f ft hslot] at h
      simp at h
    | tombstone =>
      rw [lookupLoop_step_tomb buckets k pa f ft hslot] at h
      exact ih _ _ _ _ h
    | full k' v =>
      rw [lookupLoop_step_full buckets k pa f ft hslot] at h
      by_cases hkk : k = k'
      · rw [if_pos hkk] at h
        have h2 : ((true, bn) : Bool × ℕ) = (true, i) := Option.some.inj h
        have hbn : bn = i := congrArg Prod.snd h2
        subst hbn
        exact ⟨v, by rw [hslot, hkk]⟩
      · rw [if_neg hkk] at h
        exact ih _ _ _ _ h

/-- Bucket indices reported by the probing loop stay in range. -/
theorem lookupLoop_index_lt (buckets : List (Slot κ ν)) (k : κ)
    (hpos : 0 < buckets.length) :
    ∀ fuel bn pa ft fl i, bn < buckets.length →
      (∀ t, ft = some t → t < buckets.length) →
      lookupLoop buckets k fuel bn pa ft = some (fl, i) → i < buckets.length := by
  intro fuel
  induction fuel with
  | zero =>
    intro bn pa ft fl i _ _ h
    exact Option.noConfusion h
  | succ f ih =>
    intro bn pa ft fl i hbn hft h
    replace h : lookupLoop buckets k (f + 1) bn pa ft = some (fl, i) := h
    cases hslot : buckets.getD bn .empty with
    | empty =>
      rw [lookupLoop_step_empty buckets k pa f ft hslot] at h
      have h2 : (false, ft.getD bn) = (fl, i) := Option.some.inj h
      have hi : ft.getD bn = i := congrArg Prod.snd h2
      cases ft with
      | none =>
        simp only [Option.getD_none] at hi
        omega
      | some t =>
        simp only [Option.getD_some] at hi
        have := hft t rfl
        omega
    | tombstone =>
      rw [lookupLoop_step_tomb buckets k pa f ft hslot] at h
      refine ih _ _ _ _ _ ?_ ?_ h
      · have hle : (bn + pa) &&& (buckets.length - 1) ≤ buckets.length - 1 :=
          Nat.and_le_right
        omega
      · intro t ht
        have h2 : ft.getD bn = t := Option.some.inj ht
        cases ft with
        | none =>
          simp only [Option.getD_none] at h2
          omega
        | some t0 =>
          simp only [Option.getD_some] at h2
          have := hft t0 rfl
          omega
    | full k' v =>
      rw [lookupLoop_step_full buckets k pa f ft hslot] at h
      by_cases hkk : k = k'
      · rw [if_pos hkk] at h
        have h2 : ((true, bn) : Bool × ℕ) = (fl, i) := Option.some.inj h
        have : bn = i := congrArg Prod.snd h2
        omega
      · rw [if_neg hkk] at h
        refine ih _ _ _ _ _ ?_ hft h
        have hle : (bn + pa) &&& (buckets.length - 1) ≤ buckets.length - 1 :=
          Nat.and_le_right
        omega

theorem LookupBucketFor_index_lt (hash : κ → ℕ) (buckets : List (Slot κ ν)) (k : κ)
    (fl : Bool) (i : ℕ) (h : LookupBucketFor hash buckets k = some (fl, some i)) :
    i < buckets.length := by
  unfold LookupBucketFor at h
  by_cases h0 : buckets.length = 0
  · rw [if_pos h0] at h
    have h2 : ((false, none) : Bool × Option ℕ) = (fl, some i) := Option.some.inj h
    exact Option.noConfusion (congrArg Prod.snd h2)
  · rw [if_neg h0] at h
    cases hl : lookupLoop buckets k (buckets.length * buckets.length + 1)
        (hash k &&& (buckets.length - 1)) 1 none with
    | none =>
      rw [hl] at h
      exact Option.noConfusion h
    | some rr =>
      rw [hl] at h
      simp only [Option.map_some'] at h
      have h2 : (rr.1, some rr.2) = (fl, some i) := Option.some.inj h
      have hrr : rr.2 = i := Option.some.inj (congrArg Prod.snd h2)
      have hbn : hash k &&& (buckets.length - 1) < buckets.length := by
        have hle : hash k &&& (buckets.length - 1) ≤ buckets.length - 1 :=
          Nat.and_le_right
        omega
      have hl' : lookupLoop buckets k (buckets.length * buckets.length + 1)
          (hash k &&& (buckets.length - 1)) 1 none = some (rr.1, rr.2) := hl
      have := lookupLoop_index_lt buckets k (by omega) _ _ _ _ rr.1 rr.2 hbn
        (fun t ht => Option.noConfusion ht) hl'
      omega

theorem LookupBucketFor_hit_sound (hash : κ → ℕ) (buckets : List (Slot κ ν)) (k : κ)
    {i : ℕ} (h : LookupBucketFor hash buckets k = some (true, some i)) :
    ∃ v', buckets.getD i .empty = Slot.full k v' := by
  unfold LookupBucketFor at h
  by_cases h0 : buckets.length = 0
  · rw [if_pos h0] at h
    have h2 : ((false, none) : Bool × Option ℕ) = (true, some i) := Option.some.inj h
    exact Bool.noConfusion (congrArg Prod.fst h2)
  · rw [if_neg h0] at h
    cases hl : lookupLoop buckets k (buckets.length * buckets.length + 1)
        (hash k &&& (buckets.length - 1)) 1 none with
    | none =>
      rw [hl] at h
      exact Option.noConfusion h
    | some rr =>
      rw [hl] at h
      simp only [Option.map_some'] at h
      have h2 : (rr.1, some rr.2) = (true, some i) := Option.some.inj h
      have hfl : rr.1 = true := congrArg Prod.fst h2
      have hi : rr.2 = i := Option.some.inj (congrArg Prod.snd h2)
      have hl' : lookupLoop buckets k (buckets.length * buckets.length + 1)
          (hash k &&& (buckets.length - 1)) 1 none = some (true, i) := by
        rw [hl, ← hfl, ← hi]
      exact lookupLoop_hit_sound buckets k _ _ _ _ _ hl'

/-- The first stopping probe index exists whenever the table has an `EMPTY`
bucket (power-of-two capacity). -/
theorem firstStop_exists (hash : κ → ℕ) (buckets : List (Slot κ ν)) (k : κ) {w : ℕ}
    (hlen : buckets.length = 2 ^ w)
    (hne : ∃ p, p < buckets.length ∧ isEmptyAt buckets p = true) :
    ∃ i0, firstStop hash buckets k = some i0 := by
  obtain ⟨p, hp, hemp⟩ := hne
  have hp' : p < 2 ^ w := by rwa [hlen] at hp
  obtain ⟨i, hiw, hip⟩ := probePos_surj hash k hp'
  have hstop_ex : stopsAt hash buckets k i = true := by
    simp only [stopsAt, Bool.or_eq_true]
    right
    rw [hlen, hip]
    exact hemp
  have hsome : (firstStop hash buckets k).isSome := by
    unfold firstStop
    exact List.find?_isSome.mpr ⟨i, List.mem_range.mpr (by omega), hstop_ex⟩
  exact Option.isSome_iff_exists.mp hsome

/-- Dissection of a successful `InsertIntoBucketImpl`: either no growth was
triggered and the target bucket is the caller-supplied one, or the entry goes
to a table produced by one of the two `Grow` calls at the bucket located by
the re-probe; in all cases the bucket array is that table's and the entry
count is bumped by one. -/
theorem InsertIntoBucketImpl_shape (hash : κ → ℕ) (m : HashMap κ ν) (k : κ)
    (tb : Option ℕ) (mi : HashMap κ ν × ℕ)
    (hins : HashMap.InsertIntoBucketImpl hash m k tb = some mi) :
    ∃ m2 : HashMap κ ν,
      ((m2 = m ∧ tb = some mi.2 ∧
          ¬ u32 ((m.num_entries_ + 1) * 4) ≥ u32 (m.Buckets.length * 3)) ∨
        (((HashMap.Grow hash m (u32 (m.Buckets.length * 2)) = some m2 ∧
            u32 ((m.num_entries_ + 1) * 4) ≥ u32 (m.Buckets.length * 3)) ∨
          (HashMap.Grow hash m m.Buckets.length = some m2 ∧
            ¬ u32 ((m.num_entries_ + 1) * 4) ≥ u32 (m.Buckets.length * 3))) ∧
          ∃ fl : Bool, LookupBucketFor hash m2.Buckets k = some (fl, some mi.2))) ∧
      mi.1.Buckets = m2.Buckets ∧ mi.1.num_entries_ = m2.num_entries_ + 1 := by
  simp only [HashMap.InsertIntoBucketImpl] at hins
  split at hins
  · rename_i hc1
    obtain ⟨m2, hg⟩ : ∃ mg, HashMap.Grow hash m (u32 (m.Buckets.length * 2)) = some mg := by
      cases hx : HashMap.Grow hash m (u32 (m.Buckets.length * 2)) with
      | none =>
        rw [hx] at hins
        exact Option.noConfusion hins
      | some mm => exact ⟨mm, rfl⟩
    rw [hg] at hins
    simp only [Option.some_bind] at hins
    obtain ⟨r2, hl2⟩ : ∃ rr, LookupBucketFor hash m2.Buckets k = some rr := by
      cases hx : LookupBucketFor hash m2.Buckets k with
      | none =>
        rw [hx] at hins
        exact Option.noConfusion hins
      | some rr => exact ⟨rr, rfl⟩
    obtain ⟨fl2, ob2⟩ := r2
    rw [hl2] at hins
    cases ob2 with
    | none =>
      have hz : (none : Option (HashMap κ ν × ℕ)) = some mi := hins
      exact Option.noConfusion hz
    | some i =>
      have hz : some (if isEmptyAt m2.Buckets i
          then ((⟨m2.Buckets, m2.num_entries_ + 1, m2.num_to_mbstones_⟩ : HashMap κ ν), i)
          else (⟨m2.Buckets, m2.num_entries_ + 1, usub m2.num_to_mbstones_ 1⟩, i)) = some mi := hins
      have hmi := (Option.some.inj hz).symm
      refine ⟨m2, Or.inr ⟨Or.inl ⟨hg, hc1⟩, fl2, ?_⟩, ?_, ?_⟩
      · rw [hmi]
        split
        · exact hl2
        · exact hl2
      · rw [hmi]
        split
        · rfl
        · rfl
      · rw [hmi]
        split
        · rfl
        · rfl
  · split at hins
    · rename_i hc1 hc2
      obtain ⟨m2, hg⟩ : ∃ mg, HashMap.Grow hash m m.Buckets.length = some mg := by
        cases hx : HashMap.Grow hash m m.Buckets.length with
        | none =>
          rw [hx] at hins
          exact Option.noConfusion hins
        | some mm => exact ⟨mm, rfl⟩
      rw [hg] at hins
      simp only [Option.some_bind] at hins
      obtain ⟨r2, hl2⟩ : ∃ rr, LookupBucketFor hash m2.Buckets k = some rr := by
        cases hx : LookupBucketFor hash m2.Buckets k with
        | none =>
          rw [hx] at hins
          exact Option.noConfusion hins
        | some rr => exact ⟨rr, rfl⟩
      obtain ⟨fl2, ob2⟩ := r2
      rw [hl2] at hins
      cases ob2 with
      | none =>
        have hz : (none : Option (HashMap κ ν × ℕ)) = some mi := hins
        exact Option.noConfusion hz
      | some i =>
        have hz : some (if isEmptyAt m2.Buckets i
            then ((⟨m2.Buckets, m2.num_entries_ + 1, m2.num_to_mbstones_⟩ : HashMap κ ν), i)
            else (⟨m2.Buckets, m2.num_entries_ + 1, usub m2.num_to_mbstones_ 1⟩, i)) = some mi := hins
        have hmi := (Option.some.inj hz).symm
        refine ⟨m2, Or.inr ⟨Or.inr ⟨hg, hc1⟩, fl2, ?_⟩, ?_, ?_⟩
        · rw [hmi]
          split
          · exact hl2
          · exact hl2
        · rw [hmi]
          split
          · rfl
          · rfl
        · rw [hmi]
          split
          · rfl
          · rfl
    · rename_i hc1 hc2
      cases tb with
      | none =>
        have hz : (none : Option (HashMap κ ν × ℕ)) = some mi := hins
        exact Option.noConfusion hz
      | some i =>
        have hz : some (if isEmptyAt m.Buckets i
            then ((⟨m.Buckets, m.num_entries_ + 1, m.num_to_mbstones_⟩ : HashMap κ ν), i)
            else (⟨m.Buckets, m.num_entries_ + 1, usub m.num_to_mbstones_ 1⟩, i)) = some mi := hins
        have hmi := (Option.some.inj hz).symm
        refine ⟨m, Or.inl ⟨rfl, ?_, hc1⟩, ?_, ?_⟩
        · rw [hmi]
          split
          · rfl
          · rfl
        · rw [hmi]
          split
          · rfl
          · rfl
        · rw [hmi]
          split
          · rfl
          · rfl

/-- C8: `try_emplace` on a key already present returns the existing bucket
(holding the key with its old value, the one `find` reports) with the
`inserted` flag `false` and the map unchanged; on an absent key it writes the
new entry into the bucket located by the lookup — on the map itself when no
growth was triggered, else on the grown table produced by `Grow` — bumps the
entry count by one and reports `true`. -/
theorem densemap_C8_try_emplace (hash : κ → ℕ) (m : HashMap κ ν) (k : κ) (v : ν)
    (r : HashMap κ ν × ℕ × Bool)
    (h : HashMap.try_emplace hash m k v = some r) :
    (r.2.2 = false → r.1 = m ∧ ∃ v', m.Buckets.getD r.2.1 .empty = Slot.full k v' ∧
        HashMap.find hash m k = some (some v')) ∧
    (r.2.2 = true → r.2.1 < r.1.Buckets.length ∧
        r.1.Buckets.getD r.2.1 .empty = Slot.full k v ∧
      ∃ m2 : HashMap κ ν,
        (m2 = m ∨ HashMap.Grow hash m (u32 (m.Buckets.length * 2)) = some m2 ∨
          HashMap.Grow hash m m.Buckets.length = some m2) ∧
        (∃ fl : Bool, LookupBucketFor hash m2.Buckets k = some (fl, some r.2.1)) ∧
        r.1.Buckets = m2.Buckets.set r.2.1 (Slot.full k v) ∧
        r.1.num_entries_ = m2.num_entries_ + 1) := by
  unfold HashMap.try_emplace at h
  cases hlook : LookupBucketFor hash m.Buckets k with
  | none =>
    rw [hlook] at h
    exact Option.noConfusion h
  | some rr =>
    rw [hlook] at h
    obtain ⟨fl0, ob0⟩ := rr
    cases fl0 with
    | true =>
      cases ob0 with
      | none =>
        have hx : (none : Option (HashMap κ ν × ℕ × Bool)) = some r := h
        exact Option.noConfusion hx
      | some i =>
        have hx : some ((m, i, false) : HashMap κ ν × ℕ × Bool) = some r := h
        obtain rfl : ((m, i, false) : HashMap κ ν × ℕ × Bool) = r := Option.some.inj hx
        constructor
        · intro _
          obtain ⟨v', hv'⟩ := LookupBucketFor_hit_sound hash m.Buckets k hlook
          refine ⟨rfl, v', hv', ?_⟩
          unfold HashMap.find
          rw [hlook]
          simp only [Option.map_some']
          show some (match m.Buckets.getD i .empty with
            | Slot.full _ v0 => some v0
            | _ => none) = some (some v')
          rw [hv']
        · intro hf
          exact absurd hf (by simp)
    | false =>
      replace h : (HashMap.InsertIntoBucketImpl hash m k ob0).bind
          (fun mi => some (({ mi.1 with Buckets := mi.1.Buckets.set mi.2 (Slot.full k v) },
            mi.2, true) : HashMap κ ν × ℕ × Bool)) = some r := h
      cases hins : HashMap.InsertIntoBucketImpl hash m k ob0 with
      | none =>
        rw [hins] at h
        exact Option.noConfusion h
      | some mi =>
        rw [hins] at h
        have hx : some (({ mi.1 with Buckets := mi.1.Buckets.set mi.2 (Slot.full k v) },
            mi.2, true) : HashMap κ ν × ℕ × Bool) = some r := h
        obtain rfl := (Option.some.inj hx)
        refine ⟨fun hf => absurd hf (by simp), fun _ => ?_⟩
        obtain ⟨m2, hcase, hbeq, hent⟩ := InsertIntoBucketImpl_shape hash m k ob0 mi hins
        have hm2 : m2 = m ∨ HashMap.Grow hash m (u32 (m.Buckets.length * 2)) = some m2 ∨
            HashMap.Grow hash m m.Buckets.length = some m2 := by
          rcases hcase with ⟨he, _, _⟩ | ⟨hg, _⟩
          · exact Or.inl he
          · rcases hg with ⟨hg1, _⟩ | ⟨hg2, _⟩
            · exact Or.inr (Or.inl hg1)
            · exact Or.inr (Or.inr hg2)
        obtain ⟨fl2, hl2⟩ : ∃ fl : Bool, LookupBucketFor hash m2.Buckets k
            = some (fl, some mi.2) := by
          rcases hcase with ⟨he, htb, _⟩ | ⟨_, hfl⟩
          · subst he
            rw [htb] at hlook
            exact ⟨false, hlook⟩
          · exact hfl
        have hilt : mi.2 < m2.Buckets.length :=
          LookupBucketFor_index_lt hash m2.Buckets k fl2 mi.2 hl2
        refine ⟨?_, ?_, m2, hm2, ⟨fl2, hl2⟩, ?_, ?_⟩
        · show mi.2 < (mi.1.Buckets.set mi.2 (Slot.full k v)).length
          rw [List.length_set, hbeq]
          exact hilt
        · show (mi.1.Buckets.set mi.2 (Slot.full k v)).getD mi.2 .empty = Slot.full k v
          rw [hbeq]
          exact getD_set_self m2.Buckets mi.2 (Slot.full k v) .empty hilt
        · show mi.1.Buckets.set mi.2 (Slot.full k v) = m2.Buckets.set mi.2 (Slot.full k v)
          rw [hbeq]
        · show mi.1.num_entries_ = m2.num_entries_ + 1
          exact hent

/-- Starting table for the C8 witness: four `EMPTY` buckets. -/
def c8Start : HashMap ℕ ℕ := ⟨List.replicate 4 Slot.empty, 0, 0⟩

/-- Resulting table of the C8 witness insert. -/
def c8End : HashMap ℕ ℕ := ⟨[Slot.empty, Slot.empty, Slot.empty, Slot.full 7 9], 1, 0⟩

theorem densemap_C8_witness :
    HashMap.try_emplace (fun n => n) c8Start 7 9 = some (c8End, 3, true) ∧
    c8End.Buckets.getD 3 Slot.empty = Slot.full 7 9 := by
  have hth := densemap_C8_try_emplace (fun n => n) c8Start 7 9 (c8End, 3, true) rfl
  exact ⟨rfl, (hth.2 rfl).2.1⟩

/-- C9: on a power-of-two table with an `EMPTY` bucket, `erase` always
returns (never raises); on success it has tombstoned a bucket that held the
key, decremented the live-entry count and incremented the tombstone count; on
failure the map is unchanged; and when the key is nowhere in the table the
result is always the silent failure. -/
theorem densemap_C9_erase_semantics (hash : κ → ℕ) (m : HashMap κ ν) (k : κ) (w : ℕ)
    (hlen : m.Buckets.length = 2 ^ w)
    (hne : ∃ p, p < m.Buckets.length ∧ isEmptyAt m.Buckets p = true) :
    ∃ b : HashMap κ ν × Bool, HashMap.erase hash m k = some b ∧
      (b.2 = true → ∃ i v', i < m.Buckets.length ∧
        m.Buckets.getD i .empty = Slot.full k v' ∧
        b.1.Buckets = m.Buckets.set i Slot.tombstone ∧
        b.1.num_entries_ = usub m.num_entries_ 1 ∧
        b.1.num_to_mbstones_ = m.num_to_mbstones_ + 1) ∧
      (b.2 = false → b.1 = m) ∧
      ((∀ i v', m.Buckets.getD i .empty ≠ Slot.full k v') → b.2 = false) := by
  obtain ⟨i0, hfs⟩ := firstStop_exists hash m.Buckets k hlen hne
  have hLB := LookupBucketFor_eq_of_firstStop hash m.Buckets k i0 hlen hfs
  have hposlen : 0 < m.Buckets.length := by
    rw [hlen]
    exact pow_pos (by norm_num) w
  by_cases hk : holdsKey m.Buckets k (probePos hash m.Buckets.length k i0) = true
  · rw [if_pos hk] at hLB
    obtain ⟨v', hv'⟩ := LookupBucketFor_hit_sound hash m.Buckets k hLB
    refine ⟨({ Buckets := m.Buckets.set (probePos hash m.Buckets.length k i0) Slot.tombstone,
               num_entries_ := usub m.num_entries_ 1,
               num_to_mbstones_ := m.num_to_mbstones_ + 1 }, true), ?_, ?_, ?_, ?_⟩
    · unfold HashMap.erase
      rw [hLB]
      rfl
    · intro _
      exact ⟨probePos hash m.Buckets.length k i0, v',
        probePos_lt hash k i0 hposlen, hv', rfl, rfl, rfl⟩
    · intro hf
      exact absurd hf (by simp)
    · intro habs
      exact absurd hv' (habs _ v')
  · rw [if_neg hk] at hLB
    refine ⟨(m, false), ?_, ?_, fun _ => rfl, fun _ => rfl⟩
    · unfold HashMap.erase
      rw [hLB]
      rfl
    · intro hf
      exact absurd hf (by simp)

/-- Starting table for the C9 witness: key 1 live in bucket 1, three `EMPTY`
buckets. -/
def c9Map : HashMap ℕ ℕ := ⟨[Slot.empty, Slot.full 1 10, Slot.empty, Slot.empty], 1, 0⟩

theorem densemap_C9_witness :
    ∃ b : HashMap ℕ ℕ × Bool, HashMap.erase (fun n => n) c9Map 1 = some b ∧
      (b.2 = true → ∃ i v', i < c9Map.Buckets.length ∧
        c9Map.Buckets.getD i Slot.empty = Slot.full 1 v' ∧
        b.1.Buckets = c9Map.Buckets.set i Slot.tombstone ∧
        b.1.num_entries_ = usub c9Map.num_entries_ 1 ∧
        b.1.num_to_mbstones_ = c9Map.num_to_mbstones_ + 1) ∧
      (b.2 = false → b.1 = c9Map) ∧
      ((∀ i v', c9Map.Buckets.getD i Slot.empty ≠ Slot.full 1 v') → b.2 = false) :=
  densemap_C9_erase_semantics (fun n => n) c9Map 1 2 rfl ⟨0, by decide, by decide⟩


/-! ### Claim C4: capacity shape of the heap-backed `HashMap` -/

theorem reinsert_foldlM_length (hash : κ → ℕ) (old : List (Slot κ ν)) :
    ∀ (acc : List (Slot κ ν) × ℕ) (r : List (Slot κ ν) × ℕ),
      old.foldlM (reinsertStep hash) acc = some r → r.1.length = acc.1.length := by
  induction old with
  | nil =>
    intro acc r h
    have h' : some acc = some r := h
    rw [← Option.some.inj h']
  | cons slot rest ih =>
    intro acc r h
    rw [List.foldlM_cons] at h
    cases slot with
    | empty =>
      replace h : rest.foldlM (reinsertStep hash) acc = some r := h
      exact ih acc r h
    | tombstone =>
      replace h : rest.foldlM (reinsertStep hash) acc = some r := h
      exact ih acc r h
    | full k v =>
      replace h : ((LookupBucketFor hash acc.1 k).bind fun rr =>
          match rr.2 with
          | none => none
          | some i => some (acc.1.set i (Slot.full k v), acc.2 + 1)).bind
          (fun b => rest.foldlM (reinsertStep hash) b) = some r := h
      cases hlk : LookupBucketFor hash acc.1 k with
      | none =>
        rw [hlk] at h
        exact Option.noConfusion h
      | some rr =>
        rw [hlk] at h
        obtain ⟨flr, obr⟩ := rr
        cases obr with
        | none =>
          have h' : (none : Option (List (Slot κ ν) × ℕ)) = some r := h
          exact Option.noConfusion h'
        | some i =>
          replace h : rest.foldlM (reinsertStep hash)
              (acc.1.set i (Slot.full k v), acc.2 + 1) = some r := h
          have hr := ih _ r h
          rw [hr]
          show (acc.1.set i (Slot.full k v)).length = acc.1.length
          exact List.length_set acc.1 i (Slot.full k v)

theorem reinsertList_length (hash : κ → ℕ) (old fresh : List (Slot κ ν))
    (r : List (Slot κ ν) × ℕ) (h : reinsertList hash old fresh = some r) :
    r.1.length = fresh.length := by
  have heq : reinsertList hash old fresh = old.foldlM (reinsertStep hash) (fresh, 0) := rfl
  rw [heq] at h
  exact reinsert_foldlM_length hash old (fresh, 0) r h

/-- Every bucket array produced by `HashMap::Grow` has a power-of-two size in
`[2^6, 2^31]`. -/
theorem Grow_length (hash : κ → ℕ) (m : HashMap κ ν) (a : ℕ) (m2 : HashMap κ ν)
    (h : HashMap.Grow hash m a = some m2) :
    ∃ j, 6 ≤ j ∧ j ≤ 31 ∧ m2.Buckets.length = 2 ^ j := by
  obtain ⟨j, hj6, hj31, hjeq⟩ := grow_size_pow2 a
  refine ⟨j, hj6, hj31, ?_⟩
  simp only [HashMap.Grow] at h
  split at h
  · have h' := Option.some.inj h
    rw [← h']
    show (List.replicate (max 64 (u32 (NextPowerOf2 (usub a 1)))) Slot.empty).length = 2 ^ j
    rw [List.length_replicate]
    exact hjeq
  · cases hre : reinsertList hash m.Buckets
        (List.replicate (max 64 (u32 (NextPowerOf2 (usub a 1)))) Slot.empty) with
    | none =>
      rw [hre] at h
      exact Option.noConfusion h
    | some bn =>
      rw [hre] at h
      have h' : some ((⟨bn.1, bn.2, 0⟩ : HashMap κ ν)) = some m2 := h
      rw [← Option.some.inj h']
      show bn.1.length = 2 ^ j
      rw [reinsertList_length hash m.Buckets _ bn hre, List.length_replicate]
      exact hjeq

theorem init_length (n : ℕ) :
    (HashMap.init n : HashMap κ ν).Buckets.length
      = HashMap.getMinBucketToReserveForEntries n := by
  show (List.replicate (HashMap.getMinBucketToReserveForEntries n)
      (Slot.empty : Slot κ ν)).length = _
  exact List.length_replicate _ _

theorem try_emplace_length (hash : κ → ℕ) (m : HashMap κ ν) (k : κ) (v : ν)
    (r : HashMap κ ν × ℕ × Bool) (h : HashMap.try_emplace hash m k v = some r) :
    r.1.Buckets.length = m.Buckets.length ∨
      ∃ j, 6 ≤ j ∧ j ≤ 31 ∧ r.1.Buckets.length = 2 ^ j := by
  unfold HashMap.try_emplace at h
  cases hlk : LookupBucketFor hash m.Buckets k with
  | none =>
    rw [hlk] at h
    exact Option.noConfusion h
  | some rr =>
    rw [hlk] at h
    obtain ⟨fl0, ob0⟩ := rr
    cases fl0 with
    | true =>
      cases ob0 with
      | none =>
        have hx : (none : Option (HashMap κ ν × ℕ × Bool)) = some r := h
        exact Option.noConfusion hx
      | some i =>
        have hx : some ((m, i, false) : HashMap κ ν × ℕ × Bool) = some r := h
        obtain rfl : ((m, i, false) : HashMap κ ν × ℕ × Bool) = r := Option.some.inj hx
        exact Or.inl rfl
    | false =>
      replace h : (HashMap.InsertIntoBucketImpl hash m k ob0).bind
          (fun mi => some (({ mi.1 with Buckets := mi.1.Buckets.set mi.2 (Slot.full k v) },
            mi.2, true) : HashMap κ ν × ℕ × Bool)) = some r := h
      cases hins : HashMap.InsertIntoBucketImpl hash m k ob0 with
      | none =>
        rw [hins] at h
        exact Option.noConfusion h
      | some mi =>
        rw [hins] at h
        have hx : some (({ mi.1 with Buckets := mi.1.Buckets.set mi.2 (Slot.full k v) },
            mi.2, true) : HashMap κ ν × ℕ × Bool) = some r := h
        obtain rfl := Option.some.inj hx
        obtain ⟨m2, hcase, hbeq, _⟩ := InsertIntoBucketImpl_shape hash m k ob0 mi hins
        show (mi.1.Buckets.set mi.2 (Slot.full k v)).length = m.Buckets.length ∨
          ∃ j, 6 ≤ j ∧ j ≤ 31 ∧ (mi.1.Buckets.set mi.2 (Slot.full k v)).length = 2 ^ j
        rw [List.length_set, hbeq]
        rcases hcase with ⟨he, _, _⟩ | ⟨hg, _⟩
        · rw [he]
          exact Or.inl rfl
        · rcases hg with ⟨hg, _⟩ | ⟨hg, _⟩
          · exact Or.inr (Grow_length hash m _ m2 hg)
          · exact Or.inr (Grow_length hash m _ m2 hg)

theorem erase_length (hash : κ → ℕ) (m : HashMap κ ν) (k : κ)
    (b : HashMap κ ν × Bool) (h : HashMap.erase hash m k = some b) :
    b.1.Buckets.length = m.Buckets.length := by
  unfold HashMap.erase at h
  cases hlk : LookupBucketFor hash m.Buckets k with
  | none =>
    rw [hlk] at h
    exact Option.noConfusion h
  | some rr =>
    rw [hlk] at h
    obtain ⟨fl0, ob0⟩ := rr
    cases fl0 with
    | true =>
      cases ob0 with
      | none =>
        have hx : (none : Option (HashMap κ ν × Bool)) = some b := h
        exact Option.noConfusion hx
      | some i =>
        have hx : some ((⟨m.Buckets.set i Slot.tombstone, usub m.num_entries_ 1,
            m.num_to_mbstones_ + 1⟩ : HashMap κ ν), true) = some b := h
        obtain rfl := Option.some.inj hx
        show (m.Buckets.set i Slot.tombstone).length = m.Buckets.length
        exact List.length_set m.Buckets i Slot.tombstone
    | false =>
      have hx : some ((m, false) : HashMap κ ν × Bool) = some b := h
      obtain rfl := Option.some.inj hx
      rfl

theorem clear_cap (m : HashMap κ ν) :
    (HashMap.clear m).Buckets.length = m.Buckets.length ∨
      (HashMap.clear m).Buckets.length = 0 ∨
      ∃ j, 1 ≤ j ∧ j ≤ 31 ∧ (HashMap.clear m).Buckets.length = 2 ^ j := by
  simp only [HashMap.clear]
  split
  · exact Or.inl rfl
  · split
    · simp only [HashMap.shrink_and_clear]
      split
      · split
        · left
          show (List.replicate m.Buckets.length (Slot.empty : Slot κ ν)).length
            = m.Buckets.length
          exact List.length_replicate _ _
        · right
          rw [init_length]
          rcases getMinBucket_pow2 (max 64 (2 ^ (Log2_32_Ceil m.num_entries_ + 1)))
            with h0 | hj
          · exact Or.inl h0
          · exact Or.inr hj
      · split
        · left
          show (List.replicate m.Buckets.length (Slot.empty : Slot κ ν)).length
            = m.Buckets.length
          exact List.length_replicate _ _
        · right
          rw [init_length]
          rcases getMinBucket_pow2 0 with h0 | hj
          · exact Or.inl h0
          · exact Or.inr hj
    · left
      show (List.replicate m.Buckets.length (Slot.empty : Slot κ ν)).length
        = m.Buckets.length
      exact List.length_replicate _ _

theorem reserve_cap (hash : κ → ℕ) (m : HashMap κ ν) (n : ℕ) (m2 : HashMap κ ν)
    (h : HashMap.reserve hash m n = some m2) :
    m2.Buckets.length = m.Buckets.length ∨
      ∃ j, 6 ≤ j ∧ j ≤ 31 ∧ m2.Buckets.length = 2 ^ j := by
  simp only [HashMap.reserve] at h
  split at h
  · exact Or.inr (Grow_length hash m _ m2 h)
  · have := Option.some.inj h
    rw [← this]
    exact Or.inl rfl

theorem applyHOp_cap (hash : κ → ℕ) (m m2 : HashMap κ ν) (op : HOp κ ν)
    (hP : m.Buckets.length = 0 ∨ ∃ j, 1 ≤ j ∧ j ≤ 31 ∧ m.Buckets.length = 2 ^ j)
    (h : applyHOp hash m op = some m2) :
    m2.Buckets.length = 0 ∨ ∃ j, 1 ≤ j ∧ j ≤ 31 ∧ m2.Buckets.length = 2 ^ j := by
  cases op with
  | insert k v =>
    replace h : (HashMap.try_emplace hash m k v).map (·.1) = some m2 := h
    cases ht : HashMap.try_emplace hash m k v with
    | none =>
      rw [ht] at h
      exact Option.noConfusion h
    | some r =>
      rw [ht] at h
      have h' : some r.1 = some m2 := h
      rw [← Option.some.inj h']
      rcases try_emplace_length hash m k v r ht with heq | ⟨j, h6, h31, he⟩
      · rw [heq]
        exact hP
      · exact Or.inr ⟨j, by omega, h31, he⟩
  | erase k =>
    replace h : (HashMap.erase hash m k).map (·.1) = some m2 := h
    cases ht : HashMap.erase hash m k with
    | none =>
      rw [ht] at h
      exact Option.noConfusion h
    | some b =>
      rw [ht] at h
      have h' : some b.1 = some m2 := h
      rw [← Option.some.inj h', erase_length hash m k b ht]
      exact hP
  | clear =>
    have h' : some (HashMap.clear m) = some m2 := h
    rw [← Option.some.inj h']
    rcases clear_cap m with heq | h0 | hj
    · rw [heq]
      exact hP
    · exact Or.inl h0
    · exact Or.inr hj
  | reserve n =>
    replace h : HashMap.reserve hash m n = some m2 := h
    rcases reserve_cap hash m n m2 h with heq | ⟨j, h6, h31, he⟩
    · rw [heq]
      exact hP
    · exact Or.inr ⟨j, by omega, h31, he⟩

theorem foldHOps_cap (hash : κ → ℕ) :
    ∀ (ops : List (HOp κ ν)) (m0 m : HashMap κ ν),
      (m0.Buckets.length = 0 ∨ ∃ j, 1 ≤ j ∧ j ≤ 31 ∧ m0.Buckets.length = 2 ^ j) →
      ops.foldlM (applyHOp hash) m0 = some m →
      m.Buckets.length = 0 ∨ ∃ j, 1 ≤ j ∧ j ≤ 31 ∧ m.Buckets.length = 2 ^ j := by
  intro ops
  induction ops with
  | nil =>
    intro m0 m hP h
    have h' : some m0 = some m := h
    rw [← Option.some.inj h']
    exact hP
  | cons op rest ih =>
    intro m0 m hP h
    rw [List.foldlM_cons] at h
    cases happ : applyHOp hash m0 op with
    | none =>
      rw [happ] at h
      exact Option.noConfusion h
    | some m1 =>
      rw [happ] at h
      replace h : rest.foldlM (applyHOp hash) m1 = some m := h
      exact ih m1 m (applyHOp_cap hash m0 m1 op hP happ) h

/-- Capacity part alone: after construction with any reserve and any
sequence of public operations that succeeds, the bucket capacity of the
heap-backed `HashMap` is 0 or a power of two `2^j` with `1 ≤ j ≤ 31`. -/
theorem runHOps_capacity_pow2 (hash : κ → ℕ) (initialReserve : ℕ)
    (ops : List (HOp κ ν)) (m : HashMap κ ν)
    (h : runHOps hash initialReserve ops = some m) :
    m.Buckets.length = 0 ∨ ∃ j, 1 ≤ j ∧ j ≤ 31 ∧ m.Buckets.length = 2 ^ j := by
  unfold runHOps at h
  refine foldHOps_cap hash ops (HashMap.init initialReserve) m ?_ h
  rw [init_length]
  rcases getMinBucket_pow2 initialReserve with h0 | hj
  · exact Or.inl h0
  · exact Or.inr hj

/-- The original C4 is false: a freshly constructed `HashMap(0)` has
`entries*4 < capacity*3` fail (0 < 0), and a `SmallHashMap` constructed with
5 requested buckets (inline capacity 4) installs a capacity of 5, which is
neither 0 nor a power of two. -/
theorem densemap_C4_counterexample :
    ((runHOps (fun n => n) 0 ([] : List (HOp ℕ ℕ))).map
        (fun m => decide (m.num_entries_ * 4 < m.Buckets.length * 3)) = some false) ∧
    ((runSOps 4 (fun n => n) 5 ([] : List (SOp ℕ ℕ))).map
        (fun m => m.storage.length) = some 5) ∧
    (∀ j, j ≤ 31 → (5 : ℕ) ≠ 2 ^ j) ∧ (5 : ℕ) ≠ 0 := by
  refine ⟨rfl, rfl, by decide, by decide⟩



/-! ### Claim C3: the small map's inline-to-heap transition -/

/-- A `SmallHashMap::Grow` call on a small (inline) map with a request of at
least the inline capacity `N ≤ 64` always moves to heap storage. -/
theorem SmallGrow_small_to_heap (N : ℕ) (hash : κ → ℕ) (m : SmallHashMap κ ν)
    (a : ℕ) (m2 : SmallHashMap κ ν) (hsmall : m.Small = true) (hN64 : N ≤ 64)
    (haN : a ≥ N) (h : SmallHashMap.Grow N hash m a = some m2) : m2.Small = false := by
  simp only [SmallHashMap.Grow] at h
  rw [if_pos haN, if_pos hsmall] at h
  have hnlt : ¬ max 64 (u32 (NextPowerOf2 (usub a 1))) < N := by
    have h64 : (64 : ℕ) ≤ max 64 (u32 (NextPowerOf2 (usub a 1))) := le_max_left _ _
    omega
  rw [if_neg hnlt] at h
  cases hre : reinsertList hash m.storage
      (List.replicate (max 64 (u32 (NextPowerOf2 (usub a 1)))) Slot.empty) with
  | none =>
    rw [hre] at h
    exact Option.noConfusion h
  | some bn =>
    rw [hre] at h
    have h' : some ((⟨false, bn.1, bn.2, 0⟩ : SmallHashMap κ ν)) = some m2 := h
    rw [← Option.some.inj h']

/-- Dissection of a successful small-map `InsertIntoBucketImpl`: either
neither growth trigger fired — then the map keeps its storage discriminant
and the target bucket is the caller-supplied one — or a trigger fired and the
entry goes to a table produced by one of the two `Grow` calls. -/
theorem SmallInsertImpl_shape (N : ℕ) (hash : κ → ℕ) (m : SmallHashMap κ ν) (k : κ)
    (tb : Option ℕ) (mi : SmallHashMap κ ν × ℕ)
    (hins : SmallHashMap.InsertIntoBucketImpl N hash m k tb = some mi) :
    (¬ u32 ((m.num_entries_ + 1) * 4) ≥ u32 (m.storage.length * 3) ∧
      ¬ usub m.storage.length (m.num_entries_ + 1 + m.num_to_mbstones_)
          ≤ m.storage.length / 8 ∧
      mi.1.Small = m.Small ∧ tb = some mi.2) ∨
    ((u32 ((m.num_entries_ + 1) * 4) ≥ u32 (m.storage.length * 3) ∨
      usub m.storage.length (m.num_entries_ + 1 + m.num_to_mbstones_)
          ≤ m.storage.length / 8) ∧
      ∃ m2 : SmallHashMap κ ν,
        (SmallHashMap.Grow N hash m (u32 (m.storage.length * 2)) = some m2 ∨
          SmallHashMap.Grow N hash m m.storage.length = some m2) ∧
        mi.1.Small = m2.Small) := by
  simp only [SmallHashMap.InsertIntoBucketImpl] at hins
  split at hins
  · rename_i hc1
    refine Or.inr ⟨Or.inl hc1, ?_⟩
    obtain ⟨m2, hg⟩ : ∃ mg, SmallHashMap.Grow N hash m (u32 (m.storage.length * 2))
        = some mg := by
      cases hx : SmallHashMap.Grow N hash m (u32 (m.storage.length * 2)) with
      | none =>
        rw [hx] at hins
        exact Option.noConfusion hins
      | some mm => exact ⟨mm, rfl⟩
    rw [hg] at hins
    simp only [Option.some_bind] at hins
    obtain ⟨r2, hl2⟩ : ∃ rr, LookupBucketFor hash m2.storage k = some rr := by
      cases hx : LookupBucketFor hash m2.storage k with
      | none =>
        rw [hx] at hins
        exact Option.noConfusion hins
      | some rr => exact ⟨rr, rfl⟩
    obtain ⟨fl2, ob2⟩ := r2
    rw [hl2] at hins
    cases ob2 with
    | none =>
      have hz : (none : Option (SmallHashMap κ ν × ℕ)) = some mi := hins
      exact Option.noConfusion hz
    | some i =>
      have hz : some (if isEmptyAt m2.storage i
          then ((⟨m2.Small, m2.storage, m2.num_entries_ + 1, m2.num_to_mbstones_⟩ :
            SmallHashMap κ ν), i)
          else (⟨m2.Small, m2.storage, m2.num_entries_ + 1,
            usub m2.num_to_mbstones_ 1⟩, i)) = some mi := hins
      have hmi := (Option.some.inj hz).symm
      refine ⟨m2, Or.inl hg, ?_⟩
      rw [hmi]
      split
      · rfl
      · rfl
  · split at hins
    · rename_i hc1 hc2
      refine Or.inr ⟨Or.inr hc2, ?_⟩
      obtain ⟨m2, hg⟩ : ∃ mg, SmallHashMap.Grow N hash m m.storage.length = some mg := by
        cases hx : SmallHashMap.Grow N hash m m.storage.length with
        | none =>
          rw [hx] at hins
          exact Option.noConfusion hins
        | some mm => exact ⟨mm, rfl⟩
      rw [hg] at hins
      simp only [Option.some_bind] at hins
      obtain ⟨r2, hl2⟩ : ∃ rr, LookupBucketFor hash m2.storage k = some rr := by
        cases hx : LookupBucketFor hash m2.storage k with
        | none =>
          rw [hx] at hins
          exact Option.noConfusion hins
        | some rr => exact ⟨rr, rfl⟩
      obtain ⟨fl2, ob2⟩ := r2
      rw [hl2] at hins
      cases ob2 with
      | none =>
        have hz : (none : Option (SmallHashMap κ ν × ℕ)) = some mi := hins
        exact Option.noConfusion hz
      | some i =>
        have hz : some (if isEmptyAt m2.storage i
            then ((⟨m2.Small, m2.storage, m2.num_entries_ + 1, m2.num_to_mbstones_⟩ :
              SmallHashMap κ ν), i)
            else (⟨m2.Small, m2.storage, m2.num_entries_ + 1,
              usub m2.num_to_mbstones_ 1⟩, i)) = some mi := hins
        have hmi := (Option.some.inj hz).symm
        refine ⟨m2, Or.inr hg, ?_⟩
        rw [hmi]
        split
        · rfl
        · rfl
    · rename_i hc1 hc2
      cases tb with
      | none =>
        have hz : (none : Option (SmallHashMap κ ν × ℕ)) = some mi := hins
        exact Option.noConfusion hz
      | some i =>
        have hz : some (if isEmptyAt m.storage i
            then ((⟨m.Small, m.storage, m.num_entries_ + 1, m.num_to_mbstones_⟩ :
              SmallHashMap κ ν), i)
            else (⟨m.Small, m.storage, m.num_entries_ + 1,
              usub m.num_to_mbstones_ 1⟩, i)) = some mi := hins
        have hmi := (Option.some.inj hz).symm
        refine Or.inl ⟨hc1, hc2, ?_, ?_⟩
        · rw [hmi]
          split
          · rfl
          · rfl
        · rw [hmi]
          split
          · rfl
          · rfl

/-- C3 (amended): on a small (inline) map of inline capacity `N ≤ 64`, a
successful `try_emplace` moves the buckets to heap storage exactly when the
key was absent and one of the two growth triggers fires — the load threshold
`(entries+1)*4 ≥ N*3` or tombstone crowding — not when the inline capacity is
exhausted; absent either trigger (or on a present key) the map stays inline. -/
theorem densemap_C3_small_map_growth (N : ℕ) (hash : κ → ℕ) (m : SmallHashMap κ ν)
    (k : κ) (v : ν) (r : SmallHashMap κ ν × ℕ × Bool) (fl : Bool) (tb : Option ℕ)
    (hsmall : m.Small = true) (hN64 : N ≤ 64) (hlen : m.storage.length = N)
    (hlk : LookupBucketFor hash m.storage k = some (fl, tb))
    (h : SmallHashMap.try_emplace N hash m k v = some r) :
    r.1.Small = false ↔ fl = false ∧
      (u32 ((m.num_entries_ + 1) * 4) ≥ u32 (N * 3) ∨
        usub N (m.num_entries_ + 1 + m.num_to_mbstones_) ≤ N / 8) := by
  unfold SmallHashMap.try_emplace at h
  rw [hlk] at h
  cases fl with
  | true =>
    cases tb with
    | none =>
      have hx : (none : Option (SmallHashMap κ ν × ℕ × Bool)) = some r := h
      exact Option.noConfusion hx
    | some i =>
      have hx : some ((m, i, false) : SmallHashMap κ ν × ℕ × Bool) = some r := h
      obtain rfl : ((m, i, false) : SmallHashMap κ ν × ℕ × Bool) = r := Option.some.inj hx
      constructor
      · intro hf
        rw [hsmall] at hf
        exact absurd hf (by simp)
      · rintro ⟨hfl, _⟩
        exact absurd hfl (by simp)
  | false =>
    replace h : (SmallHashMap.InsertIntoBucketImpl N hash m k tb).bind
        (fun mi => some (({ mi.1 with storage := mi.1.storage.set mi.2 (Slot.full k v) },
          mi.2, true) : SmallHashMap κ ν × ℕ × Bool)) = some r := h
    cases hins : SmallHashMap.InsertIntoBucketImpl N hash m k tb with
    | none =>
      rw [hins] at h
      exact Option.noConfusion h
    | some mi =>
      rw [hins] at h
      have hx : some (({ mi.1 with storage := mi.1.storage.set mi.2 (Slot.full k v) },
          mi.2, true) : SmallHashMap κ ν × ℕ × Bool) = some r := h
      obtain rfl := Option.some.inj hx
      show mi.1.Small = false ↔ _
      rcases SmallInsertImpl_shape N hash m k tb mi hins with
        ⟨hc1, hc2, hSm, _⟩ | ⟨hcond, m2, hgor, hSm⟩
      · rw [hlen] at hc1 hc2
        constructor
        · intro hf
          rw [hSm, hsmall] at hf
          exact absurd hf (by simp)
        · rintro ⟨_, hor⟩
          exact absurd hor (by tauto)
      · have hheap : m2.Small = false := by
          rcases hgor with hg | hg
          · refine SmallGrow_small_to_heap N hash m _ m2 hsmall hN64 ?_ hg
            rw [hlen]
            have h2N : u32 (N * 2) = N * 2 := by
              refine u32_eq_of_lt ?_
              have : N * 2 ≤ 128 := by omega
              omega
            rw [h2N]
            omega
          · refine SmallGrow_small_to_heap N hash m _ m2 hsmall hN64 ?_ hg
            rw [hlen]
        rw [hSm, hheap]
        constructor
        · intro _
          refine ⟨rfl, ?_⟩
          rw [hlen] at hcond
          exact hcond
        · intro _
          rfl

/-- Midpoint of the C3 witness run: the inline map (N = 4) holding the two
distinct keys 0 and 1. -/
def c3Mid : SmallHashMap ℕ ℕ :=
  ⟨true, [Slot.full 0 10, Slot.full 1 11, Slot.empty, Slot.empty], 2, 0⟩

theorem densemap_C3_witness :
    ∃ r : SmallHashMap ℕ ℕ × ℕ × Bool,
      SmallHashMap.try_emplace 4 (fun n => n) c3Mid 2 12 = some r ∧
      (r.1.Small = false ↔ false = false ∧
        (u32 ((c3Mid.num_entries_ + 1) * 4) ≥ u32 (4 * 3) ∨
          usub 4 (c3Mid.num_entries_ + 1 + c3Mid.num_to_mbstones_) ≤ 4 / 8)) := by
  cases hr : SmallHashMap.try_emplace 4 (fun n => n) c3Mid 2 12 with
  | none => exact absurd hr (by decide)
  | some r =>
    exact ⟨r, rfl, densemap_C3_small_map_growth 4 (fun n => n) c3Mid 2 12 r false (some 2)
      rfl (by decide) rfl rfl hr⟩

/-- The original C3 is false: with inline capacity N = 4, already the third
distinct insert (3 ≤ N) moves to a 64-bucket heap table (the load threshold
`3*4 ≥ 4*3` fires), while the first two inserts stay inline; all three keys
remain retrievable afterwards. -/
theorem densemap_C3_counterexample :
    ((runSOps 4 (fun n => n) 0 [SOp.insert 0 10, SOp.insert 1 11, SOp.insert 2 12]).map
        (fun m => (m.Small, m.storage.length)) = some (false, 64)) ∧
    ((runSOps 4 (fun n => n) 0 [SOp.insert 0 10, SOp.insert 1 11, SOp.insert 2 12]).bind
        (fun m => SmallHashMap.find (fun n => n) m 0) = some (some 10)) ∧
    ((runSOps 4 (fun n => n) 0 [SOp.insert 0 10, SOp.insert 1 11, SOp.insert 2 12]).bind
        (fun m => SmallHashMap.find (fun n => n) m 1) = some (some 11)) ∧
    ((runSOps 4 (fun n => n) 0 [SOp.insert 0 10, SOp.insert 1 11, SOp.insert 2 12]).bind
        (fun m => SmallHashMap.find (fun n => n) m 2) = some (some 12)) ∧
    ((runSOps 4 (fun n => n) 0 [SOp.insert 0 10, SOp.insert 1 11]).map
        (fun m => m.Small) = some true) :=
  ⟨rfl, rfl, rfl, rfl, rfl⟩


/-! ### Counting and key-listing lemmas for bucket arrays (claim C4) -/

theorem getD_set_ne {α : Type} (l : List α) (i j : ℕ) (a d : α) (h : i ≠ j) :
    (l.set i a).getD j d = l.getD j d := by
  rw [List.getD_eq_getElem?_getD, List.getElem?_set_ne h, ← List.getD_eq_getElem?_getD]

theorem getD_full_lt {B : List (Slot κ ν)} {i : ℕ} {k : κ} {v : ν}
    (h : B.getD i .empty = Slot.full k v) : i < B.length := by
  by_contra hge
  push_neg at hge
  rw [List.getD_eq_default _ _ hge] at h
  exact Slot.noConfusion h

theorem list_split {α : Type} (d : α) :
    ∀ (l : List α) (i : ℕ), i < l.length →
      l = l.take i ++ l.getD i d :: l.drop (i + 1) ∧
      ∀ a, l.set i a = l.take i ++ a :: l.drop (i + 1) := by
  intro l
  induction l with
  | nil =>
    intro i h
    simp at h
  | cons x xs ih =>
    intro i h
    cases i with
    | zero => exact ⟨rfl, fun a => rfl⟩
    | succ n =>
      have hn : n < xs.length := by simpa using h
      obtain ⟨h1, h2⟩ := ih n hn
      constructor
      · show x :: xs = x :: xs.take n ++ xs.getD n d :: xs.drop (n + 1)
        rw [List.cons_append]
        exact congrArg (List.cons x) h1
      · intro a
        show x :: xs.set n a = x :: xs.take n ++ a :: xs.drop (n + 1)
        rw [List.cons_append]
        exact congrArg (List.cons x) (h2 a)

/-- A non-live slot is `EMPTY` or a tombstone. -/
theorem not_full_cases {s : Slot κ ν} (h : isFullSlot s = false) :
    s = Slot.empty ∨ s = Slot.tombstone := by
  cases s with
  | empty => exact Or.inl rfl
  | tombstone => exact Or.inr rfl
  | full k v => simp [isFullSlot] at h

theorem countFull_append (l1 l2 : List (Slot κ ν)) :
    countFull (l1 ++ l2) = countFull l1 + countFull l2 :=
  List.countP_append _ _ _

theorem countFull_cons_full (k : κ) (v : ν) (l : List (Slot κ ν)) :
    countFull (Slot.full k v :: l) = countFull l + 1 := by
  simp [countFull, List.countP_cons, isFullSlot]

theorem countFull_cons_not_full {s : Slot κ ν} (h : isFullSlot s = false)
    (l : List (Slot κ ν)) : countFull (s :: l) = countFull l := by
  simp [countFull, List.countP_cons, h]

theorem countFull_set_full {B : List (Slot κ ν)} {i : ℕ} (k : κ) (v : ν)
    (hi : i < B.length) (hnf : isFullSlot (B.getD i .empty) = false) :
    countFull (B.set i (Slot.full k v)) = countFull B + 1 := by
  obtain ⟨h1, h2⟩ := list_split Slot.empty B i hi
  have hB : countFull B = countFull (B.take i) + countFull (B.drop (i + 1)) := by
    conv_lhs => rw [h1]
    rw [countFull_append, countFull_cons_not_full hnf]
  have hS : countFull (B.set i (Slot.full k v))
      = countFull (B.take i) + countFull (B.drop (i + 1)) + 1 := by
    rw [h2, countFull_append, countFull_cons_full]
    omega
  rw [hS, hB]

theorem countFull_set_tomb {B : List (Slot κ ν)} {i : ℕ} {k : κ} {v : ν}
    (hslot : B.getD i .empty = Slot.full k v) :
    countFull (B.set i Slot.tombstone) = countFull B - 1 ∧ 1 ≤ countFull B := by
  have hi := getD_full_lt hslot
  obtain ⟨h1, h2⟩ := list_split Slot.empty B i hi
  have hB : countFull B = countFull (B.take i) + countFull (B.drop (i + 1)) + 1 := by
    conv_lhs => rw [h1]
    rw [hslot, countFull_append, countFull_cons_full]
    omega
  have hS : countFull (B.set i Slot.tombstone)
      = countFull (B.take i) + countFull (B.drop (i + 1)) := by
    rw [h2, countFull_append, countFull_cons_not_full]
    rfl
  constructor
  · rw [hS, hB]
    omega
  · rw [hB]
    omega

theorem keysOf_set_full_perm {B : List (Slot κ ν)} {i : ℕ} (k : κ) (v : ν)
    (hi : i < B.length) (hnf : isFullSlot (B.getD i .empty) = false) :
    List.Perm (keysOf (B.set i (Slot.full k v))) (k :: keysOf B) := by
  obtain ⟨h1, h2⟩ := list_split Slot.empty B i hi
  rw [h2]
  conv_rhs => rw [h1]
  rcases not_full_cases hnf with he | ht
  · rw [he]
    simp only [keysOf, List.filterMap_append, List.filterMap_cons]
    exact List.perm_middle
  · rw [ht]
    simp only [keysOf, List.filterMap_append, List.filterMap_cons]
    exact List.perm_middle

theorem keysOf_set_tomb_split {B : List (Slot κ ν)} {i : ℕ} {k : κ} {v : ν}
    (hslot : B.getD i .empty = Slot.full k v) :
    ∃ A C, keysOf B = A ++ k :: C ∧ keysOf (B.set i Slot.tombstone) = A ++ C := by
  have hi := getD_full_lt hslot
  obtain ⟨h1, h2⟩ := list_split Slot.empty B i hi
  refine ⟨keysOf (B.take i), keysOf (B.drop (i + 1)), ?_, ?_⟩
  · conv_lhs => rw [h1]
    rw [hslot]
    simp [keysOf, List.filterMap_append, List.filterMap_cons]
  · rw [h2]
    simp [keysOf, List.filterMap_append, List.filterMap_cons]

theorem mem_keysOf {B : List (Slot κ ν)} {k : κ} :
    k ∈ keysOf B ↔ ∃ i v, B.getD i .empty = Slot.full k v := by
  unfold keysOf
  rw [List.mem_filterMap]
  constructor
  · rintro ⟨s, hs, hfs⟩
    cases s with
    | full k' v =>
      have hk : k' = k := by simpa using hfs
      subst hk
      obtain ⟨i, hilt, hieq⟩ := List.mem_iff_getElem.mp hs
      exact ⟨i, v, by rw [List.getD_eq_getElem _ _ hilt, hieq]⟩
    | empty => simp at hfs
    | tombstone => simp at hfs
  · rintro ⟨i, v, hslot⟩
    refine ⟨Slot.full k v, ?_, rfl⟩
    have hi := getD_full_lt hslot
    rw [List.getD_eq_getElem _ _ hi] at hslot
    rw [← hslot]
    exact List.getElem_mem hi

theorem nodup_keysOf_unique_idx {B : List (Slot κ ν)} (hnd : (keysOf B).Nodup)
    {i1 i2 : ℕ} {k : κ} {v1 v2 : ν} (h1 : B.getD i1 .empty = Slot.full k v1)
    (h2 : B.getD i2 .empty = Slot.full k v2) : i1 = i2 := by
  have key : ∀ (ia ib : ℕ) (va vb : ν), ia < ib → B.getD ia .empty = Slot.full k va →
      B.getD ib .empty = Slot.full k vb → False := by
    intro ia ib va vb hab ha hb
    have hia := getD_full_lt ha
    have hib := getD_full_lt hb
    obtain ⟨hd1, _⟩ := list_split Slot.empty B ia hia
    have htlen : (B.take ia).length = ia := by
      rw [List.length_take]
      omega
    have hbdrop : (B.drop (ia + 1)).getD (ib - (ia + 1)) Slot.empty = Slot.full k vb := by
      have hb' := hb
      conv_lhs at hb' => rw [hd1]
      rw [List.getD_append_right] at hb'
      · rw [htlen] at hb'
        have hdist : ib - ia = (ib - (ia + 1)) + 1 := by omega
        rw [hdist, List.getD_cons_succ] at hb'
        exact hb'
      · rw [htlen]
        omega
    have hmem : k ∈ keysOf (B.drop (ia + 1)) :=
      mem_keysOf.mpr ⟨ib - (ia + 1), vb, hbdrop⟩
    have hkOf : keysOf B = keysOf (B.take ia) ++ k :: keysOf (B.drop (ia + 1)) := by
      conv_lhs => rw [hd1]
      rw [ha]
      simp [keysOf, List.filterMap_append, List.filterMap_cons]
    rw [hkOf, List.nodup_append] at hnd
    exact (List.nodup_cons.mp hnd.2.1).1 hmem
  by_contra hne
  rcases lt_or_gt_of_ne hne with hlt | hgt
  · exact key i1 i2 v1 v2 hlt h1 h2
  · exact key i2 i1 v2 v1 hgt h2 h1

theorem countFull_le_length (B : List (Slot κ ν)) : countFull B ≤ B.length :=
  List.countP_le_length _

theorem getD_replicate_empty (n i : ℕ) :
    (List.replicate n (Slot.empty : Slot κ ν)).getD i .empty = .empty := by
  rcases lt_or_ge i n with h | h
  · rw [List.getD_eq_getElem _ _ (by simpa using h)]
    exact List.getElem_replicate _ _
  · exact List.getD_eq_default _ _ (by simpa using h)

theorem countFull_replicate (n : ℕ) :
    countFull (List.replicate n (Slot.empty : Slot κ ν)) = 0 := by
  simp only [countFull, List.countP_eq_zero]
  intro a ha
  rw [List.eq_of_mem_replicate ha]
  simp [isFullSlot]

theorem keysOf_replicate (n : ℕ) :
    keysOf (List.replicate n (Slot.empty : Slot κ ν)) = [] := by
  induction n with
  | zero => rfl
  | succ m ih =>
    rw [List.replicate_succ]
    simpa [keysOf, List.filterMap_cons] using ih

theorem findable_replicate (hash : κ → ℕ) (n : ℕ) :
    Findable hash (List.replicate n (Slot.empty : Slot κ ν)) := by
  intro i k v h
  rw [getD_replicate_empty] at h
  exact Slot.noConfusion h

theorem isTombAt_replicate (n p : ℕ) :
    isTombAt (List.replicate n (Slot.empty : Slot κ ν)) p = false := by
  simp only [isTombAt, slotAt, getD_replicate_empty]

theorem isTombAt_iff {B : List (Slot κ ν)} {p : ℕ} :
    isTombAt B p = true ↔ B.getD p .empty = Slot.tombstone := by
  unfold isTombAt slotAt
  cases B.getD p .empty <;> simp

theorem isEmptyAt_iff {B : List (Slot κ ν)} {p : ℕ} :
    isEmptyAt B p = true ↔ B.getD p .empty = Slot.empty := by
  unfold isEmptyAt slotAt
  cases B.getD p .empty <;> simp

theorem isFullSlot_false_of_empty_or_tomb {B : List (Slot κ ν)} {p : ℕ}
    (h : isEmptyAt B p = true ∨ isTombAt B p = true) :
    isFullSlot (B.getD p .empty) = false := by
  rcases h with h | h
  · rw [isEmptyAt_iff.mp h]
    rfl
  · rw [isTombAt_iff.mp h]
    rfl


/-! ### Characterizing lookup results by the first stopping probe -/

theorem find_range_build {p : ℕ → Bool} {n j0 : ℕ} (hj0 : j0 < n) (hp : p j0 = true)
    (hb : ∀ j, j < j0 → p j = false) : (List.range n).find? p = some j0 := by
  induction n with
  | zero => omega
  | succ m ih =>
    rw [List.range_succ, List.find?_append]
    rcases Nat.lt_or_ge j0 m with hlt | hge
    · rw [ih hlt]
      rfl
    · have hj0m : j0 = m := by omega
      subst hj0m
      have hnone : (List.range j0).find? p = none := by
        rw [List.find?_eq_none]
        intro x hx
        rw [hb x (List.mem_range.mp hx)]
        simp
      rw [hnone, List.find?_cons_of_pos _ hp]
      rfl

theorem lookupLoop_none_of_no_stop (B : List (Slot κ ν)) (k : κ)
    (hno : ∀ p, p < B.length → holdsKey B k p = false ∧ isEmptyAt B p = false) :
    ∀ fuel bn pa ft, bn < B.length → lookupLoop B k fuel bn pa ft = none := by
  intro fuel
  induction fuel with
  | zero =>
    intro bn pa ft hbn
    rfl
  | succ f ih =>
    intro bn pa ft hbn
    obtain ⟨hhk, hem⟩ := hno bn hbn
    show lookupLoop B k (f + 1) bn pa ft = none
    cases hslot : B.getD bn .empty with
    | empty =>
      exfalso
      have htrue : isEmptyAt B bn = true := isEmptyAt_iff.mpr hslot
      rw [htrue] at hem
      cases hem
    | tombstone =>
      rw [lookupLoop_step_tomb B k pa f ft hslot]
      refine ih _ _ _ ?_
      have hle : (bn + pa) &&& (B.length - 1) ≤ B.length - 1 := Nat.and_le_right
      omega
    | full k' v =>
      have hhold : holdsKey B k bn = decide (k = k') := by
        simp [holdsKey, slotAt, ← List.getD_eq_getElem?_getD, hslot]
      have hkk : ¬ k = k' := by
        intro he
        subst he
        rw [hhold] at hhk
        simp at hhk
      rw [lookupLoop_step_full B k pa f ft hslot, if_neg hkk]
      refine ih _ _ _ ?_
      have hle : (bn + pa) &&& (B.length - 1) ≤ B.length - 1 := Nat.and_le_right
      omega

theorem firstStop_of_success (hash : κ → ℕ) (B : List (Slot κ ν)) (k : κ) {w : ℕ}
    (hlen : B.length = 2 ^ w) {r : Bool × Option ℕ}
    (h : LookupBucketFor hash B k = some r) :
    ∃ j0, firstStop hash B k = some j0 := by
  by_contra hno
  push_neg at hno
  have hfs : firstStop hash B k = none := by
    cases hx : firstStop hash B k with
    | none => rfl
    | some j => exact absurd hx (hno j)
  unfold firstStop at hfs
  have hall := List.find?_eq_none.mp hfs
  have hnostop : ∀ p, p < B.length → holdsKey B k p = false ∧ isEmptyAt B p = false := by
    intro p hp
    have hp' : p < 2 ^ w := by rwa [hlen] at hp
    obtain ⟨i, hiw, hip⟩ := probePos_surj hash k hp'
    have hnost := hall i (List.mem_range.mpr (by omega))
    have hfalse : stopsAt hash B k i = false := by
      cases hx : stopsAt hash B k i with
      | false => rfl
      | true => exact absurd hx hnost
    simp only [stopsAt, Bool.or_eq_false_iff] at hfalse
    rw [hlen, hip] at hfalse
    exact hfalse
  have hpos : 0 < B.length := by
    rw [hlen]
    exact pow_pos (by norm_num) w
  unfold LookupBucketFor at h
  rw [if_neg (by omega)] at h
  have hbnlt : hash k &&& (B.length - 1) < B.length := by
    have hle : hash k &&& (B.length - 1) ≤ B.length - 1 := Nat.and_le_right
    omega
  rw [lookupLoop_none_of_no_stop B k hnostop _ _ _ _ hbnlt] at h
  exact Option.noConfusion h

theorem lookup_hit_shape (hash : κ → ℕ) (B : List (Slot κ ν)) (k : κ) {w i : ℕ}
    (hlen : B.length = 2 ^ w)
    (h : LookupBucketFor hash B k = some (true, some i)) :
    ∃ j0, j0 < B.length ∧ probePos hash B.length k j0 = i ∧ holdsKey B k i = true ∧
      (∀ j, j < j0 → stopsAt hash B k j = false) := by
  obtain ⟨j0, hfs⟩ := firstStop_of_success hash B k hlen h
  have hchar := LookupBucketFor_eq_of_firstStop hash B k j0 hlen hfs
  have hf := hfs
  unfold firstStop at hf
  obtain ⟨hj0lt, _, hbef⟩ := find_range_first hf
  rw [h] at hchar
  by_cases hhold : holdsKey B k (probePos hash B.length k j0) = true
  · rw [if_pos hhold] at hchar
    have h2 : ((true, some i) : Bool × Option ℕ)
        = (true, some (probePos hash B.length k j0)) := Option.some.inj hchar
    have hi : probePos hash B.length k j0 = i :=
      (Option.some.inj (congrArg Prod.snd h2)).symm
    exact ⟨j0, hj0lt, hi, by rwa [hi] at hhold, hbef⟩
  · rw [if_neg hhold] at hchar
    have h2 := Option.some.inj hchar
    exact absurd (congrArg Prod.fst h2) (by simp)

theorem lookup_miss_shape (hash : κ → ℕ) (B : List (Slot κ ν)) (k : κ) {w i : ℕ}
    (hlen : B.length = 2 ^ w)
    (h : LookupBucketFor hash B k = some (false, some i)) :
    ∃ j0, j0 < B.length ∧ holdsKey B k (probePos hash B.length k j0) = false ∧
      isEmptyAt B (probePos hash B.length k j0) = true ∧
      (∀ j, j < j0 → stopsAt hash B k j = false) ∧
      i = (firstTombBefore hash B k j0).getD (probePos hash B.length k j0) := by
  obtain ⟨j0, hfs⟩ := firstStop_of_success hash B k hlen h
  have hchar := LookupBucketFor_eq_of_firstStop hash B k j0 hlen hfs
  have hf := hfs
  unfold firstStop at hf
  obtain ⟨hj0lt, hstop, hbef⟩ := find_range_first hf
  rw [h] at hchar
  by_cases hhold : holdsKey B k (probePos hash B.length k j0) = true
  · rw [if_pos hhold] at hchar
    have h2 := Option.some.inj hchar
    exact absurd (congrArg Prod.fst h2) (by simp)
  · rw [if_neg hhold] at hchar
    have h2 : ((false, some i) : Bool × Option ℕ) = (false, some
        ((firstTombBefore hash B k j0).getD (probePos hash B.length k j0))) :=
      Option.some.inj hchar
    have hi := Option.some.inj (congrArg Prod.snd h2)
    have hholdf : holdsKey B k (probePos hash B.length k j0) = false := by
      cases hx : holdsKey B k (probePos hash B.length k j0) with
      | false => rfl
      | true => exact absurd hx hhold
    have hempty : isEmptyAt B (probePos hash B.length k j0) = true := by
      simp only [stopsAt, Bool.or_eq_true] at hstop
      rcases hstop with hh | he
      · exact absurd hh hhold
      · exact he
    exact ⟨j0, hj0lt, hholdf, hempty, hbef, hi⟩

theorem lookup_eq_hit_of (hash : κ → ℕ) (B : List (Slot κ ν)) (k : κ) {w : ℕ}
    (j0 i : ℕ) (hlen : B.length = 2 ^ w) (hj0 : j0 < B.length)
    (hpos : probePos hash B.length k j0 = i) (hhold : holdsKey B k i = true)
    (hbef : ∀ j, j < j0 → stopsAt hash B k j = false) :
    LookupBucketFor hash B k = some (true, some i) := by
  have hstop : stopsAt hash B k j0 = true := by
    simp only [stopsAt, Bool.or_eq_true]
    left
    rwa [hpos]
  have hfs : firstStop hash B k = some j0 := by
    unfold firstStop
    exact find_range_build hj0 hstop hbef
  have hchar := LookupBucketFor_eq_of_firstStop hash B k j0 hlen hfs
  rw [hchar, hpos, if_pos hhold]

theorem lookupLoop_miss_sound (B : List (Slot κ ν)) (k : κ) :
    ∀ fuel bn pa ft i, (∀ t, ft = some t → isTombAt B t = true) →
      lookupLoop B k fuel bn pa ft = some (false, i) →
      isEmptyAt B i = true ∨ isTombAt B i = true := by
  intro fuel
  induction fuel with
  | zero =>
    intro bn pa ft i _ h
    exact Option.noConfusion h
  | succ f ih =>
    intro bn pa ft i hft h
    replace h : lookupLoop B k (f + 1) bn pa ft = some (false, i) := h
    cases hslot : B.getD bn .empty with
    | empty =>
      rw [lookupLoop_step_empty B k pa f ft hslot] at h
      have h2 : (false, ft.getD bn) = (false, i) := Option.some.inj h
      have hi : ft.getD bn = i := congrArg Prod.snd h2
      cases ft with
      | none =>
        left
        simp only [Option.getD_none] at hi
        rw [← hi]
        exact isEmptyAt_iff.mpr hslot
      | some t =>
        right
        simp only [Option.getD_some] at hi
        rw [← hi]
        exact hft t rfl
    | tombstone =>
      rw [lookupLoop_step_tomb B k pa f ft hslot] at h
      refine ih _ _ _ _ ?_ h
      intro t ht
      have h2 : ft.getD bn = t := Option.some.inj ht
      cases ft with
      | none =>
        simp only [Option.getD_none] at h2
        rw [← h2]
        exact isTombAt_iff.mpr hslot
      | some t0 =>
        simp only [Option.getD_some] at h2
        rw [← h2]
        exact hft t0 rfl
    | full k' v =>
      rw [lookupLoop_step_full B k pa f ft hslot] at h
      by_cases hkk : k = k'
      · rw [if_pos hkk] at h
        have h2 : ((true, bn) : Bool × ℕ) = (false, i) := Option.some.inj h
        exact absurd (congrArg Prod.fst h2) (by simp)
      · rw [if_neg hkk] at h
        exact ih _ _ _ _ hft h

theorem LookupBucketFor_miss_sound (hash : κ → ℕ) (B : List (Slot κ ν)) (k : κ)
    {i : ℕ} (h : LookupBucketFor hash B k = some (false, some i)) :
    isEmptyAt B i = true ∨ isTombAt B i = true := by
  unfold LookupBucketFor at h
  by_cases h0 : B.length = 0
  · rw [if_pos h0] at h
    have h2 : ((false, none) : Bool × Option ℕ) = (false, some i) := Option.some.inj h
    exact Option.noConfusion (congrArg Prod.snd h2)
  · rw [if_neg h0] at h
    cases hl : lookupLoop B k (B.length * B.length + 1)
        (hash k &&& (B.length - 1)) 1 none with
    | none =>
      rw [hl] at h
      exact Option.noConfusion h
    | some rr =>
      rw [hl] at h
      simp only [Option.map_some'] at h
      have h2 : (rr.1, some rr.2) = (false, some i) := Option.some.inj h
      have hfl : rr.1 = false := congrArg Prod.fst h2
      have hi : rr.2 = i := Option.some.inj (congrArg Prod.snd h2)
      have hl' : lookupLoop B k (B.length * B.length + 1)
          (hash k &&& (B.length - 1)) 1 none = some (false, i) := by
        rw [hl, ← hfl, ← hi]
      exact lookupLoop_miss_sound B k _ _ _ _ _ (fun t ht => Option.noConfusion ht) hl'

theorem stopsAt_set_of_pos_ne (hash : κ → ℕ) (B : List (Slot κ ν)) (a : Slot κ ν)
    (k : κ) (i j : ℕ) (hne : probePos hash B.length k j ≠ i) :
    stopsAt hash (B.set i a) k j = stopsAt hash B k j := by
  unfold stopsAt holdsKey isEmptyAt slotAt
  rw [List.length_set, getD_set_ne _ _ _ _ _ (fun he => hne he.symm)]


/-! ### Findability is preserved by the bucket writes of insert and erase -/

theorem firstTombBefore_spec (hash : κ → ℕ) (B : List (Slot κ ν)) (k : κ) {j0 t : ℕ}
    (h : firstTombBefore hash B k j0 = some t) :
    ∃ j1, j1 < j0 ∧ probePos hash B.length k j1 = t ∧
      isTombAt B (probePos hash B.length k j1) = true := by
  unfold firstTombBefore at h
  rw [Option.map_eq_some'] at h
  obtain ⟨j1, hf, hj1t⟩ := h
  obtain ⟨hlt, hp, _⟩ := find_range_first hf
  exact ⟨j1, hlt, hj1t, by simpa using hp⟩

theorem holdsKey_set_ne (B : List (Slot κ ν)) (a : Slot κ ν) (k : κ) (i q : ℕ)
    (h : q ≠ i) : holdsKey (B.set i a) k q = holdsKey B k q := by
  unfold holdsKey slotAt
  rw [getD_set_ne _ _ _ _ _ fun he => h he.symm]

theorem holdsKey_of_full (B : List (Slot κ ν)) (k : κ) (v : ν) (i : ℕ)
    (h : B.getD i Slot.empty = Slot.full k v) : holdsKey B k i = true := by
  unfold holdsKey slotAt
  rw [h]
  simp

theorem holdsKey_full_ne (B : List (Slot κ ν)) (k0 k : κ) (v : ν) (pos : ℕ)
    (h : B.getD pos Slot.empty = Slot.full k v) (hne : k0 ≠ k) :
    holdsKey B k0 pos = false := by
  unfold holdsKey slotAt
  rw [h]
  simp [hne]

theorem isEmptyAt_false_of_full (B : List (Slot κ ν)) (k : κ) (v : ν) (pos : ℕ)
    (h : B.getD pos Slot.empty = Slot.full k v) : isEmptyAt B pos = false := by
  unfold isEmptyAt slotAt
  rw [h]

theorem stopsAt_false_of_full_ne (hash : κ → ℕ) (B : List (Slot κ ν)) (k0 : κ) (j : ℕ)
    (k : κ) (v : ν)
    (hslot : B.getD (probePos hash B.length k0 j) Slot.empty = Slot.full k v)
    (hne : k0 ≠ k) : stopsAt hash B k0 j = false := by
  unfold stopsAt
  rw [holdsKey_full_ne _ _ _ _ _ hslot hne, isEmptyAt_false_of_full _ _ _ _ hslot]
  rfl

theorem stopsAt_false_of_tomb (hash : κ → ℕ) (B : List (Slot κ ν)) (k0 : κ) (j : ℕ)
    (hslot : B.getD (probePos hash B.length k0 j) Slot.empty = Slot.tombstone) :
    stopsAt hash B k0 j = false := by
  unfold stopsAt holdsKey isEmptyAt slotAt
  rw [hslot]
  rfl

theorem set_full_preserves_findable (hash : κ → ℕ) {B : List (Slot κ ν)} {k : κ} (v : ν)
    {w i : ℕ} (hlen : B.length = 2 ^ w)
    (hmiss : LookupBucketFor hash B k = some (false, some i))
    (hfind : Findable hash B) :
    Findable hash (B.set i (Slot.full k v)) := by
  have hilt : i < B.length := LookupBucketFor_index_lt hash B k false i hmiss
  have hlen' : (B.set i (Slot.full k v)).length = B.length := List.length_set B i _
  have hlen2 : (B.set i (Slot.full k v)).length = 2 ^ w := by
    rw [hlen']
    exact hlen
  have habs : ∀ q (v' : ν), B.getD q Slot.empty ≠ Slot.full k v' := by
    intro q v' hq
    have hlk := hfind q k v' hq
    rw [hmiss] at hlk
    have h2 : ((false, some i) : Bool × Option ℕ) = (true, some q) := Option.some.inj hlk
    exact Bool.noConfusion (congrArg Prod.fst h2)
  obtain ⟨j0, hj0lt, hholdf, hempty, hbef, hieq⟩ := lookup_miss_shape hash B k hlen hmiss
  have hkey : ∃ j1, j1 < B.length ∧ probePos hash B.length k j1 = i ∧
      ∀ j, j < j1 → stopsAt hash B k j = false := by
    cases hft : firstTombBefore hash B k j0 with
    | none =>
      rw [hft] at hieq
      simp only [Option.getD_none] at hieq
      exact ⟨j0, hj0lt, hieq.symm, hbef⟩
    | some t =>
      rw [hft] at hieq
      simp only [Option.getD_some] at hieq
      obtain ⟨j1, hj1lt, hj1pos, _⟩ := firstTombBefore_spec hash B k hft
      subst hieq
      exact ⟨j1, by omega, hj1pos, fun j hj => hbef j (by omega)⟩
  obtain ⟨j1, hj1lt, hj1pos, hbef1⟩ := hkey
  intro q k0 v0 hq
  by_cases hqi : q = i
  · subst hqi
    have hfull : (B.set q (Slot.full k v)).getD q Slot.empty = Slot.full k v :=
      getD_set_self B q _ Slot.empty hilt
    rw [hfull] at hq
    injection hq with hk0 hv0
    subst hk0
    subst hv0
    refine lookup_eq_hit_of hash _ k j1 q hlen2 (by rw [hlen']; exact hj1lt)
      (by rw [hlen']; exact hj1pos) (holdsKey_of_full _ _ v _ hfull) ?_
    intro j hj
    by_cases hpj : probePos hash B.length k j = q
    · exfalso
      have hjw : j < 2 ^ w := by
        rw [← hlen]
        omega
      have hj1w : j1 < 2 ^ w := by
        rw [← hlen]
        exact hj1lt
      have hpp : probePos hash (2 ^ w) k j = probePos hash (2 ^ w) k j1 := by
        rw [← hlen, hpj, hj1pos]
      have : j = j1 := probePos_inj hash k hjw hj1w hpp
      omega
    · rw [stopsAt_set_of_pos_ne hash B _ k q j hpj]
      exact hbef1 j hj
  · rw [getD_set_ne B i q _ Slot.empty (fun he => hqi he.symm)] at hq
    have hlk := hfind q k0 v0 hq
    obtain ⟨j0h, hj0hlt, hposh, hholdh, hbefh⟩ := lookup_hit_shape hash B k0 hlen hlk
    have hk0k : k0 ≠ k := fun he => habs q v0 (he ▸ hq)
    refine lookup_eq_hit_of hash _ k0 j0h q hlen2 (by rw [hlen']; exact hj0hlt)
      (by rw [hlen']; exact hposh) ?_ ?_
    · rw [holdsKey_set_ne B _ k0 i q hqi]
      exact hholdh
    · intro j hj
      by_cases hpj : probePos hash B.length k0 j = i
      · refine stopsAt_false_of_full_ne hash _ k0 j k v ?_ hk0k
        have hpp : probePos hash (B.set i (Slot.full k v)).length k0 j = i := by
          rw [hlen']
          exact hpj
        rw [hpp]
        exact getD_set_self B i _ Slot.empty hilt
      · rw [stopsAt_set_of_pos_ne hash B _ k0 i j hpj]
        exact hbefh j hj

theorem set_tomb_preserves_findable (hash : κ → ℕ) {B : List (Slot κ ν)}
    {w i : ℕ} (hlen : B.length = 2 ^ w) (hilt : i < B.length)
    (hfind : Findable hash B) :
    Findable hash (B.set i Slot.tombstone) := by
  have hlen' : (B.set i Slot.tombstone).length = B.length := List.length_set B i _
  have hlen2 : (B.set i Slot.tombstone).length = 2 ^ w := by
    rw [hlen']
    exact hlen
  intro q k0 v0 hq
  by_cases hqi : q = i
  · subst hqi
    rw [getD_set_self B q Slot.tombstone Slot.empty hilt] at hq
    exact Slot.noConfusion hq
  · rw [getD_set_ne B i q Slot.tombstone Slot.empty (fun he => hqi he.symm)] at hq
    have hlk := hfind q k0 v0 hq
    obtain ⟨j0h, hj0hlt, hposh, hholdh, hbefh⟩ := lookup_hit_shape hash B k0 hlen hlk
    refine lookup_eq_hit_of hash _ k0 j0h q hlen2 (by rw [hlen']; exact hj0hlt)
      (by rw [hlen']; exact hposh) ?_ ?_
    · rw [holdsKey_set_ne B _ k0 i q hqi]
      exact hholdh
    · intro j hj
      by_cases hpj : probePos hash B.length k0 j = i
      · refine stopsAt_false_of_tomb hash _ k0 j ?_
        have hpp : probePos hash (B.set i Slot.tombstone).length k0 j = i := by
          rw [hlen']
          exact hpj
        rw [hpp]
        exact getD_set_self B i Slot.tombstone Slot.empty hilt
      · rw [stopsAt_set_of_pos_ne hash B Slot.tombstone k0 i j hpj]
        exact hbefh j hj


/-! ### Well-formedness of the rehash fold and of `Grow` (claim C4) -/

/-- A bucket array with no `TOMBSTONE` slot (a freshly rehashed table). -/
def NoTombs (B : List (Slot κ ν)) : Prop :=
  ∀ p, B.getD p Slot.empty ≠ Slot.tombstone

theorem length_keysOf (l : List (Slot κ ν)) : (keysOf l).length = countFull l := by
  induction l with
  | nil => rfl
  | cons s rest ih =>
    cases s with
    | empty =>
      have h1 : keysOf (Slot.empty :: rest) = keysOf rest := by
        simp [keysOf, List.filterMap_cons]
      rw [h1, countFull_cons_not_full
        (show isFullSlot (Slot.empty : Slot κ ν) = false from rfl) rest]
      exact ih
    | tombstone =>
      have h1 : keysOf (Slot.tombstone :: rest) = keysOf rest := by
        simp [keysOf, List.filterMap_cons]
      rw [h1, countFull_cons_not_full
        (show isFullSlot (Slot.tombstone : Slot κ ν) = false from rfl) rest]
      exact ih
    | full k v =>
      have h1 : keysOf (Slot.full k v :: rest) = k :: keysOf rest := by
        simp [keysOf, List.filterMap_cons]
      rw [h1, countFull_cons_full]
      simp [ih]

theorem reinsert_fold_wf (hash : κ → ℕ) {w : ℕ} (K : List κ) (hK : K.Nodup) :
    ∀ (rest : List (Slot κ ν)) (acc r : List (Slot κ ν) × ℕ),
      acc.1.length = 2 ^ w →
      NoTombs acc.1 →
      countFull acc.1 = acc.2 →
      (keysOf acc.1).Nodup →
      Findable hash acc.1 →
      (keysOf acc.1 ++ keysOf rest).Perm K →
      rest.foldlM (reinsertStep hash) acc = some r →
      r.1.length = 2 ^ w ∧ NoTombs r.1 ∧ countFull r.1 = r.2 ∧
        (keysOf r.1).Nodup ∧ Findable hash r.1 ∧ (keysOf r.1).Perm K := by
  intro rest
  induction rest with
  | nil =>
    intro acc r hlen hnt hcf hnd hfind hperm h
    have h' : some acc = some r := h
    obtain rfl : acc = r := Option.some.inj h'
    refine ⟨hlen, hnt, hcf, hnd, hfind, ?_⟩
    have hn : keysOf acc.1 ++ keysOf ([] : List (Slot κ ν)) = keysOf acc.1 := by
      show keysOf acc.1 ++ [] = keysOf acc.1
      exact List.append_nil _
    rwa [hn] at hperm
  | cons slot rest' ih =>
    intro acc r hlen hnt hcf hnd hfind hperm h
    rw [List.foldlM_cons] at h
    cases slot with
    | empty =>
      replace h : rest'.foldlM (reinsertStep hash) acc = some r := h
      refine ih acc r hlen hnt hcf hnd hfind ?_ h
      have he : keysOf (Slot.empty :: rest') = keysOf rest' := by
        simp [keysOf, List.filterMap_cons]
      rwa [he] at hperm
    | tombstone =>
      replace h : rest'.foldlM (reinsertStep hash) acc = some r := h
      refine ih acc r hlen hnt hcf hnd hfind ?_ h
      have he : keysOf (Slot.tombstone :: rest') = keysOf rest' := by
        simp [keysOf, List.filterMap_cons]
      rwa [he] at hperm
    | full k v =>
      replace h : ((LookupBucketFor hash acc.1 k).bind fun rr =>
          match rr.2 with
          | none => none
          | some i => some (acc.1.set i (Slot.full k v), acc.2 + 1)).bind
          (fun b => rest'.foldlM (reinsertStep hash) b) = some r := h
      have hkcons : keysOf (Slot.full k v :: rest') = k :: keysOf rest' := by
        simp [keysOf, List.filterMap_cons]
      rw [hkcons] at hperm
      have hndall : (keysOf acc.1 ++ k :: keysOf rest').Nodup := hperm.nodup_iff.mpr hK
      rw [List.nodup_append] at hndall
      obtain ⟨hndA, hndkR, hdisj⟩ := hndall
      have hkA : k ∉ keysOf acc.1 := fun hmem => hdisj hmem (List.mem_cons_self k _)
      cases hlk : LookupBucketFor hash acc.1 k with
      | none =>
        rw [hlk] at h
        exact Option.noConfusion h
      | some rr =>
        rw [hlk] at h
        obtain ⟨fl0, ob0⟩ := rr
        cases ob0 with
        | none =>
          have h' : (none : Option (List (Slot κ ν) × ℕ)) = some r := h
          exact Option.noConfusion h'
        | some i =>
          replace h : rest'.foldlM (reinsertStep hash)
              (acc.1.set i (Slot.full k v), acc.2 + 1) = some r := h
          have hfl : fl0 = false := by
            cases fl0 with
            | false => rfl
            | true =>
              obtain ⟨v', hv'⟩ := LookupBucketFor_hit_sound hash acc.1 k hlk
              exact absurd (mem_keysOf.mpr ⟨i, v', hv'⟩) hkA
          subst hfl
          have hilt : i < acc.1.length := LookupBucketFor_index_lt hash acc.1 k false i hlk
          have hmt := LookupBucketFor_miss_sound hash acc.1 k hlk
          have hEmp : isEmptyAt acc.1 i = true := by
            rcases hmt with he | ht
            · exact he
            · exact absurd (isTombAt_iff.mp ht) (hnt i)
          have hnf : isFullSlot (acc.1.getD i Slot.empty) = false :=
            isFullSlot_false_of_empty_or_tomb (Or.inl hEmp)
          have hpermA : List.Perm (keysOf (acc.1.set i (Slot.full k v)))
              (k :: keysOf acc.1) := keysOf_set_full_perm k v hilt hnf
          refine ih _ r ?_ ?_ ?_ ?_ ?_ ?_ h
          · show (acc.1.set i (Slot.full k v)).length = 2 ^ w
            rw [List.length_set]
            exact hlen
          · intro p
            show (acc.1.set i (Slot.full k v)).getD p Slot.empty ≠ Slot.tombstone
            by_cases hpi : p = i
            · subst hpi
              rw [getD_set_self acc.1 p _ Slot.empty hilt]
              exact fun hx => Slot.noConfusion hx
            · rw [getD_set_ne acc.1 i p _ Slot.empty fun he => hpi he.symm]
              exact hnt p
          · show countFull (acc.1.set i (Slot.full k v)) = acc.2 + 1
            rw [countFull_set_full k v hilt hnf, hcf]
          · exact hpermA.nodup_iff.mpr (List.nodup_cons.mpr ⟨hkA, hndA⟩)
          · exact set_full_preserves_findable hash v hlen hlk hfind
          · refine List.Perm.trans (List.Perm.append_right (keysOf rest') hpermA) ?_
            refine List.Perm.trans ?_ hperm
            exact List.perm_middle.symm

theorem Grow_wf (hash : κ → ℕ) (m : HashMap κ ν) (a : ℕ) (m2 : HashMap κ ν)
    (hnd : (keysOf m.Buckets).Nodup)
    (h : HashMap.Grow hash m a = some m2) :
    (∃ j, 6 ≤ j ∧ j ≤ 31 ∧ m2.Buckets.length = 2 ^ j) ∧
    m2.num_entries_ = countFull m2.Buckets ∧
    (keysOf m2.Buckets).Perm (keysOf m.Buckets) ∧
    NoTombs m2.Buckets ∧
    Findable hash m2.Buckets ∧
    m2.num_to_mbstones_ = 0 := by
  obtain ⟨j, hj6, hj31, hjeq⟩ := grow_size_pow2 a
  simp only [HashMap.Grow] at h
  split at h
  · rename_i h0
    obtain rfl := Option.some.inj h
    have hBnil : m.Buckets = [] := List.length_eq_zero.mp h0
    refine ⟨⟨j, hj6, hj31, ?_⟩, ?_, ?_, ?_, ?_, rfl⟩
    · show (List.replicate (max 64 (u32 (NextPowerOf2 (usub a 1))))
        (Slot.empty : Slot κ ν)).length = 2 ^ j
      rw [List.length_replicate]
      exact hjeq
    · show 0 = countFull (List.replicate (max 64 (u32 (NextPowerOf2 (usub a 1))))
        (Slot.empty : Slot κ ν))
      rw [countFull_replicate]
    · show List.Perm (keysOf (List.replicate (max 64 (u32 (NextPowerOf2 (usub a 1))))
        (Slot.empty : Slot κ ν))) (keysOf m.Buckets)
      rw [keysOf_replicate, hBnil]
      exact List.Perm.refl _
    · intro p
      show (List.replicate (max 64 (u32 (NextPowerOf2 (usub a 1))))
        (Slot.empty : Slot κ ν)).getD p Slot.empty ≠ Slot.tombstone
      rw [getD_replicate_empty]
      exact fun hx => Slot.noConfusion hx
    · exact findable_replicate hash _
  · rename_i h0
    cases hre : reinsertList hash m.Buckets
        (List.replicate (max 64 (u32 (NextPowerOf2 (usub a 1)))) Slot.empty) with
    | none =>
      rw [hre] at h
      exact Option.noConfusion h
    | some bn =>
      rw [hre] at h
      have h' : some ((⟨bn.1, bn.2, 0⟩ : HashMap κ ν)) = some m2 := h
      obtain rfl := Option.some.inj h'
      have hfold : m.Buckets.foldlM (reinsertStep hash)
          ((List.replicate (max 64 (u32 (NextPowerOf2 (usub a 1))))
            (Slot.empty : Slot κ ν)), 0) = some bn := hre
      have hlenf : (List.replicate (max 64 (u32 (NextPowerOf2 (usub a 1))))
          (Slot.empty : Slot κ ν)).length = 2 ^ j := by
        rw [List.length_replicate]
        exact hjeq
      have hres := reinsert_fold_wf hash (keysOf m.Buckets) hnd m.Buckets
        (List.replicate (max 64 (u32 (NextPowerOf2 (usub a 1)))) Slot.empty, 0) bn
        hlenf
        (by
          intro p
          rw [getD_replicate_empty]
          exact fun hx => Slot.noConfusion hx)
        (by rw [countFull_replicate])
        (by
          rw [keysOf_replicate]
          exact List.nodup_nil)
        (findable_replicate hash _)
        (by
          rw [keysOf_replicate]
          exact List.Perm.refl _)
        hfold
      obtain ⟨hlenr, hntr, hcfr, hndr, hfindr, hpermr⟩ := hres
      exact ⟨⟨j, hj6, hj31, hlenr⟩, hcfr.symm, hpermr, hntr, hfindr, rfl⟩


/-! ### The bucket counts computed by the growth triggers (claim C4) -/

theorem Grow_length_eq (hash : κ → ℕ) (m : HashMap κ ν) (a : ℕ) (m2 : HashMap κ ν)
    (h : HashMap.Grow hash m a = some m2) :
    m2.Buckets.length = max 64 (u32 (NextPowerOf2 (usub a 1))) := by
  simp only [HashMap.Grow] at h
  split at h
  · obtain rfl := Option.some.inj h
    show (List.replicate (max 64 (u32 (NextPowerOf2 (usub a 1))))
      (Slot.empty : Slot κ ν)).length = _
    exact List.length_replicate _ _
  · cases hre : reinsertList hash m.Buckets
        (List.replicate (max 64 (u32 (NextPowerOf2 (usub a 1)))) Slot.empty) with
    | none =>
      rw [hre] at h
      exact Option.noConfusion h
    | some bn =>
      rw [hre] at h
      have h' : some ((⟨bn.1, bn.2, 0⟩ : HashMap κ ν)) = some m2 := h
      obtain rfl := Option.some.inj h'
      show bn.1.length = _
      rw [reinsertList_length hash m.Buckets _ bn hre, List.length_replicate]

theorem newcap_pow2 {j : ℕ} (hj1 : 1 ≤ j) (hj : j ≤ 31) :
    max 64 (u32 (NextPowerOf2 (usub (2 ^ j) 1))) = max 64 (2 ^ j) := by
  have hlt : (2:ℕ) ^ j < 2 ^ 32 := Nat.pow_lt_pow_right (by norm_num) (by omega)
  rw [usub_eq_sub Nat.one_le_two_pow hlt,
      NextPowerOf2_two_pow_sub_one hj1 (by omega), u32_eq_of_lt hlt]

theorem newcap_double {j : ℕ} (hj1 : 1 ≤ j) (hj : j ≤ 30) :
    max 64 (u32 (NextPowerOf2 (usub (u32 (2 ^ j * 2)) 1))) = max 64 (2 ^ (j + 1)) := by
  have he : (2:ℕ) ^ j * 2 = 2 ^ (j + 1) := (pow_succ 2 j).symm
  have hlt : (2:ℕ) ^ (j + 1) < 2 ^ 32 := Nat.pow_lt_pow_right (by norm_num) (by omega)
  rw [he, u32_eq_of_lt hlt, usub_eq_sub Nat.one_le_two_pow hlt,
      NextPowerOf2_two_pow_sub_one (by omega) (by omega), u32_eq_of_lt hlt]

theorem newcap_wrap31 :
    max 64 (u32 (NextPowerOf2 (usub (u32 (2 ^ 31 * 2)) 1))) = 64 := by
  have he : (2:ℕ) ^ 31 * 2 = 2 ^ 32 := (pow_succ 2 31).symm
  have h0 : u32 (2 ^ 32) = 0 := by norm_num [u32]
  rw [he, h0, usub_zero_one,
      NextPowerOf2_two_pow_sub_one (by norm_num) (by norm_num), h0]
  simp

theorem newcap_zero : max 64 (u32 (NextPowerOf2 (usub (u32 (0 * 2)) 1))) = 64 := by
  have h00 : u32 (0 * 2) = 0 := by norm_num [u32]
  have h0 : u32 (2 ^ 32) = 0 := by norm_num [u32]
  rw [h00, usub_zero_one,
      NextPowerOf2_two_pow_sub_one (by norm_num) (by norm_num), h0]
  simp

theorem load_of_not_trigger1 {e L j : ℕ} (hj1 : 1 ≤ j) (hj : j ≤ 31) (hL : L = 2 ^ j)
    (hload : e * 4 < L * 3)
    (hnt : ¬ u32 ((e + 1) * 4) ≥ u32 (L * 3)) : (e + 1) * 4 < L * 3 := by
  unfold u32 at hnt
  push_neg at hnt
  have h32 : (2:ℕ) ^ 32 = 4294967296 := by norm_num
  rw [h32] at hnt
  rcases Nat.lt_or_ge j 31 with h30 | h31
  · have hLle : L ≤ 1073741824 := by
      rw [hL]
      calc (2:ℕ) ^ j ≤ 2 ^ 30 := Nat.pow_le_pow_right (by norm_num) (by omega)
      _ = 1073741824 := by norm_num
    have hb : (e + 1) * 4 < 4294967296 := by omega
    have hb2 : L * 3 < 4294967296 := by omega
    rw [Nat.mod_eq_of_lt hb, Nat.mod_eq_of_lt hb2] at hnt
    omega
  · have hj31 : j = 31 := by omega
    subst hj31
    have hLv : L = 2147483648 := by
      rw [hL]
      norm_num
    omega

theorem trigger1_31_absurd {e : ℕ} (he : e ≤ 64)
    (ht : u32 ((e + 1) * 4) ≥ u32 (2 ^ 31 * 3)) : False := by
  unfold u32 at ht
  have h32 : (2:ℕ) ^ 32 = 4294967296 := by norm_num
  have h31 : (2:ℕ) ^ 31 * 3 = 6442450944 := by norm_num
  rw [h32, h31] at ht
  omega

/-! ### `HInv` holds after each public operation (claim C4) -/

theorem HInv_fresh (hash : κ → ℕ) (c : ℕ)
    (hc : c = 0 ∨ ∃ j, 1 ≤ j ∧ j ≤ 31 ∧ c = 2 ^ j) :
    HInv hash (⟨List.replicate c Slot.empty, 0, 0⟩ : HashMap κ ν) := by
  refine ⟨?_, ?_, ?_, ?_, ?_⟩
  · show (List.replicate c (Slot.empty : Slot κ ν)).length = 0 ∨
      ∃ j, 1 ≤ j ∧ j ≤ 31 ∧ (List.replicate c (Slot.empty : Slot κ ν)).length = 2 ^ j
    rw [List.length_replicate]
    exact hc
  · show 0 = countFull (List.replicate c (Slot.empty : Slot κ ν))
    rw [countFull_replicate]
  · intro hpos
    have hpos' : 0 < (List.replicate c (Slot.empty : Slot κ ν)).length := hpos
    show 0 * 4 < (List.replicate c (Slot.empty : Slot κ ν)).length * 3
    omega
  · show (keysOf (List.replicate c (Slot.empty : Slot κ ν))).Nodup
    rw [keysOf_replicate]
    exact List.nodup_nil
  · exact findable_replicate hash c

theorem HInv_init (hash : κ → ℕ) (n : ℕ) : HInv hash (HashMap.init n : HashMap κ ν) :=
  HInv_fresh hash _ (getMinBucket_pow2 n)

theorem HInv_after_insert (hash : κ → ℕ) {B2 : List (Slot κ ν)} {k : κ} (v : ν)
    (j : ℕ) {i : ℕ} (hj1 : 1 ≤ j) (hj31 : j ≤ 31) (hlen : B2.length = 2 ^ j)
    (hmiss : LookupBucketFor hash B2 k = some (false, some i))
    (hnd : (keysOf B2).Nodup) (hfind : Findable hash B2)
    (hload : (countFull B2 + 1) * 4 < B2.length * 3)
    (m' : HashMap κ ν) (hB : m'.Buckets = B2.set i (Slot.full k v))
    (hE : m'.num_entries_ = countFull B2 + 1) : HInv hash m' := by
  have hilt : i < B2.length := LookupBucketFor_index_lt hash B2 k false i hmiss
  have hmt := LookupBucketFor_miss_sound hash B2 k hmiss
  have hnf : isFullSlot (B2.getD i Slot.empty) = false :=
    isFullSlot_false_of_empty_or_tomb hmt
  have habs : k ∉ keysOf B2 := by
    intro hmem
    obtain ⟨q, v', hq⟩ := mem_keysOf.mp hmem
    have hlk := hfind q k v' hq
    rw [hmiss] at hlk
    have h2 := Option.some.inj hlk
    exact Bool.noConfusion (congrArg Prod.fst h2)
  have hperm := keysOf_set_full_perm k v hilt hnf
  unfold HInv
  rw [hB, hE]
  refine ⟨?_, ?_, ?_, ?_, ?_⟩
  · refine Or.inr ⟨j, hj1, hj31, ?_⟩
    rw [List.length_set]
    exact hlen
  · rw [countFull_set_full k v hilt hnf]
  · intro hpos
    rw [List.length_set]
    exact hload
  · exact hperm.nodup_iff.mpr (List.nodup_cons.mpr ⟨habs, hnd⟩)
  · exact set_full_preserves_findable hash v hlen hmiss hfind


theorem HInv_after_grow_insert (hash : κ → ℕ) {m m2 : HashMap κ ν} {k : κ} (v : ν)
    {a : ℕ} (hg : HashMap.Grow hash m a = some m2)
    (hnd : (keysOf m.Buckets).Nodup) (hfind : Findable hash m.Buckets)
    {ob0 : Option ℕ} (hlk : LookupBucketFor hash m.Buckets k = some (false, ob0))
    {mi : HashMap κ ν × ℕ} {fl : Bool}
    (hlk2 : LookupBucketFor hash m2.Buckets k = some (fl, some mi.2))
    (hB : mi.1.Buckets = m2.Buckets)
    (hE : mi.1.num_entries_ = m2.num_entries_ + 1)
    (hload2 : (countFull m.Buckets + 1) * 4 < m2.Buckets.length * 3) :
    HInv hash ({ mi.1 with Buckets := mi.1.Buckets.set mi.2 (Slot.full k v) }) := by
  obtain ⟨⟨j2, hj26, hj231, hL2⟩, hcnt2, hperm2, _, hfind2, _⟩ := Grow_wf hash m a m2 hnd hg
  have hnd2 : (keysOf m2.Buckets).Nodup := hperm2.nodup_iff.mpr hnd
  have he2 : countFull m2.Buckets = countFull m.Buckets := by
    rw [← length_keysOf, ← length_keysOf]
    exact hperm2.length_eq
  have habs2 : k ∉ keysOf m2.Buckets := by
    intro hmem
    obtain ⟨q, v', hq⟩ := mem_keysOf.mp ((hperm2.mem_iff).mp hmem)
    have hl0 := hfind q k v' hq
    rw [hlk] at hl0
    have h2 := Option.some.inj hl0
    exact Bool.noConfusion (congrArg Prod.fst h2)
  have hfl : fl = false := by
    cases fl with
    | false => rfl
    | true =>
      obtain ⟨v', hv'⟩ := LookupBucketFor_hit_sound hash m2.Buckets k hlk2
      exact absurd (mem_keysOf.mpr ⟨mi.2, v', hv'⟩) habs2
  subst hfl
  refine HInv_after_insert hash v j2 (by omega) hj231 hL2 hlk2 hnd2 hfind2 ?_ _ ?_ ?_
  · rw [he2]
    exact hload2
  · show mi.1.Buckets.set mi.2 (Slot.full k v) = m2.Buckets.set mi.2 (Slot.full k v)
    rw [hB]
  · show mi.1.num_entries_ = countFull m2.Buckets + 1
    rw [hE, hcnt2]

theorem try_emplace_INV (hash : κ → ℕ) (m : HashMap κ ν) (k : κ) (v : ν)
    (r : HashMap κ ν × ℕ × Bool) (hinv : HInv hash m)
    (h : HashMap.try_emplace hash m k v = some r) : HInv hash r.1 := by
  obtain ⟨hcap, hcnt, hload, hnd, hfind⟩ := hinv
  unfold HashMap.try_emplace at h
  cases hlk : LookupBucketFor hash m.Buckets k with
  | none =>
    rw [hlk] at h
    exact Option.noConfusion h
  | some rr =>
    rw [hlk] at h
    obtain ⟨fl0, ob0⟩ := rr
    cases fl0 with
    | true =>
      cases ob0 with
      | none =>
        have hx : (none : Option (HashMap κ ν × ℕ × Bool)) = some r := h
        exact Option.noConfusion hx
      | some i =>
        have hx : some ((m, i, false) : HashMap κ ν × ℕ × Bool) = some r := h
        obtain rfl := Option.some.inj hx
        exact ⟨hcap, hcnt, hload, hnd, hfind⟩
    | false =>
      replace h : (HashMap.InsertIntoBucketImpl hash m k ob0).bind
          (fun mi => some (({ mi.1 with Buckets := mi.1.Buckets.set mi.2 (Slot.full k v) },
            mi.2, true) : HashMap κ ν × ℕ × Bool)) = some r := h
      cases hins : HashMap.InsertIntoBucketImpl hash m k ob0 with
      | none =>
        rw [hins] at h
        exact Option.noConfusion h
      | some mi =>
        rw [hins] at h
        have hx : some (({ mi.1 with Buckets := mi.1.Buckets.set mi.2 (Slot.full k v) },
            mi.2, true) : HashMap κ ν × ℕ × Bool) = some r := h
        obtain rfl := Option.some.inj hx
        obtain ⟨m2, hbig, hB, hE⟩ := InsertIntoBucketImpl_shape hash m k ob0 mi hins
        rcases hbig with ⟨hm2m, htb, hnt1⟩ | ⟨hgrow, fl, hlk2⟩
        · -- no growth trigger fired: write into the missed bucket of the old table
          rw [hm2m] at hB hE
          have hmiss : LookupBucketFor hash m.Buckets k = some (false, some mi.2) := by
            rw [hlk, htb]
          have hilt := LookupBucketFor_index_lt hash m.Buckets k false mi.2 hmiss
          rcases hcap with h0 | ⟨j, hj1, hj31, hLj⟩
          · exfalso
            omega
          · have hl := hload (by omega)
            rw [hcnt] at hl hnt1
            have hload2 : (countFull m.Buckets + 1) * 4 < m.Buckets.length * 3 :=
              load_of_not_trigger1 hj1 hj31 hLj hl hnt1
            refine HInv_after_insert hash v j hj1 hj31 hLj hmiss hnd hfind hload2 _ ?_ ?_
            · show mi.1.Buckets.set mi.2 (Slot.full k v)
                = m.Buckets.set mi.2 (Slot.full k v)
              rw [hB]
            · show mi.1.num_entries_ = countFull m.Buckets + 1
              rw [hE, hcnt]
        · rcases hgrow with ⟨hg, ht1⟩ | ⟨hg, hnt1⟩
          · -- the load trigger fired: grow to twice the bucket count
            rcases hcap with h0 | ⟨j, hj1, hj31, hLj⟩
            · have hB0 : m.Buckets = [] := List.length_eq_zero.mp h0
              have hcf0 : countFull m.Buckets = 0 := by
                rw [hB0]
                rfl
              have hthis := Grow_length_eq hash m _ m2 hg
              rw [h0] at hthis
              rw [newcap_zero] at hthis
              have hload2 : (countFull m.Buckets + 1) * 4 < m2.Buckets.length * 3 := by
                rw [hcf0, hthis]
                norm_num
              exact HInv_after_grow_insert hash v hg hnd hfind hlk hlk2 hB hE hload2
            · rcases Nat.lt_or_ge j 31 with hj30 | hj31'
              · have hthis := Grow_length_eq hash m _ m2 hg
                rw [hLj] at hthis
                rw [newcap_double hj1 (by omega)] at hthis
                have hl := hload (by
                  rw [hLj]
                  positivity)
                rw [hcnt, hLj] at hl
                have hge2 : (2:ℕ) ≤ 2 ^ j := by
                  calc (2:ℕ) = 2 ^ 1 := by norm_num
                  _ ≤ 2 ^ j := Nat.pow_le_pow_right (by norm_num) hj1
                have hload2 : (countFull m.Buckets + 1) * 4 < m2.Buckets.length * 3 := by
                  rw [hthis]
                  have h1 : 2 ^ (j + 1) ≤ max 64 (2 ^ (j + 1)) := le_max_right _ _
                  have h2 : (2:ℕ) ^ (j + 1) = 2 ^ j * 2 := pow_succ 2 j
                  omega
                exact HInv_after_grow_insert hash v hg hnd hfind hlk hlk2 hB hE hload2
              · -- capacity `2^31`: the trigger cannot fire on a table `Grow` can rehash
                exfalso
                have hj31e : j = 31 := by omega
                subst hj31e
                obtain ⟨⟨j2, _, _, hL2⟩, hcnt2, hperm2, _, _, _⟩ := Grow_wf hash m _ m2 hnd hg
                have he2 : countFull m2.Buckets = countFull m.Buckets := by
                  rw [← length_keysOf, ← length_keysOf]
                  exact hperm2.length_eq
                have hthis := Grow_length_eq hash m _ m2 hg
                rw [hLj] at hthis
                rw [newcap_wrap31] at hthis
                have hle : countFull m.Buckets ≤ 64 := by
                  rw [← he2]
                  calc countFull m2.Buckets ≤ m2.Buckets.length := countFull_le_length _
                  _ = 64 := hthis
                rw [hcnt, hLj] at ht1
                exact trigger1_31_absurd hle ht1
          · -- the tombstone-crowding trigger fired: rehash at the same bucket count
            rcases hcap with h0 | ⟨j, hj1, hj31, hLj⟩
            · exfalso
              apply hnt1
              rw [h0]
              have hz : u32 (0 * 3) = 0 := by norm_num [u32]
              rw [hz]
              exact Nat.zero_le _
            · have hl := hload (by
                rw [hLj]
                positivity)
              rw [hcnt] at hl hnt1
              rw [hLj] at hl hnt1
              have hnew : (countFull m.Buckets + 1) * 4 < 2 ^ j * 3 :=
                load_of_not_trigger1 hj1 hj31 rfl hl hnt1
              have hthis := Grow_length_eq hash m _ m2 hg
              rw [hLj] at hthis
              rw [newcap_pow2 hj1 hj31] at hthis
              have hload2 : (countFull m.Buckets + 1) * 4 < m2.Buckets.length * 3 := by
                rw [hthis]
                have h1 : 2 ^ j ≤ max 64 (2 ^ j) := le_max_right _ _
                omega
              exact HInv_after_grow_insert hash v hg hnd hfind hlk hlk2 hB hE hload2

theorem erase_INV (hash : κ → ℕ) (m : HashMap κ ν) (k : κ)
    (r : HashMap κ ν × Bool) (hinv : HInv hash m)
    (h : HashMap.erase hash m k = some r) : HInv hash r.1 := by
  obtain ⟨hcap, hcnt, hload, hnd, hfind⟩ := hinv
  unfold HashMap.erase at h
  cases hlk : LookupBucketFor hash m.Buckets k with
  | none =>
    rw [hlk] at h
    exact Option.noConfusion h
  | some rr =>
    rw [hlk] at h
    obtain ⟨fl0, ob0⟩ := rr
    cases fl0 with
    | false =>
      have hx : some ((m, false) : HashMap κ ν × Bool) = some r := h
      obtain rfl := Option.some.inj hx
      exact ⟨hcap, hcnt, hload, hnd, hfind⟩
    | true =>
      cases ob0 with
      | none =>
        have hx : (none : Option (HashMap κ ν × Bool)) = some r := h
        exact Option.noConfusion hx
      | some i =>
        have hx : some ((⟨m.Buckets.set i Slot.tombstone, usub m.num_entries_ 1,
            m.num_to_mbstones_ + 1⟩, true) : HashMap κ ν × Bool) = some r := h
        obtain rfl := Option.some.inj hx
        have hhit : LookupBucketFor hash m.Buckets k = some (true, some i) := hlk
        have hilt := LookupBucketFor_index_lt hash m.Buckets k true i hhit
        obtain ⟨v', hslot⟩ := LookupBucketFor_hit_sound hash m.Buckets k hhit
        obtain ⟨hcfs, hcfge⟩ := countFull_set_tomb hslot
        rcases hcap with h0 | ⟨j, hj1, hj31, hLj⟩
        · exfalso
          omega
        · have hLle : m.Buckets.length ≤ 2 ^ 31 := by
            rw [hLj]
            exact Nat.pow_le_pow_right (by norm_num) hj31
          have hePos : 1 ≤ m.num_entries_ := by
            rw [hcnt]
            exact hcfge
          have heLt : m.num_entries_ < 2 ^ 32 := by
            rw [hcnt]
            calc countFull m.Buckets ≤ m.Buckets.length := countFull_le_length _
            _ ≤ 2 ^ 31 := hLle
            _ < 2 ^ 32 := by norm_num
          have hus : usub m.num_entries_ 1 = m.num_entries_ - 1 := usub_eq_sub hePos heLt
          obtain ⟨A, C, hAC1, hAC2⟩ := keysOf_set_tomb_split hslot
          refine ⟨?_, ?_, ?_, ?_, ?_⟩
          · refine Or.inr ⟨j, hj1, hj31, ?_⟩
            show (m.Buckets.set i Slot.tombstone).length = 2 ^ j
            rw [List.length_set]
            exact hLj
          · show usub m.num_entries_ 1 = countFull (m.Buckets.set i Slot.tombstone)
            rw [hus, hcfs, hcnt]
          · intro hpos
            show usub m.num_entries_ 1 * 4 < (m.Buckets.set i Slot.tombstone).length * 3
            rw [hus, List.length_set]
            have hl := hload (by omega)
            omega
          · show (keysOf (m.Buckets.set i Slot.tombstone)).Nodup
            rw [hAC2]
            rw [hAC1] at hnd
            refine List.Nodup.sublist ?_ hnd
            refine List.Sublist.append_left ?_ A
            exact List.sublist_cons_self k C
          · show Findable hash (m.Buckets.set i Slot.tombstone)
            exact set_tomb_preserves_findable hash hLj hilt hfind

theorem shrink_INV (hash : κ → ℕ) (m : HashMap κ ν)
    (hcap : m.Buckets.length = 0 ∨ ∃ j, 1 ≤ j ∧ j ≤ 31 ∧ m.Buckets.length = 2 ^ j) :
    HInv hash (HashMap.shrink_and_clear m) := by
  simp only [HashMap.shrink_and_clear]
  split
  · split
    · exact HInv_fresh hash m.Buckets.length hcap
    · exact HInv_init hash _
  · split
    · exact HInv_fresh hash m.Buckets.length hcap
    · exact HInv_init hash _

theorem clear_INV (hash : κ → ℕ) (m : HashMap κ ν) (hinv : HInv hash m) :
    HInv hash (HashMap.clear m) := by
  obtain ⟨hcap, hcnt, hload, hnd, hfind⟩ := hinv
  simp only [HashMap.clear]
  split
  · exact ⟨hcap, hcnt, hload, hnd, hfind⟩
  · split
    · exact shrink_INV hash m hcap
    · exact HInv_fresh hash m.Buckets.length hcap

theorem reserve_INV (hash : κ → ℕ) (m : HashMap κ ν) (n : ℕ) (m2 : HashMap κ ν)
    (hinv : HInv hash m) (h : HashMap.reserve hash m n = some m2) : HInv hash m2 := by
  obtain ⟨hcap, hcnt, hload, hnd, hfind⟩ := hinv
  simp only [HashMap.reserve] at h
  split at h
  · rename_i hgt
    obtain ⟨⟨j2, hj26, hj231, hL2⟩, hcnt2, hperm2, _, hfind2, _⟩ := Grow_wf hash m _ m2 hnd h
    have hnd2 : (keysOf m2.Buckets).Nodup := hperm2.nodup_iff.mpr hnd
    have he2 : countFull m2.Buckets = countFull m.Buckets := by
      rw [← length_keysOf, ← length_keysOf]
      exact hperm2.length_eq
    refine ⟨Or.inr ⟨j2, by omega, hj231, hL2⟩, hcnt2, ?_, hnd2, hfind2⟩
    intro hpos
    rw [hcnt2, he2]
    rcases hcap with h0 | ⟨j, hj1, hj31, hLj⟩
    · have hB0 : m.Buckets = [] := List.length_eq_zero.mp h0
      have hcf0 : countFull m.Buckets = 0 := by
        rw [hB0]
        rfl
      rw [hcf0]
      omega
    · rcases getMinBucket_pow2 n with hg0 | ⟨jn, hjn1, hjn31, hgeq⟩
      · exfalso
        rw [hg0] at hgt
        omega
      · have hthis := Grow_length_eq hash m _ m2 h
        rw [hgeq, newcap_pow2 hjn1 hjn31] at hthis
        have hl := hload (by
          rw [hLj]
          positivity)
        rw [hcnt] at hl
        rw [hthis]
        rw [hgeq] at hgt
        have h1 : (2:ℕ) ^ jn ≤ max 64 (2 ^ jn) := le_max_right _ _
        omega
  · obtain rfl := Option.some.inj h
    exact ⟨hcap, hcnt, hload, hnd, hfind⟩

theorem applyHOp_INV (hash : κ → ℕ) (m m2 : HashMap κ ν) (op : HOp κ ν)
    (hinv : HInv hash m) (h : applyHOp hash m op = some m2) : HInv hash m2 := by
  cases op with
  | insert k v =>
    simp only [applyHOp] at h
    cases hx : HashMap.try_emplace hash m k v with
    | none =>
      rw [hx] at h
      exact Option.noConfusion h
    | some r =>
      rw [hx] at h
      simp only [Option.map_some'] at h
      obtain rfl := Option.some.inj h
      exact try_emplace_INV hash m k v r hinv hx
  | erase k =>
    simp only [applyHOp] at h
    cases hx : HashMap.erase hash m k with
    | none =>
      rw [hx] at h
      exact Option.noConfusion h
    | some r =>
      rw [hx] at h
      simp only [Option.map_some'] at h
      obtain rfl := Option.some.inj h
      exact erase_INV hash m k r hinv hx
  | clear =>
    simp only [applyHOp] at h
    obtain rfl := Option.some.inj h
    exact clear_INV hash m hinv
  | reserve n =>
    simp only [applyHOp] at h
    exact reserve_INV hash m n m2 hinv h

theorem foldHOps_INV (hash : κ → ℕ) :
    ∀ (ops : List (HOp κ ν)) (m0 m : HashMap κ ν), HInv hash m0 →
      ops.foldlM (applyHOp hash) m0 = some m → HInv hash m := by
  intro ops
  induction ops with
  | nil =>
    intro m0 m h0 h
    have h' : some m0 = some m := h
    obtain rfl := Option.some.inj h'
    exact h0
  | cons op rest ih =>
    intro m0 m h0 h
    rw [List.foldlM_cons] at h
    cases hx : applyHOp hash m0 op with
    | none =>
      rw [hx] at h
      exact Option.noConfusion h
    | some m1 =>
      rw [hx] at h
      replace h : rest.foldlM (applyHOp hash) m1 = some m := h
      exact ih m1 m (applyHOp_INV hash m0 m1 op h0 hx) h

/-- **Claim C4 (amended).**  After construction with any initial reserve and
any successful sequence of public operations (insert, erase, clear, reserve),
the heap-backed `HashMap`'s bucket capacity is 0 or a power of two `2^j` with
`1 ≤ j ≤ 31`, and whenever the capacity is nonzero the live-entry count
satisfies `entries*4 < capacity*3`.  The unqualified load bound of the
original claim fails at capacity 0 (a freshly constructed `HashMap(0)`), and
the capacity shape does not extend to `SmallHashMap`'s constructor — see the
counterexample theorem. -/
theorem densemap_C4_invariant (hash : κ → ℕ) (initialReserve : ℕ)
    (ops : List (HOp κ ν)) (m : HashMap κ ν)
    (h : runHOps hash initialReserve ops = some m) :
    (m.Buckets.length = 0 ∨ ∃ j, 1 ≤ j ∧ j ≤ 31 ∧ m.Buckets.length = 2 ^ j) ∧
    (0 < m.Buckets.length → m.num_entries_ * 4 < m.Buckets.length * 3) := by
  have hinv : HInv hash m := by
    unfold runHOps at h
    exact foldHOps_INV hash ops (HashMap.init initialReserve) m
      (HInv_init hash initialReserve) h
  exact ⟨hinv.1, hinv.2.2.1⟩

theorem densemap_C4_witness :
    runHOps (fun n => n) 1 [HOp.insert 3 4] =
      some (⟨[Slot.empty, Slot.empty, Slot.empty, Slot.full 3 4], 1, 0⟩ : HashMap ℕ ℕ) ∧
    (((⟨[Slot.empty, Slot.empty, Slot.empty, Slot.full 3 4], 1, 0⟩ :
          HashMap ℕ ℕ).Buckets.length = 0 ∨
        ∃ j, 1 ≤ j ∧ j ≤ 31 ∧
          (⟨[Slot.empty, Slot.empty, Slot.empty, Slot.full 3 4], 1, 0⟩ :
            HashMap ℕ ℕ).Buckets.length = 2 ^ j) ∧
      (0 < (⟨[Slot.empty, Slot.empty, Slot.empty, Slot.full 3 4], 1, 0⟩ :
            HashMap ℕ ℕ).Buckets.length →
        (⟨[Slot.empty, Slot.empty, Slot.empty, Slot.full 3 4], 1, 0⟩ :
            HashMap ℕ ℕ).num_entries_ * 4 <
          (⟨[Slot.empty, Slot.empty, Slot.empty, Slot.full 3 4], 1, 0⟩ :
            HashMap ℕ ℕ).Buckets.length * 3)) :=
  ⟨rfl, densemap_C4_invariant (fun n => n) 1 [HOp.insert 3 4] _ rfl⟩

end densemap
